import Mathlib

/-!
# BT-DHT bencode dissector (epan/dissectors/packet-bt-dht.c)

A shallow embedding of the recursive bencode decoder of the BitTorrent DHT
dissector, followed by theorems about it.

Conventions of the embedding

* A tvbuff is the list of its captured bytes.  Offsets and lengths are natural
  numbers: a tvbuff holds fewer than 2^31 bytes, so no offset inside it wraps
  in the `guint` arithmetic of the source.  A declared length that reaches past
  the end of the buffer is an out-of-bounds error of the accessor that receives
  it; this includes the declared length 2^32 - 1, which the `gint` length
  arguments of the source read as -1.
* The strings of the source are C strings.  A string buffer is the list of the
  bytes copied into it; `cstr` gives the part before the first NUL byte, which
  is what `strcmp`, `strlen` and the `%s` of a format see.  The keys of
  dictionary entries are compared with `strcmp`, as in the source.
* An `add_item` event records the `encoding` argument that the source passes
  to `proto_tree_add_item`.
* A dissector call has three possible outcomes (`Ret`): it returns an `int`
  (`ret n`, where `ret 0` is the failure value of the source), it is left by a
  bounds exception of the tvbuff accessors (`thrown`), or the model ran out of
  recursion fuel (`nofuel`, an artefact of the embedding which the termination
  theorem excludes).
* The calls made to the protocol-tree API are recorded, in call order, as a
  list of `Event`s, and the string stored through the `result` out-parameter
  is part of the outcome.

The namespace `Sabp` embeds, with the same conventions, the function
`dissect_sabp_cb_data` of epan/dissectors/asn1/sabp/packet-sabp-template.c.
-/

namespace BtDht

/-! ## Data model -/

/-- The captured bytes of one packet. -/
abbrev Tvb := List Nat

/-- The bytes of the ASCII string `s`. -/
def str (s : String) : List Nat := s.toList.map Char.toNat

/-- Outcome of a dissector call. -/
inductive Ret where
  | nofuel : Ret
  | thrown : Ret
  | ret (offset : Nat) : Ret
deriving DecidableEq, Repr

/-- Header fields registered by `proto_register_bt_dht` (plus the protocol item). -/
inductive Hf where
  | proto_bt_dht
  | hf_bencoded_int
  | hf_bencoded_string
  | hf_bencoded_list
  | hf_bencoded_dict
  | hf_bencoded_dict_entry
  | hf_bencoded_list_terminator
  | hf_bt_dht_error
  | hf_bt_dht_peers
  | hf_bt_dht_peer
  | hf_bt_dht_nodes
  | hf_bt_dht_node
  | hf_bt_dht_id
  | hf_ip
  | hf_ip6
  | hf_port
  | hf_truncated_data
deriving DecidableEq, Repr

/-- Expert-info fields registered by `proto_register_bt_dht`. -/
inductive Ei where
  | ei_int_string
  | ei_invalid_len
deriving DecidableEq, Repr

/-- The `encoding` arguments that the dissector passes to `proto_tree_add_item`;
`ENC_ASCII_NA` stands for `ENC_ASCII|ENC_NA`. -/
inductive Enc where
  | ENC_NA
  | ENC_BIG_ENDIAN
  | ENC_ASCII_NA
deriving DecidableEq, Repr

/-- One piece of a formatted item text: a literal part of the format string,
the argument of a `%s` (`txt`: the string passed, of which `printf` prints the
bytes before its first NUL), the argument of a `%d` / `%u`, or an address. -/
inductive Piece where
  | lit (s : String)
  | txt (bytes : List Nat)
  | num (n : Nat)
  | ipv4 (addr : List Nat)
  | ipv6 (addr : List Nat)
deriving DecidableEq, Repr

/-- One call to the protocol-tree API.  Items are named by their field and
start offset; a length of `none` is the source's `-1` (to the end of the
buffer); `add_item` records the `encoding` argument of `proto_tree_add_item`. -/
inductive Event where
  | add_item (hf : Hf) (encoding : Enc) (start : Nat) (length : Option Nat)
  | add_none_format (hf : Hf) (start : Nat) (length : Option Nat) (text : List Piece)
  | add_string_format (hf : Hf) (start : Nat) (length : Nat) (value : List Nat)
      (text : List Piece)
  | append_text (hf : Hf) (start : Nat) (text : List Piece)
  | set_text (hf : Hf) (start : Nat) (text : List Piece)
  | set_len (hf : Hf) (start : Nat) (length : Nat)
  | expert (ei : Ei) (start : Nat) (text : String)
  | col_set_str (column : String) (text : String)
  | col_clear (column : String)
  | col_append (text : List Piece)
deriving DecidableEq, Repr

/-- What a dissector call leaves behind: its return status, the tree events
it emitted (also those emitted before a failure), and the string written
through its `result` out-parameter (`none` when it was not written). -/
structure Out where
  ret : Ret
  events : List Event
  result : Option (List Nat)
deriving DecidableEq, Repr

/-! ## The tvbuff and string helpers used by the dissector -/

/-- Modelled from the spec: `tvb_get_guint8` of the tvbuff API (epan/tvbuff.c,
not among the sources).  Reading at or past the end of the buffer is an
out-of-bounds error (`none`), never a read outside the buffer. -/
def tvb_get_guint8 (tvb : Tvb) (offset : Nat) : Option Nat := tvb[offset]?

/-- Modelled from the spec: `tvb_captured_length_remaining` of the tvbuff API
(epan/tvbuff.c, not among the sources): the number of bytes from `offset` to
the end of the buffer, 0 when `offset` is past the end. -/
def tvb_captured_length_remaining (tvb : Tvb) (offset : Nat) : Nat := tvb.length - offset

/-- Modelled from the spec: the bounds check shared by the tvbuff accessors
that take a byte range (epan/tvbuff.c, not among the sources): the bytes
`[offset, offset + length)` when they all lie inside the buffer, an
out-of-bounds error (`none`) otherwise. -/
def tvb_bytes (tvb : Tvb) (offset length : Nat) : Option (List Nat) :=
  if offset + length ≤ tvb.length then some ((tvb.drop offset).take length) else none

/-- Modelled from the spec: `tvb_get_string_enc` with `ENC_ASCII` (epan/tvbuff.c,
not among the sources): the text of a byte span is the span itself. -/
def tvb_get_string_enc (tvb : Tvb) (offset length : Nat) : Option (List Nat) :=
  tvb_bytes tvb offset length

/-- Lower-case hexadecimal digit (as an ASCII byte) of a value below 16. -/
def hex_digit (n : Nat) : Nat := if n < 10 then 48 + n else 87 + n

/-- Hex dump of a byte span, two digits per byte. -/
def hex_dump (bytes : List Nat) : List Nat :=
  bytes.flatMap (fun b => [hex_digit (b / 16 % 16), hex_digit (b % 16)])

/-- Modelled from the spec: `tvb_bytes_to_str` (epan/tvbuff.c, not among the
sources): the hex dump of a byte span that lies inside the buffer. -/
def tvb_bytes_to_str (tvb : Tvb) (offset length : Nat) : Option (List Nat) :=
  (tvb_bytes tvb offset length).map hex_dump

/-- Modelled from the spec: `tvb_get_ntohs` (epan/tvbuff.c, not among the
sources): two bytes read big-endian. -/
def tvb_get_ntohs (tvb : Tvb) (offset : Nat) : Option Nat :=
  match tvb_bytes tvb offset 2 with
  | some [hi, lo] => some (256 * hi + lo)
  | _ => none

/-- ASCII decimal digit. -/
def is_digit (b : Nat) : Bool := decide (48 ≤ b) && decide (b ≤ 57)

/-- Worker of `decimal`: most significant digit first. -/
def decimal_aux : Nat → Nat → List Nat → List Nat
  | 0, _, acc => acc
  | fuel + 1, n, acc =>
    if n < 10 then (48 + n) :: acc
    else decimal_aux fuel (n / 10) ((48 + n % 10) :: acc)

/-- The unsigned decimal digits of `n` as ASCII bytes (the text of `%d` / `%u`). -/
def decimal (n : Nat) : List Nat := decimal_aux (n + 1) n []

/-- Value of a string of decimal digits. -/
def digits_value (s : List Nat) : Nat := s.foldl (fun acc b => acc * 10 + (b - 48)) 0

/-- Modelled from the spec: `ws_strtou32` (wsutil/strtoi.c, not among the
sources) called with a NULL end pointer: the whole string must be an unsigned
decimal number that fits 32 bits; `none` is the FALSE return. -/
def ws_strtou32 (s : List Nat) : Option Nat :=
  if s ≠ [] ∧ s.all is_digit = true ∧ digits_value s < 2 ^ 32 then some (digits_value s)
  else none

/-- Modelled from the spec: `tvb_ip_to_str` (epan/tvbuff.c, not among the
sources): the four address bytes at `offset` in dotted decimal. -/
def tvb_ip_to_str (tvb : Tvb) (offset : Nat) : Option (List Nat) :=
  match tvb_bytes tvb offset 4 with
  | some [a, b, c, d] =>
    some (decimal a ++ [46] ++ decimal b ++ [46] ++ decimal c ++ [46] ++ decimal d)
  | _ => none

/-- Modelled from the spec: `proto_tree_add_item` (epan/proto.c, not among the
sources) checks that the bytes of the item lie inside the buffer before adding
it: `none` is its bounds exception. -/
def proto_tree_add_item (tvb : Tvb) (hf : Hf) (encoding : Enc) (start length : Nat) :
    Option Event :=
  if start + length ≤ tvb.length then some (Event.add_item hf encoding start (some length))
  else none

/-- The table `short_key_name_value_string`. -/
def short_key_name_value_string : List (Nat × String) :=
  [(97, "Request arguments"), (101, "Error"), (113, "Request type"),
   (114, "Response values"), (116, "Transaction ID"), (118, "Version"),
   (121, "Message type")]

/-- The table `short_val_name_value_string`. -/
def short_val_name_value_string : List (Nat × String) :=
  [(101, "Error"), (113, "Request"), (114, "Response")]

/-- Modelled from the spec: `val_to_str_const` (epan/value_string.c, not among
the sources): the name of `v` in the table, `dflt` when it has none. -/
def val_to_str_const (v : Nat) (table : List (Nat × String)) (dflt : List Nat) : List Nat :=
  match table.lookup v with
  | some name => str name
  | none => dflt

/-- The constant `dict_str`. -/
def dict_str : List Nat := str "Dictionary..."

/-- The constant `list_str`. -/
def list_str : List Nat := str "List..."

/-- The string argument of a `%s` for a pointer that may be NULL. -/
def printf_s (s : Option (List Nat)) : List Nat := s.getD (str "(null)")

/-- The C string that starts a buffer holding the bytes `s`: the bytes before
the first NUL, all of `s` when it holds none (the buffers that
`tvb_get_string_enc` returns end with a NUL after the copied bytes).  It is
what `strcmp`, `strlen` and a `%s` of `printf` see of the buffer. -/
def cstr (s : List Nat) : List Nat := s.takeWhile (fun b => b != 0)

/-- The C library function `strlen`. -/
def strlen (s : List Nat) : Nat := (cstr s).length

/-- The C library function `strcmp`: 0 when the two C strings are equal, else
the sign of the lexicographic comparison of their bytes. -/
def strcmp (a b : List Nat) : Int :=
  if cstr a = cstr b then 0 else if cstr a < cstr b then -1 else 1

/-! ## Length prefix, byte-string and integer -/

/-- The scanning loop of `bencoded_string_length`:
`while (tvb_get_guint8(tvb, offset) != ':' && remaining--) ++offset;`
It yields the offset and the value of `remaining` after the loop (the
post-decrement of a zero `guint` wraps), or `none` when the read throws. -/
def bencoded_string_length_scan (tvb : Tvb) : Nat → Nat → Option (Nat × Nat)
  | 0, offset =>
    match tvb_get_guint8 tvb offset with
    | none => none
    | some b => if b = 58 then some (offset, 0) else some (offset, 2 ^ 32 - 1)
  | remaining + 1, offset =>
    match tvb_get_guint8 tvb offset with
    | none => none
    | some b =>
      if b = 58 then some (offset, remaining + 1)
      else bencoded_string_length_scan tvb remaining (offset + 1)

/-- The function `bencoded_string_length`: the pair of the returned length and
the value left in `*offset_ptr`; `none` when a tvbuff read throws. -/
def bencoded_string_length (tvb : Tvb) (offset_ptr : Nat) : Option (Nat × Nat) :=
  let remaining := tvb_captured_length_remaining tvb offset_ptr
  let start := offset_ptr
  match bencoded_string_length_scan tvb remaining offset_ptr with
  | none => none
  | some (offset, remaining) =>
    if remaining ≠ 0 then
      match tvb_get_string_enc tvb start (offset - start) with
      | none => none
      | some s =>
        match ws_strtou32 s with
        | some len => some (len, offset + 1)
        | none => some (0, offset_ptr)
    else some (0, offset_ptr)

/-- The function `dissect_bencoded_string`. -/
def dissect_bencoded_string (tvb : Tvb) (offset : Nat) (tohex : Bool) (label : String) : Out :=
  match bencoded_string_length tvb offset with
  | none => ⟨Ret.thrown, [], none⟩
  | some (string_len, offset) =>
    if string_len = 0 then ⟨Ret.ret 0, [], none⟩
    else
      match (if tohex then tvb_bytes_to_str tvb offset string_len
             else tvb_get_string_enc tvb offset string_len) with
      | none => ⟨Ret.thrown, [], none⟩
      | some result =>
        ⟨Ret.ret (offset + string_len),
         [Event.add_string_format Hf.hf_bencoded_string offset string_len result
            [Piece.lit label, Piece.lit ": ", Piece.txt result]],
         some result⟩

/-- The loop `while (tvb_get_guint8(tvb, offset) != c) offset += 1;` (the scan
of `dissect_bencoded_int` for `e`), run over the unread part of the buffer:
`rest` is the buffer from `offset` on.  It yields the offset of the first byte
`c`, or `none` when the read at the end of the buffer throws. -/
def scan_until (c : Nat) : List Nat → Nat → Option Nat
  | [], _ => none
  | b :: rest, offset =>
    if b = c then some offset else scan_until c rest (offset + 1)

/-- The function `dissect_bencoded_int`. -/
def dissect_bencoded_int (tvb : Tvb) (offset : Nat) (label : String) : Out :=
  let offset := offset + 1
  let start_offset := offset
  match scan_until 101 (tvb.drop offset) offset with
  | none => ⟨Ret.thrown, [], none⟩
  | some offset =>
    match tvb_get_string_enc tvb start_offset (offset - start_offset) with
    | none =>
      ⟨Ret.thrown, [Event.add_item Hf.hf_bencoded_list_terminator Enc.ENC_ASCII_NA offset (some 1)], none⟩
    | some result =>
      ⟨Ret.ret (offset + 1),
       [Event.add_item Hf.hf_bencoded_list_terminator Enc.ENC_ASCII_NA offset (some 1),
        Event.add_string_format Hf.hf_bencoded_int start_offset (offset - start_offset) result
          [Piece.lit label, Piece.lit ": ", Piece.txt result]],
       some result⟩

/-! ## Error list, values list and nodes string -/

/-- The function `dissect_bt_dht_error`.  The string stored in `*result` is the
one built by `wmem_strdup_printf("error %s, %s", error_no, error_msg)`: each
`%s` contributes its argument up to the first NUL. -/
def dissect_bt_dht_error (tvb : Tvb) (offset : Nat) (label : String) : Out :=
  let ti := Event.add_item Hf.hf_bt_dht_error Enc.ENC_NA offset (some 0)
  let ti_start := offset
  let offset := offset + 1
  let no := dissect_bencoded_int tvb offset "Error ID"
  match no.ret with
  | Ret.nofuel => ⟨Ret.nofuel, ti :: no.events, none⟩
  | Ret.thrown => ⟨Ret.thrown, ti :: no.events, none⟩
  | Ret.ret offset =>
    let msg := dissect_bencoded_string tvb offset false "Error Message"
    match msg.ret with
    | Ret.nofuel => ⟨Ret.nofuel, ti :: no.events ++ msg.events, none⟩
    | Ret.thrown => ⟨Ret.thrown, ti :: no.events ++ msg.events, none⟩
    | Ret.ret offset =>
      let error_no := printf_s no.result
      let error_msg := printf_s msg.result
      ⟨Ret.ret offset,
       ti :: no.events ++ msg.events ++
        [Event.set_text Hf.hf_bt_dht_error ti_start
           [Piece.lit label, Piece.lit ": error ", Piece.txt error_no, Piece.lit ", ",
            Piece.txt error_msg],
         Event.col_append
           [Piece.lit "error_no=", Piece.txt error_no, Piece.lit " error_msg=",
            Piece.txt error_msg, Piece.lit " "]],
       some (str "error " ++ cstr error_no ++ str ", " ++ cstr error_msg)⟩

/-- The events of one 6-byte element of a `values` list (an IPv4 peer), or
`none` when adding one of its items throws. -/
def values_peer4 (tvb : Tvb) (offset peer_index : Nat) : Option (List Event) :=
  match proto_tree_add_item tvb Hf.hf_bt_dht_peer Enc.ENC_NA offset 6,
        proto_tree_add_item tvb Hf.hf_ip Enc.ENC_BIG_ENDIAN offset 4,
        proto_tree_add_item tvb Hf.hf_port Enc.ENC_BIG_ENDIAN (offset + 4) 2,
        tvb_bytes tvb offset 4, tvb_get_ntohs tvb (offset + 4) with
  | some value_ti, some ip, some port, some addr, some p =>
    some [value_ti,
          Event.append_text Hf.hf_bt_dht_peer offset [Piece.lit " ", Piece.num peer_index],
          ip,
          Event.append_text Hf.hf_bt_dht_peer offset [Piece.lit " (IP/Port: ", Piece.ipv4 addr],
          port,
          Event.append_text Hf.hf_bt_dht_peer offset [Piece.lit ":", Piece.num p, Piece.lit ")"]]
  | _, _, _, _, _ => none

/-- The events of one 18-byte element of a `values` list (an IPv6 peer), or
`none` when adding one of its items throws. -/
def values_peer6 (tvb : Tvb) (offset peer_index : Nat) : Option (List Event) :=
  match proto_tree_add_item tvb Hf.hf_bt_dht_peer Enc.ENC_NA offset 18,
        proto_tree_add_item tvb Hf.hf_ip6 Enc.ENC_NA offset 16,
        proto_tree_add_item tvb Hf.hf_port Enc.ENC_BIG_ENDIAN (offset + 16) 2,
        tvb_bytes tvb offset 16, tvb_get_ntohs tvb (offset + 16) with
  | some value_ti, some ip, some port, some addr, some p =>
    some [value_ti,
          Event.append_text Hf.hf_bt_dht_peer offset [Piece.lit " ", Piece.num peer_index],
          ip,
          Event.append_text Hf.hf_bt_dht_peer offset
            [Piece.lit " (IPv6/Port: [", Piece.ipv6 addr, Piece.lit "]"],
          port,
          Event.append_text Hf.hf_bt_dht_peer offset [Piece.lit ":", Piece.num p, Piece.lit ")"]]
  | _, _, _, _, _ => none

/-- The `while` loop of `dissect_bt_dht_values` together with the code after
it; `ti_start` is the offset of the list (of the peers item) and `label` the
label of the caller.  The loop stops at the byte `e`, so the test after the
loop always holds. -/
def dissect_bt_dht_values_loop : Nat → Tvb → Nat → String → Nat → Nat → Out
  | 0, _, _, _, _, _ => ⟨Ret.nofuel, [], none⟩
  | fuel + 1, tvb, ti_start, label, peer_index, offset =>
    match tvb_get_guint8 tvb offset with
    | none => ⟨Ret.thrown, [], none⟩
    | some b =>
      if b = 101 then
        ⟨Ret.ret (offset + 1),
         [Event.add_item Hf.hf_bencoded_list_terminator Enc.ENC_ASCII_NA offset (some 1),
          Event.set_text Hf.hf_bt_dht_peers ti_start
            [Piece.lit label, Piece.lit ": ", Piece.num peer_index, Piece.lit " peers"],
          Event.col_append [Piece.lit " reply=", Piece.num peer_index, Piece.lit " peers"]],
         some (decimal peer_index ++ str " peers")⟩
      else
        match bencoded_string_length tvb offset with
        | none => ⟨Ret.thrown, [], none⟩
        | some (string_len, offset) =>
          if string_len = 0 then
            ⟨Ret.ret 0, [Event.expert Ei.ei_invalid_len ti_start "Invalid length"], none⟩
          else if string_len = 6 then
            match values_peer4 tvb offset (peer_index + 1) with
            | none => ⟨Ret.thrown, [], none⟩
            | some evs =>
              let k := dissect_bt_dht_values_loop fuel tvb ti_start label (peer_index + 1)
                         (offset + string_len)
              ⟨k.ret, evs ++ k.events, k.result⟩
          else if string_len = 18 then
            match values_peer6 tvb offset (peer_index + 1) with
            | none => ⟨Ret.thrown, [], none⟩
            | some evs =>
              let k := dissect_bt_dht_values_loop fuel tvb ti_start label (peer_index + 1)
                         (offset + string_len)
              ⟨k.ret, evs ++ k.events, k.result⟩
          else
            match proto_tree_add_item tvb Hf.hf_truncated_data Enc.ENC_NA offset string_len with
            | none => ⟨Ret.thrown, [], none⟩
            | some ev =>
              let k := dissect_bt_dht_values_loop fuel tvb ti_start label peer_index
                         (offset + string_len)
              ⟨k.ret, ev :: k.events, k.result⟩

/-- The function `dissect_bt_dht_values`. -/
def dissect_bt_dht_values (fuel : Nat) (tvb : Tvb) (offset : Nat) (label : String) : Out :=
  let ti := Event.add_item Hf.hf_bt_dht_peers Enc.ENC_NA offset (some 0)
  let k := dissect_bt_dht_values_loop fuel tvb offset label 0 (offset + 1)
  ⟨k.ret, ti :: k.events, k.result⟩

/-- The events of one node record of `dissect_bt_dht_nodes`, or `none` when
adding one of its items throws. -/
def nodes_node (tvb : Tvb) (offset node_index node_byte_length : Nat) ( is_ipv6 : Bool) :
    Option (List Event) :=
  match proto_tree_add_item tvb Hf.hf_bt_dht_node Enc.ENC_NA offset node_byte_length,
        proto_tree_add_item tvb Hf.hf_bt_dht_id Enc.ENC_NA offset 20,
        tvb_bytes_to_str tvb offset 20 with
  | some node_ti, some id, some idstr =>
    let head :=
      [node_ti,
       Event.append_text Hf.hf_bt_dht_node offset [Piece.lit " ", Piece.num node_index],
       id,
       Event.append_text Hf.hf_bt_dht_node offset [Piece.lit " (id: ", Piece.txt idstr]]
    if is_ipv6 then
      match proto_tree_add_item tvb Hf.hf_ip6 Enc.ENC_NA (offset + 20) 16, tvb_bytes tvb (offset + 20) 16,
            proto_tree_add_item tvb Hf.hf_port Enc.ENC_BIG_ENDIAN (offset + 36) 2, tvb_get_ntohs tvb (offset + 36) with
      | some ip, some addr, some port, some p =>
        some (head ++
          [ip,
           Event.append_text Hf.hf_bt_dht_node offset
             [Piece.lit ", IPv6/Port: [", Piece.ipv6 addr, Piece.lit "]"],
           port,
           Event.append_text Hf.hf_bt_dht_node offset [Piece.lit ":", Piece.num p, Piece.lit ")"]])
      | _, _, _, _ => none
    else
      match proto_tree_add_item tvb Hf.hf_ip Enc.ENC_BIG_ENDIAN (offset + 20) 4, tvb_bytes tvb (offset + 20) 4,
            proto_tree_add_item tvb Hf.hf_port Enc.ENC_BIG_ENDIAN (offset + 24) 2, tvb_get_ntohs tvb (offset + 24) with
      | some ip, some addr, some port, some p =>
        some (head ++
          [ip,
           Event.append_text Hf.hf_bt_dht_node offset [Piece.lit ", IPv4/Port: ", Piece.ipv4 addr],
           port,
           Event.append_text Hf.hf_bt_dht_node offset [Piece.lit ":", Piece.num p, Piece.lit ")"]])
      | _, _, _, _ => none
  | _, _, _ => none

/-- The `for` loop of `dissect_bt_dht_nodes` together with the code after it;
`ti_start` is the start of the nodes item and `label` the label of the
caller. -/
def dissect_bt_dht_nodes_loop :
    Nat → Tvb → Nat → String → Bool → Nat → Nat → Nat → Nat → Out
  | 0, _, _, _, _, _, _, _, _ => ⟨Ret.nofuel, [], none⟩
  | fuel + 1, tvb, ti_start, label, is_ipv6, node_byte_length, node_index, string_len, offset =>
    if node_byte_length ≤ string_len then
      match nodes_node tvb offset (node_index + 1) node_byte_length is_ipv6 with
      | none => ⟨Ret.thrown, [], none⟩
      | some evs =>
        let k := dissect_bt_dht_nodes_loop fuel tvb ti_start label is_ipv6 node_byte_length
                   (node_index + 1) (string_len - node_byte_length) (offset + node_byte_length)
        ⟨k.ret, evs ++ k.events, k.result⟩
    else
      let done :=
        [Event.set_text Hf.hf_bt_dht_nodes ti_start
           [Piece.lit label, Piece.lit ": ", Piece.num node_index, Piece.lit " nodes"],
         Event.col_append [Piece.lit " reply=", Piece.num node_index, Piece.lit " nodes"]]
      if 0 < string_len then
        match proto_tree_add_item tvb Hf.hf_truncated_data Enc.ENC_NA offset string_len with
        | none => ⟨Ret.thrown, [], none⟩
        | some ev => ⟨Ret.ret (offset + string_len), ev :: done, some (decimal node_index)⟩
      else ⟨Ret.ret offset, done, some (decimal node_index)⟩

/-- The function `dissect_bt_dht_nodes`. -/
def dissect_bt_dht_nodes (fuel : Nat) (tvb : Tvb) (offset : Nat) (label : String)
    ( is_ipv6 : Bool) : Out :=
  match bencoded_string_length tvb offset with
  | none => ⟨Ret.thrown, [], none⟩
  | some (string_len, offset) =>
    match proto_tree_add_item tvb Hf.hf_bt_dht_nodes Enc.ENC_NA offset string_len with
    | none => ⟨Ret.thrown, [], none⟩
    | some ti =>
      let node_byte_length := if is_ipv6 then 38 else 26
      let k := dissect_bt_dht_nodes_loop fuel tvb offset label is_ipv6 node_byte_length 0
                 string_len offset
      ⟨k.ret, ti :: k.events, k.result⟩

/-- The `ip` branch of `dissect_bencoded_dict_entry` (BEP 42). -/
def dissect_bencoded_dict_entry_ip (tvb : Tvb) (offset : Nat) : Out :=
  let old_offset := offset
  match bencoded_string_length tvb offset with
  | none => ⟨Ret.thrown, [], none⟩
  | some (len, offset) =>
    if len = 6 then
      match proto_tree_add_item tvb Hf.hf_ip Enc.ENC_BIG_ENDIAN offset 4, tvb_ip_to_str tvb offset,
            proto_tree_add_item tvb Hf.hf_port Enc.ENC_BIG_ENDIAN (offset + 4) 2 with
      | some ip, some val, some port => ⟨Ret.ret (offset + 4 + 2), [ip, port], some val⟩
      | some ip, some _, none => ⟨Ret.thrown, [ip], none⟩
      | _, _, _ => ⟨Ret.thrown, [], none⟩
    else dissect_bencoded_string tvb old_offset true "Value"

/-! ## Lists, dictionaries and dictionary entries -/

/-- The flag `tohex` of `dissect_bencoded_dict_entry`: whether the key is one of
those whose byte-string value is rendered as a hex dump
(`tohex = strcmp(key,"id")==0 || strcmp(key,"target")==0 || ...`). -/
def tohex_key (key : List Nat) : Bool :=
  decide (strcmp key (str "id") = 0) || decide (strcmp key (str "target") = 0)
    || decide (strcmp key (str "info_hash") = 0) || decide (strcmp key (str "t") = 0)
    || decide (strcmp key (str "v") = 0) || decide (strcmp key (str "token") = 0)

/-- The replacement of a one-character string by its name in `table`
(`if (s && strlen(s) == 1) s = val_to_str_const(s[0], table, s)`). -/
def short_name (table : List (Nat × String)) (s : List Nat) : List Nat :=
  if strlen s = 1 then val_to_str_const (s.headD 0) table s else s

/-- The end of `dissect_bencoded_dict_entry`, after key and value have been
dissected successfully: the entry's text and length are set. -/
def dict_entry_finish (orig_offset offset : Nat) (key val : List Nat) : List Event :=
  let key := short_name short_key_name_value_string key
  let val := short_name short_val_name_value_string val
  [Event.set_text Hf.hf_bencoded_dict_entry orig_offset
     [Piece.txt key, Piece.lit ": ", Piece.txt val],
   Event.set_len Hf.hf_bencoded_dict_entry orig_offset (offset - orig_offset)] ++
  (if strcmp key (str "message_type") = 0 ∨ strcmp key (str "request_type") = 0 then
     [Event.col_append [Piece.txt key, Piece.lit "=", Piece.txt val, Piece.lit " "]]
   else [])

mutual

/-- The function `dissect_bencoded_list`. -/
def dissect_bencoded_list : Nat → Tvb → Nat → String → Out
  | 0, _, _, _ => ⟨Ret.nofuel, [], none⟩
  | fuel + 1, tvb, offset, label =>
    let ti := Event.add_none_format Hf.hf_bencoded_list offset (some 0)
                [Piece.lit label, Piece.lit ": list..."]
    let k := dissect_bencoded_list_loop fuel tvb (offset + 1)
    ⟨k.ret, ti :: k.events, none⟩
termination_by structural fuel _ _ _ => fuel

/-- The `switch (one_byte)` in the loop of `dissect_bencoded_list`: the
dissection of one list element that starts at `offset` with byte `one_byte`. -/
def dissect_bencoded_list_element : Nat → Tvb → Nat → Nat → Out
  | 0, _, _, _ => ⟨Ret.nofuel, [], none⟩
  | fuel + 1, tvb, offset, one_byte =>
    if one_byte = 105 then dissect_bencoded_int tvb offset "Integer"
    else if one_byte = 108 then dissect_bencoded_list fuel tvb offset "Sub-list"
    else if one_byte = 100 then dissect_bencoded_dict fuel tvb offset "Sub-dict"
    else dissect_bencoded_string tvb offset false "String"
termination_by structural fuel _ _ _ => fuel

/-- The `while` loop of `dissect_bencoded_list` together with the code after
it, entered with `offset` at the next element. -/
def dissect_bencoded_list_loop : Nat → Tvb → Nat → Out
  | 0, _, _ => ⟨Ret.nofuel, [], none⟩
  | fuel + 1, tvb, offset =>
    match tvb_get_guint8 tvb offset with
    | none => ⟨Ret.thrown, [], none⟩
    | some one_byte =>
      if one_byte = 101 then
        ⟨Ret.ret (offset + 1), [Event.add_item Hf.hf_bencoded_list_terminator Enc.ENC_ASCII_NA offset (some 1)],
         none⟩
      else
        let start_offset := offset
        let r := dissect_bencoded_list_element fuel tvb offset one_byte
        match r.ret with
        | Ret.nofuel => ⟨Ret.nofuel, r.events, none⟩
        | Ret.thrown => ⟨Ret.thrown, r.events, none⟩
        | Ret.ret offset =>
          if offset ≤ start_offset then
            ⟨Ret.ret 0,
             r.events ++ [Event.expert Ei.ei_int_string offset "String must contain an integer"],
             none⟩
          else
            let k := dissect_bencoded_list_loop fuel tvb offset
            ⟨k.ret, r.events ++ k.events, none⟩
termination_by structural fuel _ _ => fuel

/-- The `switch` on the first byte of the value in
`dissect_bencoded_dict_entry`: the dissection of the value that starts at
`offset` with byte `b`, under the key `key`. -/
def dissect_bencoded_dict_entry_value : Nat → Tvb → Nat → List Nat → Nat → Out
  | 0, _, _, _, _ => ⟨Ret.nofuel, [], none⟩
  | fuel + 1, tvb, offset, key, b =>
    if b = 100 then
      let d := dissect_bencoded_dict fuel tvb offset "Value"
      ⟨d.ret, d.events, some dict_str⟩
    else if b = 108 then
      if strcmp key (str "e") = 0 then dissect_bt_dht_error tvb offset "Value"
      else if strcmp key (str "values") = 0 then dissect_bt_dht_values fuel tvb offset "Value"
      else
        let l := dissect_bencoded_list fuel tvb offset "Value"
        ⟨l.ret, l.events, some list_str⟩
    else if b = 105 then dissect_bencoded_int tvb offset "Value"
    else if strcmp key (str "nodes") = 0 then dissect_bt_dht_nodes fuel tvb offset "Value" false
    else if strcmp key (str "nodes6") = 0 then dissect_bt_dht_nodes fuel tvb offset "Value" true
    else if strcmp key (str "ip") = 0 then dissect_bencoded_dict_entry_ip tvb offset
    else dissect_bencoded_string tvb offset (tohex_key key) "Value"
termination_by structural fuel _ _ _ _ => fuel

/-- The function `dissect_bencoded_dict_entry`. -/
def dissect_bencoded_dict_entry : Nat → Tvb → Nat → Out
  | 0, _, _ => ⟨Ret.nofuel, [], none⟩
  | fuel + 1, tvb, offset =>
    let orig_offset := offset
    let ti := Event.add_item Hf.hf_bencoded_dict_entry Enc.ENC_NA offset (some 0)
    let k := dissect_bencoded_string tvb offset false "Key"
    match k.ret with
    | Ret.nofuel => ⟨Ret.nofuel, ti :: k.events, none⟩
    | Ret.thrown => ⟨Ret.thrown, ti :: k.events, none⟩
    | Ret.ret offset =>
      if offset = 0 then
        ⟨Ret.ret 0,
         ti :: k.events ++ [Event.expert Ei.ei_int_string offset "Invalid string for Key"], none⟩
      else
        let key := printf_s k.result
        match tvb_get_guint8 tvb offset with
        | none => ⟨Ret.thrown, ti :: k.events, none⟩
        | some b =>
          let v := dissect_bencoded_dict_entry_value fuel tvb offset key b
          match v.ret with
          | Ret.nofuel => ⟨Ret.nofuel, ti :: k.events ++ v.events, none⟩
          | Ret.thrown => ⟨Ret.thrown, ti :: k.events ++ v.events, none⟩
          | Ret.ret offset =>
            if offset = 0 then
              ⟨Ret.ret 0,
               ti :: k.events ++ v.events ++
                 [Event.expert Ei.ei_int_string offset "Invalid string for value"], none⟩
            else
              ⟨Ret.ret offset,
               ti :: k.events ++ v.events ++
                 dict_entry_finish orig_offset offset key (printf_s v.result), none⟩
termination_by structural fuel _ _ => fuel

/-- The function `dissect_bencoded_dict`. -/
def dissect_bencoded_dict : Nat → Tvb → Nat → String → Out
  | 0, _, _, _ => ⟨Ret.nofuel, [], none⟩
  | fuel + 1, tvb, offset, label =>
    let ti :=
      if offset = 0 then Event.add_item Hf.proto_bt_dht Enc.ENC_NA 0 none
      else Event.add_none_format Hf.hf_bencoded_dict offset none
             [Piece.lit label, Piece.lit ": Dictionary..."]
    let k := dissect_bencoded_dict_loop fuel tvb offset (offset + 1)
    ⟨k.ret, ti :: k.events, none⟩
termination_by structural fuel _ _ _ => fuel

/-- The `while` loop of `dissect_bencoded_dict` together with the code after
it, entered with `offset` at the next entry; `orig_offset` is the offset of the
dictionary. -/
def dissect_bencoded_dict_loop : Nat → Tvb → Nat → Nat → Out
  | 0, _, _, _ => ⟨Ret.nofuel, [], none⟩
  | fuel + 1, tvb, orig_offset, offset =>
    match tvb_get_guint8 tvb offset with
    | none => ⟨Ret.thrown, [], none⟩
    | some b =>
      if b = 101 then
        ⟨Ret.ret (offset + 1),
         [Event.add_item Hf.hf_bencoded_list_terminator Enc.ENC_ASCII_NA offset (some 1),
          Event.set_len (if orig_offset = 0 then Hf.proto_bt_dht else Hf.hf_bencoded_dict)
            orig_offset (offset + 1 - orig_offset)],
         none⟩
      else
        let r := dissect_bencoded_dict_entry fuel tvb offset
        match r.ret with
        | Ret.nofuel => ⟨Ret.nofuel, r.events, none⟩
        | Ret.thrown => ⟨Ret.thrown, r.events, none⟩
        | Ret.ret offset =>
          if offset = 0 then
            ⟨Ret.ret 0,
             r.events ++ [Event.expert Ei.ei_int_string offset "String must contain an integer"],
             none⟩
          else
            let k := dissect_bencoded_dict_loop fuel tvb orig_offset offset
            ⟨k.ret, r.events ++ k.events, none⟩
termination_by structural fuel _ _ _ => fuel

end

/-! ## Protocol sniffing and the entry point -/

/-- Modelled from the spec: `tvb_memeql` (epan/tvbuff.c, not among the
sources): 0 when the `size` bytes at `offset` are present and equal `s`,
-1 otherwise. -/
def tvb_memeql (tvb : Tvb) (offset : Nat) (s : List Nat) (size : Nat) : Int :=
  if tvb_bytes tvb offset size = some (s.take size) then 0 else -1

/-- The constant `DHT_MIN_LEN`. -/
def DHT_MIN_LEN : Nat := 5

/-- The function `test_bt_dht`. -/
def test_bt_dht (tvb : Tvb) (offset : Nat) : Bool :=
  if tvb_captured_length_remaining tvb offset < DHT_MIN_LEN then false
  else if tvb_memeql tvb offset (str "d1:ad") 5 = 0 then true
  else if tvb_memeql tvb offset (str "d1:rd") 5 = 0 then true
  else if tvb_memeql tvb offset (str "d2:ip") 5 = 0 then true
  else if tvb_memeql tvb offset (str "d1:el") 5 = 0 then true
  else false

/-- Recursion fuel that is enough for every buffer (see the termination
theorem): the source has no such bound, its recursion ends because the
offset grows. -/
def fuel_for (tvb : Tvb) : Nat := 3 * tvb.length + 4

/-- The function `dissect_bt_dht`. -/
def dissect_bt_dht (tvb : Tvb) : Out :=
  if !test_bt_dht tvb 0 then ⟨Ret.ret 0, [], none⟩
  else
    let d := dissect_bencoded_dict (fuel_for tvb) tvb 0 "BitTorrent DHT Protocol"
    ⟨d.ret,
     [Event.col_set_str "Protocol" "BT-DHT", Event.col_clear "Info",
      Event.col_set_str "Info" "BitTorrent DHT Protocol"] ++ d.events,
     d.result⟩

/-! ## Vocabulary of the statements -/

/-- The buffer holds the bytes `s` at `offset`. -/
def holds_at (tvb : Tvb) (offset : Nat) (s : List Nat) : Prop := s <+: tvb.drop offset

instance holds_at_decidable (tvb : Tvb) (offset : Nat) (s : List Nat) :
    Decidable (holds_at tvb offset s) := by
  unfold holds_at
  exact inferInstance

/-- The buffer ends inside the bytes `s` that start at `offset`: what it holds
from `offset` on is a proper prefix of `s`. -/
def cut_in (tvb : Tvb) (offset : Nat) (s : List Nat) : Prop :=
  offset ≤ tvb.length ∧ tvb.drop offset <+: s ∧ tvb.length - offset < s.length

mutual

/-- A bencoded value: an integer (its text between `i` and `e`), a byte-string,
a list, or a dictionary. -/
inductive BValue where
  | int (text : List Nat) : BValue
  | string (bytes : List Nat) : BValue
  | list (items : BList) : BValue
  | dict (entries : BDict) : BValue

/-- The elements of a bencoded list, in order. -/
inductive BList where
  | nil : BList
  | cons (head : BValue) (tail : BList) : BList

/-- The entries of a bencoded dictionary, in order. -/
inductive BDict where
  | nil : BDict
  | cons (key : List Nat) (value : BValue) (tail : BDict) : BDict

end

/-- The encoding `<n>:<n bytes>` of a byte-string. -/
def encode_string (bytes : List Nat) : List Nat := decimal bytes.length ++ 58 :: bytes

mutual

/-- The bencoding of a value: `i<text>e`, `<n>:<bytes>`, `l<items>e`, `d<entries>e`. -/
def BValue.encode : BValue → List Nat
  | BValue.int text => 105 :: text ++ [101]
  | BValue.string bytes => encode_string bytes
  | BValue.list items => 108 :: items.encode ++ [101]
  | BValue.dict entries => 100 :: entries.encode ++ [101]

/-- The concatenated encodings of the elements of a list. -/
def BList.encode : BList → List Nat
  | BList.nil => []
  | BList.cons head tail => head.encode ++ tail.encode

/-- The concatenated encodings of the entries (key, then value) of a dictionary. -/
def BDict.encode : BDict → List Nat
  | BDict.nil => []
  | BDict.cons key value tail => encode_string key ++ (value.encode ++ tail.encode)

end

/-- The keys that `dissect_bencoded_dict_entry` treats specially: those that
`strcmp` finds equal to `e`, `values`, `nodes`, `nodes6` or `ip`. -/
def special_key (key : List Nat) : Bool :=
  decide (strcmp key (str "e") = 0) || decide (strcmp key (str "values") = 0)
    || decide (strcmp key (str "nodes") = 0) || decide (strcmp key (str "nodes6") = 0)
    || decide (strcmp key (str "ip") = 0)

mutual

/-- Well-formed generic values: integers are digit strings, byte-strings are
not empty, and at every depth no dictionary key is one of the special keys. -/
def BValue.generic : BValue → Bool
  | BValue.int text => text.all is_digit
  | BValue.string bytes => decide (bytes ≠ [])
  | BValue.list items => items.generic
  | BValue.dict entries => entries.generic

/-- Every element of the list is a well-formed generic value. -/
def BList.generic : BList → Bool
  | BList.nil => true
  | BList.cons head tail => head.generic && tail.generic

/-- Every entry of the dictionary has a non-empty key that is not special and
a well-formed generic value. -/
def BDict.generic : BDict → Bool
  | BDict.nil => true
  | BDict.cons key value tail =>
    decide (key ≠ []) && !special_key key && value.generic && tail.generic

end

/-- A call of one of the decoders, with its arguments. -/
inductive Call where
  | string (offset : Nat) (tohex : Bool) (label : String)
  | int (offset : Nat) (label : String)
  | error (offset : Nat) (label : String)
  | values (fuel offset : Nat) (label : String)
  | nodes (fuel offset : Nat) (label : String) (ipv6 : Bool)
  | ip (offset : Nat)
  | list (fuel offset : Nat) (label : String)
  | list_element (fuel offset one_byte : Nat)
  | list_loop (fuel offset : Nat)
  | dict_entry_value (fuel offset : Nat) (key : List Nat) (b : Nat)
  | dict_entry (fuel offset : Nat)
  | dict (fuel offset : Nat) (label : String)
  | dict_loop (fuel orig_offset offset : Nat)

/-- The outcome of a call on the buffer `tvb`. -/
def Call.run (tvb : Tvb) : Call → Out
  | Call.string offset tohex label => dissect_bencoded_string tvb offset tohex label
  | Call.int offset label => dissect_bencoded_int tvb offset label
  | Call.error offset label => dissect_bt_dht_error tvb offset label
  | Call.values fuel offset label => dissect_bt_dht_values fuel tvb offset label
  | Call.nodes fuel offset label ipv6 => dissect_bt_dht_nodes fuel tvb offset label ipv6
  | Call.ip offset => dissect_bencoded_dict_entry_ip tvb offset
  | Call.list fuel offset label => dissect_bencoded_list fuel tvb offset label
  | Call.list_element fuel offset one_byte => dissect_bencoded_list_element fuel tvb offset one_byte
  | Call.list_loop fuel offset => dissect_bencoded_list_loop fuel tvb offset
  | Call.dict_entry_value fuel offset key b =>
    dissect_bencoded_dict_entry_value fuel tvb offset key b
  | Call.dict_entry fuel offset => dissect_bencoded_dict_entry fuel tvb offset
  | Call.dict fuel offset label => dissect_bencoded_dict fuel tvb offset label
  | Call.dict_loop fuel orig_offset offset => dissect_bencoded_dict_loop fuel tvb orig_offset offset

/-- The call structure of the decoders on the buffer `tvb`: `calls tvb c d`
holds when the call `c` runs the call `d` as one of its nested decodes.  For a
loop the nested decodes are the element (or entry) at the current offset and,
once that one has returned an offset that lets the loop go on, the rest of the
loop. -/
inductive calls (tvb : Tvb) : Call → Call → Prop
  | list_body (fuel offset : Nat) (label : String) :
      calls tvb (Call.list (fuel + 1) offset label) (Call.list_loop fuel (offset + 1))
  | list_element (fuel offset b : Nat) :
      tvb_get_guint8 tvb offset = some b → b ≠ 101 →
      calls tvb (Call.list_loop (fuel + 1) offset) (Call.list_element fuel offset b)
  | list_next (fuel offset b r : Nat) :
      tvb_get_guint8 tvb offset = some b → b ≠ 101 →
      (dissect_bencoded_list_element fuel tvb offset b).ret = Ret.ret r → offset < r →
      calls tvb (Call.list_loop (fuel + 1) offset) (Call.list_loop fuel r)
  | element_int (fuel offset : Nat) :
      calls tvb (Call.list_element (fuel + 1) offset 105) (Call.int offset "Integer")
  | element_list (fuel offset : Nat) :
      calls tvb (Call.list_element (fuel + 1) offset 108) (Call.list fuel offset "Sub-list")
  | element_dict (fuel offset : Nat) :
      calls tvb (Call.list_element (fuel + 1) offset 100) (Call.dict fuel offset "Sub-dict")
  | element_string (fuel offset b : Nat) :
      b ≠ 105 → b ≠ 108 → b ≠ 100 →
      calls tvb (Call.list_element (fuel + 1) offset b) (Call.string offset false "String")
  | entry_key (fuel offset : Nat) :
      calls tvb (Call.dict_entry (fuel + 1) offset) (Call.string offset false "Key")
  | entry_value (fuel offset r b : Nat) :
      (dissect_bencoded_string tvb offset false "Key").ret = Ret.ret r → r ≠ 0 →
      tvb_get_guint8 tvb r = some b →
      calls tvb (Call.dict_entry (fuel + 1) offset)
        (Call.dict_entry_value fuel r
          (printf_s (dissect_bencoded_string tvb offset false "Key").result) b)
  | value_dict (fuel offset : Nat) (key : List Nat) :
      calls tvb (Call.dict_entry_value (fuel + 1) offset key 100) (Call.dict fuel offset "Value")
  | value_error (fuel offset : Nat) (key : List Nat) :
      strcmp key (str "e") = 0 →
      calls tvb (Call.dict_entry_value (fuel + 1) offset key 108) (Call.error offset "Value")
  | value_values (fuel offset : Nat) (key : List Nat) :
      strcmp key (str "values") = 0 →
      calls tvb (Call.dict_entry_value (fuel + 1) offset key 108)
        (Call.values fuel offset "Value")
  | value_list (fuel offset : Nat) (key : List Nat) :
      strcmp key (str "e") ≠ 0 → strcmp key (str "values") ≠ 0 →
      calls tvb (Call.dict_entry_value (fuel + 1) offset key 108) (Call.list fuel offset "Value")
  | value_int (fuel offset : Nat) (key : List Nat) :
      calls tvb (Call.dict_entry_value (fuel + 1) offset key 105) (Call.int offset "Value")
  | value_nodes (fuel offset b : Nat) (key : List Nat) :
      b ≠ 100 → b ≠ 108 → b ≠ 105 → strcmp key (str "nodes") = 0 →
      calls tvb (Call.dict_entry_value (fuel + 1) offset key b)
        (Call.nodes fuel offset "Value" false)
  | value_nodes6 (fuel offset b : Nat) (key : List Nat) :
      b ≠ 100 → b ≠ 108 → b ≠ 105 → strcmp key (str "nodes6") = 0 →
      calls tvb (Call.dict_entry_value (fuel + 1) offset key b)
        (Call.nodes fuel offset "Value" true)
  | value_ip (fuel offset b : Nat) (key : List Nat) :
      b ≠ 100 → b ≠ 108 → b ≠ 105 → strcmp key (str "ip") = 0 →
      calls tvb (Call.dict_entry_value (fuel + 1) offset key b) (Call.ip offset)
  | value_string (fuel offset b : Nat) (key : List Nat) :
      b ≠ 100 → b ≠ 108 → b ≠ 105 →
      strcmp key (str "nodes") ≠ 0 → strcmp key (str "nodes6") ≠ 0 → strcmp key (str "ip") ≠ 0 →
      calls tvb (Call.dict_entry_value (fuel + 1) offset key b)
        (Call.string offset (tohex_key key) "Value")
  | dict_body (fuel offset : Nat) (label : String) :
      calls tvb (Call.dict (fuel + 1) offset label) (Call.dict_loop fuel offset (offset + 1))
  | dict_entry (fuel orig_offset offset b : Nat) :
      tvb_get_guint8 tvb offset = some b → b ≠ 101 →
      calls tvb (Call.dict_loop (fuel + 1) orig_offset offset) (Call.dict_entry fuel offset)
  | dict_next (fuel orig_offset offset b r : Nat) :
      tvb_get_guint8 tvb offset = some b → b ≠ 101 →
      (dissect_bencoded_dict_entry fuel tvb offset).ret = Ret.ret r → r ≠ 0 →
      calls tvb (Call.dict_loop (fuel + 1) orig_offset offset)
        (Call.dict_loop fuel orig_offset r)

/-- The loop of `dissect_bencoded_list`, entered at `offset` with `fuel`, comes to
`offset'` (with `fuel'` left) after dissecting zero or more elements that each
advanced the offset: the element that starts at `offset'` is an element of
that list. -/
inductive list_reaches (tvb : Tvb) : Nat → Nat → Nat → Nat → Prop
  | here (fuel offset : Nat) : list_reaches tvb fuel offset fuel offset
  | next (fuel offset fuel' p b r : Nat) :
      list_reaches tvb fuel offset (fuel' + 1) p →
      tvb_get_guint8 tvb p = some b → b ≠ 101 →
      (dissect_bencoded_list_element fuel' tvb p b).ret = Ret.ret r → p < r →
      list_reaches tvb fuel offset fuel' r

/-- The byte at `offset`, 0 when `offset` is outside the buffer. -/
def byte_at (tvb : Tvb) (offset : Nat) : Nat := (tvb[offset]?).getD 0

/-- The two bytes at `offset` read big-endian: 256 times the first plus the second. -/
def be16 (tvb : Tvb) (offset : Nat) : Nat := 256 * byte_at tvb offset + byte_at tvb (offset + 1)

/-- Modelled from the spec: the value that `proto_tree_add_item` (epan/proto.c,
not among the sources) gives to an item of the 16-bit field `hf_port`.  The
byte order is the one named by the `encoding` argument recorded in the event:
a two-byte item added with `ENC_BIG_ENDIAN` has the value of its two bytes read
big-endian.  An item recorded with another encoding or length has no value
here, so a value is obtained only where the dissector itself asked for
big-endian. -/
def item_uint_value (tvb : Tvb) : Event → Option Nat
  | Event.add_item Hf.hf_port Enc.ENC_BIG_ENDIAN start (some 2) => tvb_get_ntohs tvb start
  | _ => none

/-- The concatenated encodings `<n>:<bytes>` of a sequence of byte-strings. -/
def encode_strings : List (List Nat) → List Nat
  | [] => []
  | s :: rest => encode_string s ++ encode_strings rest

/-- The tree events of one compact node record, as the format defines it: the
record is the `w` bytes at `start` (`w` is 26, or 38 for IPv6), its id is the
first 20 bytes, its address the next 4 (16) bytes, and its port the last 2
bytes read big-endian; `index` is the number of the record, counted from 1. -/
def node_record (tvb : Tvb) (start index : Nat) (ipv6 : Bool) : List Event :=
  [Event.add_item Hf.hf_bt_dht_node Enc.ENC_NA start (some (if ipv6 then 38 else 26)),
   Event.append_text Hf.hf_bt_dht_node start [Piece.lit " ", Piece.num index],
   Event.add_item Hf.hf_bt_dht_id Enc.ENC_NA start (some 20),
   Event.append_text Hf.hf_bt_dht_node start
     [Piece.lit " (id: ", Piece.txt (hex_dump ((tvb.drop start).take 20))],
   Event.add_item (if ipv6 then Hf.hf_ip6 else Hf.hf_ip)
     (if ipv6 then Enc.ENC_NA else Enc.ENC_BIG_ENDIAN) (start + 20)
     (some (if ipv6 then 16 else 4)),
   Event.append_text Hf.hf_bt_dht_node start
     (if ipv6 then
        [Piece.lit ", IPv6/Port: [", Piece.ipv6 ((tvb.drop (start + 20)).take 16), Piece.lit "]"]
      else [Piece.lit ", IPv4/Port: ", Piece.ipv4 ((tvb.drop (start + 20)).take 4)]),
   Event.add_item Hf.hf_port Enc.ENC_BIG_ENDIAN (start + (if ipv6 then 36 else 24)) (some 2),
   Event.append_text Hf.hf_bt_dht_node start
     [Piece.lit ":", Piece.num (be16 tvb (start + (if ipv6 then 36 else 24))), Piece.lit ")"]]

/-- The tree events of one compact peer, as the format defines it: the peer is
the `len` bytes at `start` (`len` is 6, or 18 for IPv6), its address is the
first 4 (16) bytes and its port the last 2 bytes read big-endian; `index` is the
number of the peer, counted from 1. -/
def peer_record (tvb : Tvb) (start index len : Nat) : List Event :=
  [Event.add_item Hf.hf_bt_dht_peer Enc.ENC_NA start (some len),
   Event.append_text Hf.hf_bt_dht_peer start [Piece.lit " ", Piece.num index],
   Event.add_item (if len = 6 then Hf.hf_ip else Hf.hf_ip6)
     (if len = 6 then Enc.ENC_BIG_ENDIAN else Enc.ENC_NA) start (some (len - 2)),
   Event.append_text Hf.hf_bt_dht_peer start
     (if len = 6 then [Piece.lit " (IP/Port: ", Piece.ipv4 ((tvb.drop start).take 4)]
      else [Piece.lit " (IPv6/Port: [", Piece.ipv6 ((tvb.drop start).take 16), Piece.lit "]"]),
   Event.add_item Hf.hf_port Enc.ENC_BIG_ENDIAN (start + (len - 2)) (some 2),
   Event.append_text Hf.hf_bt_dht_peer start
     [Piece.lit ":", Piece.num (be16 tvb (start + (len - 2))), Piece.lit ")"]]

/-- A byte-string of a `values` list is a peer when its length is 6 or 18. -/
def is_peer (s : List Nat) : Bool := decide (s.length = 6) || decide (s.length = 18)

/-- The tree events of the elements `ss` of a `values` list whose first element
starts at `offset`, after `peers` peers: each element is classified by its own
length, a peer record for the lengths 6 and 18, a truncated-data item for any
other length. -/
def values_records (tvb : Tvb) : List (List Nat) → Nat → Nat → List Event
  | [], _, _ => []
  | s :: rest, offset, peers =>
    if is_peer s then
      peer_record tvb (offset + (decimal s.length).length + 1) (peers + 1) s.length ++
        values_records tvb rest (offset + (encode_string s).length) (peers + 1)
    else
      Event.add_item Hf.hf_truncated_data Enc.ENC_NA (offset + (decimal s.length).length + 1)
          (some s.length) ::
        values_records tvb rest (offset + (encode_string s).length) peers

/-- The node items among tree events. -/
def is_node_item : Event → Bool
  | Event.add_item Hf.hf_bt_dht_node _ _ _ => true
  | _ => false

/-- The truncated-data items among tree events. -/
def is_truncated_item : Event → Bool
  | Event.add_item Hf.hf_truncated_data _ _ _ => true
  | _ => false

end BtDht

/-! ## SABP: the CB Data element (epan/dissectors/asn1/sabp/packet-sabp-template.c) -/

namespace Sabp

/-- The header fields that `dissect_sabp_cb_data` adds to the tree. -/
inductive Hf where
  | hf_sabp_no_of_pages
  | hf_sabp_cb_msg_inf_page
  | hf_sabp_cbs_page_content
  | hf_sabp_cb_inf_len
  deriving DecidableEq, Repr

/-- The calls by which `dissect_sabp_cb_data` builds the tree, in order:
an item over bytes of the buffer, the subtree `CB page <page> data`, the call
of `dissect_cbs_data` on a page, and the item over the unpacked page. -/
inductive Event where
  | add_item (hf : Hf) (start length : Nat)
  | add_subtree_format (start length page : Nat)
  | dissect_cbs_data (page_tvb : List Nat) (reported_length : Nat)
  | add_item_unpacked (hf : Hf) (start length : Nat)
  deriving DecidableEq, Repr

/-- How a run of `dissect_sabp_cb_data` ends: the recursion of the model ran
out of fuel, an exception left the function, or the function returned. -/
inductive Status where
  | nofuel
  | thrown
  | returned
  deriving DecidableEq, Repr

/-- The outcome of `dissect_sabp_cb_data` (a `void` function): how it ended,
the tree events, and the value of its local variable `offset` at the end. -/
structure Out where
  status : Status
  events : List Event
  offset : Nat
  deriving DecidableEq, Repr

/-- Modelled from the spec: `tvb_get_guint8` of the tvbuff API (epan/tvbuff.c,
not among the sources): the byte at `offset`, an out-of-bounds exception
(`none`) at or past the end of the buffer. -/
def tvb_get_guint8 (tvb : List Nat) (offset : Nat) : Option Nat := tvb[offset]?

/-- Modelled from the spec: `proto_tree_add_item` (epan/proto.c, not among the
sources) checks that the bytes of the item lie inside the buffer before adding
it: `none` is its bounds exception. -/
def proto_tree_add_item (tvb : List Nat) (hf : Hf) (start length : Nat) : Option Event :=
  if start + length ≤ tvb.length then some (Event.add_item hf start length) else none

/-- Modelled from the spec: `proto_tree_add_subtree_format` (epan/proto.c, not
among the sources) with the format `CB page %u data`, with the same bounds
check as an item. -/
def proto_tree_add_subtree_format (tvb : List Nat) (start length page : Nat) : Option Event :=
  if start + length ≤ tvb.length then some (Event.add_subtree_format start length page) else none

/-- Modelled from the spec: `tvb_new_subset_length` (epan/tvbuff.c, not among
the sources): the bytes of the buffer from `offset` on, at most `length` of
them; an exception (`none`) when `offset` is past the end of the buffer. -/
def tvb_new_subset_length (tvb : List Nat) (offset length : Nat) : Option (List Nat) :=
  if offset ≤ tvb.length then some ((tvb.drop offset).take length) else none

/-- Modelled from the spec: `tvb_captured_length` (epan/tvbuff.c, not among the
sources) asserts that its argument is not NULL: the failed assertion is an
exception (`none`). -/
def tvb_captured_length : Option (List Nat) → Option Nat
  | none => none
  | some tvb => some tvb.length

/-- The `for` loop of `dissect_sabp_cb_data`, entered with the page counter `n`
and the offset of page `n`.  The parameter `cbs` stands for `dissect_cbs_data`
(packet-cell_broadcast.c, not among the sources) called with the page and the
file-level `sms_encoding`: `none` when it throws, otherwise the unpacked
tvbuff it returns, which may be NULL (`some none`).  `tree` tells whether the
tree pointer is not NULL.  The variable `len` is a `guint8`. -/
def dissect_sabp_cb_data_loop (cbs : List Nat → Nat → Option (Option (List Nat))) (tree : Bool)
    (tvb : List Nat) (nr_pages : Nat) : Nat → Nat → Nat → Out
  | 0, _, offset => ⟨Status.nofuel, [], offset⟩
  | fuel + 1, n, offset =>
    if n < nr_pages then
      match proto_tree_add_subtree_format tvb offset 83 (n + 1) with
      | none => ⟨Status.thrown, [], offset⟩
      | some subtree =>
        match proto_tree_add_item tvb Hf.hf_sabp_cb_msg_inf_page offset 82 with
        | none => ⟨Status.thrown, [subtree], offset⟩
        | some cbs_page_item =>
          match tvb_get_guint8 tvb (offset + 82) with
          | none => ⟨Status.thrown, [subtree, cbs_page_item], offset⟩
          | some cb_inf_msg_len =>
            match tvb_new_subset_length tvb offset cb_inf_msg_len with
            | none => ⟨Status.thrown, [subtree, cbs_page_item], offset⟩
            | some page_tvb =>
              let call := Event.dissect_cbs_data page_tvb cb_inf_msg_len
              match cbs page_tvb cb_inf_msg_len with
              | none => ⟨Status.thrown, [subtree, cbs_page_item, call], offset⟩
              | some unpacked_tvb =>
                match tvb_captured_length unpacked_tvb with
                | none => ⟨Status.thrown, [subtree, cbs_page_item, call], offset⟩
                | some length =>
                  let len := length % 2 ^ 8
                  let content :=
                    if unpacked_tvb ≠ none ∧ tree = true then
                      [Event.add_item_unpacked Hf.hf_sabp_cbs_page_content 0 len]
                    else []
                  let offset := offset + 82
                  match proto_tree_add_item tvb Hf.hf_sabp_cb_inf_len offset 1 with
                  | none => ⟨Status.thrown, [subtree, cbs_page_item, call] ++ content, offset⟩
                  | some inf_len =>
                    let k := dissect_sabp_cb_data_loop cbs tree tvb nr_pages fuel (n + 1)
                               (offset + 1)
                    ⟨k.status, [subtree, cbs_page_item, call] ++ content ++ [inf_len] ++ k.events,
                     k.offset⟩
    else ⟨Status.returned, [], offset⟩

/-- The function `dissect_sabp_cb_data`.  The loop runs `nr_pages` times at
most, so `nr_pages + 1` is enough fuel for it. -/
def dissect_sabp_cb_data (cbs : List Nat → Nat → Option (Option (List Nat))) (tree : Bool)
    (tvb : List Nat) : Out :=
  let offset := 0
  match tvb_get_guint8 tvb offset with
  | none => ⟨Status.thrown, [], offset⟩
  | some nr_pages =>
    match proto_tree_add_item tvb Hf.hf_sabp_no_of_pages offset 1 with
    | none => ⟨Status.thrown, [], offset⟩
    | some no_of_pages =>
      let offset := offset + 1
      if nr_pages > 15 then ⟨Status.returned, [no_of_pages], offset⟩
      else
        let k := dissect_sabp_cb_data_loop cbs tree tvb nr_pages (nr_pages + 1) 0 offset
        ⟨k.status, no_of_pages :: k.events, k.offset⟩

/-- The tree events of page `n` (counted from 0) of a CB Data element, as the
layout defines them: the page is the 83 bytes at `1 + 83 * n`, its information
page the first 82 of them and its information length the last one; the bytes
handed to `dissect_cbs_data` are those of the page, as many as the information
length says. -/
def page_events (cbs : List Nat → Nat → Option (Option (List Nat))) (tree : Bool)
    (tvb : List Nat) (n : Nat) : List Event :=
  [Event.add_subtree_format (1 + 83 * n) 83 (n + 1),
   Event.add_item Hf.hf_sabp_cb_msg_inf_page (1 + 83 * n) 82,
   Event.dissect_cbs_data ((tvb.drop (1 + 83 * n)).take ((tvb[1 + 83 * n + 82]?).getD 0))
     ((tvb[1 + 83 * n + 82]?).getD 0)] ++
  (match cbs ((tvb.drop (1 + 83 * n)).take ((tvb[1 + 83 * n + 82]?).getD 0))
           ((tvb[1 + 83 * n + 82]?).getD 0) with
   | some (some unpacked) =>
     if tree then [Event.add_item_unpacked Hf.hf_sabp_cbs_page_content 0 (unpacked.length % 2 ^ 8)]
     else []
   | _ => []) ++
  [Event.add_item Hf.hf_sabp_cb_inf_len (1 + 83 * n + 82) 1]

/-- The page subtrees among tree events. -/
def is_page : Event → Bool
  | Event.add_subtree_format _ _ _ => true
  | _ => false

/-- The information-page items among tree events. -/
def is_inf_page : Event → Bool
  | Event.add_item Hf.hf_sabp_cb_msg_inf_page _ _ => true
  | _ => false

/-- The information-length items among tree events. -/
def is_inf_len : Event → Bool
  | Event.add_item Hf.hf_sabp_cb_inf_len _ _ => true
  | _ => false

end Sabp

namespace BtDht

/-! ## C strings -/

/-- The function `strcmp` returns 0 exactly on equal C strings. -/
theorem strcmp_eq_zero {a b : List Nat} : strcmp a b = 0 ↔ cstr a = cstr b := by
  unfold strcmp
  constructor
  · intro h
    by_contra hne
    rw [if_neg hne] at h
    split at h <;> simp at h
  · intro h
    rw [if_pos h]

/-- A key that `strcmp` finds equal to one string differs from every string
with another C string. -/
theorem strcmp_ne_of_eq {key s t : List Nat} (h : strcmp key s = 0) (hst : cstr s ≠ cstr t) :
    strcmp key t ≠ 0 := by
  intro h2
  rw [strcmp_eq_zero] at h h2
  exact hst (h.symm.trans h2)

theorem getElem?_drop_tvb (tvb : Tvb) (o i : Nat) : (tvb.drop o)[i]? = tvb[o + i]? := by
  simp [List.getElem?_drop]

theorem scan_until_spec (c : Nat) : ∀ (rest : List Nat) (o : Nat),
    (∀ p, scan_until c rest o = some p →
      o ≤ p ∧ rest[p - o]? = some c ∧ ∀ i : Nat, i < p - o → rest[i]? ≠ some c) ∧
    (scan_until c rest o = none → ∀ i : Nat, rest[i]? ≠ some c) := by
  intro rest
  induction rest with
  | nil => intro o; simp [scan_until]
  | cons b rest ih =>
    intro o
    by_cases hb : b = c
    · subst hb
      simp [scan_until]
    · obtain ⟨ih1, ih2⟩ := ih (o + 1)
      simp only [scan_until, if_neg hb]
      refine ⟨?_, ?_⟩
      · intro p hp
        obtain ⟨h1, h2, h3⟩ := ih1 p hp
        have hpo : p - o = (p - (o + 1)) + 1 := by omega
        refine ⟨by omega, ?_, ?_⟩
        · rw [hpo]; simpa using h2
        · intro i hi
          cases i with
          | zero => simpa using hb
          | succ j =>
            have := h3 j (by omega)
            simpa using this
      · intro hn i
        cases i with
        | zero => simpa using hb
        | succ j => simpa using ih2 hn j

theorem scan_until_drop_some {c : Nat} {tvb : Tvb} {o p : Nat}
    (h : scan_until c (tvb.drop o) o = some p) :
    o ≤ p ∧ tvb[p]? = some c ∧ ∀ i : Nat, o ≤ i → i < p → tvb[i]? ≠ some c := by
  obtain ⟨h1, h2, h3⟩ := (scan_until_spec c (tvb.drop o) o).1 p h
  refine ⟨h1, ?_, ?_⟩
  · rw [getElem?_drop_tvb] at h2
    have : o + (p - o) = p := by omega
    rwa [this] at h2
  · intro i hi hip
    have := h3 (i - o) (by omega)
    rw [getElem?_drop_tvb] at this
    have e : o + (i - o) = i := by omega
    rwa [e] at this

theorem scan_until_drop_none {c : Nat} {tvb : Tvb} {o : Nat}
    (h : scan_until c (tvb.drop o) o = none) : ∀ i : Nat, o ≤ i → tvb[i]? ≠ some c := by
  intro i hi
  have := (scan_until_spec c (tvb.drop o) o).2 h (i - o)
  rw [getElem?_drop_tvb] at this
  have e : o + (i - o) = i := by omega
  rwa [e] at this

theorem scan_until_drop_eq_some {c : Nat} {tvb : Tvb} {o p : Nat} (hop : o ≤ p)
    (hc : tvb[p]? = some c) (hn : ∀ i : Nat, o ≤ i → i < p → tvb[i]? ≠ some c) :
    scan_until c (tvb.drop o) o = some p := by
  cases h : scan_until c (tvb.drop o) o with
  | none => exact absurd hc (scan_until_drop_none h p hop)
  | some q =>
    obtain ⟨h1, h2, h3⟩ := scan_until_drop_some h
    rcases Nat.lt_trichotomy p q with hlt | heq | hgt
    · exact absurd hc (h3 p hop hlt)
    · rw [heq]
    · exact absurd h2 (hn q h1 hgt)

theorem scan_until_drop_eq_none {c : Nat} {tvb : Tvb} {o : Nat}
    (hn : ∀ i : Nat, o ≤ i → tvb[i]? ≠ some c) : scan_until c (tvb.drop o) o = none := by
  cases h : scan_until c (tvb.drop o) o with
  | none => rfl
  | some q =>
    obtain ⟨h1, h2, _⟩ := scan_until_drop_some h
    exact absurd h2 (hn q h1)

theorem scan_until_lt_length {c : Nat} {tvb : Tvb} {o p : Nat}
    (h : scan_until c (tvb.drop o) o = some p) : p < tvb.length := by
  obtain ⟨_, h2, _⟩ := scan_until_drop_some h
  by_contra hlt
  rw [List.getElem?_eq_none (by omega)] at h2
  exact absurd h2 (by simp)

theorem bencoded_string_length_scan_eq (tvb : Tvb) : ∀ (rest : List Nat) (o : Nat),
    tvb.drop o = rest →
    bencoded_string_length_scan tvb rest.length o =
      (scan_until 58 rest o).map (fun p => (p, tvb.length - p)) := by
  intro rest
  induction rest with
  | nil =>
    intro o h
    have hlen : tvb.length ≤ o := by simpa using h
    simp [bencoded_string_length_scan, tvb_get_guint8, List.getElem?_eq_none hlen, scan_until]
  | cons b rest ih =>
    intro o h
    have hb : tvb[o]? = some b := by
      have := getElem?_drop_tvb tvb o 0
      rw [h] at this
      simpa using this.symm
    have hrest : tvb.drop (o + 1) = rest := by
      have : tvb.drop (o + 1) = (tvb.drop o).drop 1 := by simp [List.drop_drop]
      rw [this, h]; rfl
    have hlen : tvb.length - o = rest.length + 1 := by
      have := congrArg List.length h
      simpa using this
    simp only [List.length_cons, bencoded_string_length_scan, tvb_get_guint8, hb, scan_until]
    by_cases hc : b = 58
    · simp [hc, hlen]
    · simp only [if_neg hc]
      exact ih (o + 1) hrest

/-! ## Bytes held at an offset -/

theorem holds_at_iff {tvb : Tvb} {o : Nat} {s : List Nat} :
    holds_at tvb o s ↔ (tvb.drop o).take s.length = s := by
  unfold holds_at
  constructor
  · intro h
    exact List.prefix_iff_eq_take.mp h |>.symm
  · intro h
    rw [← h]
    exact List.take_prefix _ _

theorem holds_at_length {tvb : Tvb} {o : Nat} {s : List Nat} (h : holds_at tvb o s) :
    s.length ≤ tvb.length - o := by
  have := h.length_le
  simpa using this

theorem holds_at_getElem? {tvb : Tvb} {o : Nat} {s : List Nat} (h : holds_at tvb o s)
    (i : Nat) (hi : i < s.length) : tvb[o + i]? = s[i]? := by
  obtain ⟨t, ht⟩ := h
  rw [← getElem?_drop_tvb, ← ht, List.getElem?_append_left hi]

theorem holds_at_head {tvb : Tvb} {o c : Nat} {s : List Nat} (h : holds_at tvb o (c :: s)) :
    tvb[o]? = some c := by
  have := holds_at_getElem? h 0 (by simp)
  simpa using this

theorem holds_at_append {tvb : Tvb} {o : Nat} {a b : List Nat} :
    holds_at tvb o (a ++ b) ↔ holds_at tvb o a ∧ holds_at tvb (o + a.length) b := by
  unfold holds_at
  constructor
  · rintro ⟨t, ht⟩
    refine ⟨⟨b ++ t, by simpa using ht⟩, ⟨t, ?_⟩⟩
    have : tvb.drop (o + a.length) = (tvb.drop o).drop a.length := by
      rw [List.drop_drop]
    rw [this, ← ht]
    simp
  · rintro ⟨⟨t, ht⟩, ⟨u, hu⟩⟩
    refine ⟨u, ?_⟩
    have : tvb.drop (o + a.length) = (tvb.drop o).drop a.length := by
      rw [List.drop_drop]
    rw [this, ← ht] at hu
    simp at hu
    rw [← ht, ← hu]
    simp

theorem holds_at_bytes {tvb : Tvb} {o : Nat} {s : List Nat} (h : holds_at tvb o s)
    (ho : o ≤ tvb.length) : tvb_bytes tvb o s.length = some s := by
  have hl := holds_at_length h
  unfold tvb_bytes
  rw [if_pos (by omega), holds_at_iff.mp h]

theorem tvb_bytes_some {tvb : Tvb} {o n : Nat} {bs : List Nat} (h : tvb_bytes tvb o n = some bs) :
    o + n ≤ tvb.length ∧ bs = (tvb.drop o).take n ∧ bs.length = n := by
  unfold tvb_bytes at h
  split at h
  · rename_i hle
    simp only [Option.some.injEq] at h
    refine ⟨hle, h.symm, ?_⟩
    rw [← h]
    simp
    omega
  · exact absurd h (by simp)

/-! ## Decimal digits -/

theorem digits_value_append_single (xs : List Nat) (d : Nat) :
    digits_value (xs ++ [d]) = digits_value xs * 10 + (d - 48) := by
  simp [digits_value, List.foldl_append]

theorem decimal_aux_acc : ∀ (fuel n : Nat) (acc : List Nat),
    decimal_aux fuel n acc = decimal_aux fuel n [] ++ acc := by
  intro fuel
  induction fuel with
  | zero => intro n acc; simp [decimal_aux]
  | succ f ih =>
    intro n acc
    simp only [decimal_aux]
    split
    · simp
    · rw [ih (n / 10) ((48 + n % 10) :: acc), ih (n / 10) [48 + n % 10]]
      simp

theorem decimal_aux_spec : ∀ (fuel n : Nat), n < fuel →
    decimal_aux fuel n [] ≠ [] ∧ (∀ b ∈ decimal_aux fuel n [], 48 ≤ b ∧ b ≤ 57) ∧
    digits_value (decimal_aux fuel n []) = n := by
  intro fuel
  induction fuel with
  | zero => intro n h; omega
  | succ f ih =>
    intro n hn
    simp only [decimal_aux]
    split
    · rename_i h10
      refine ⟨by simp, ?_, ?_⟩
      · intro b hb
        simp only [List.mem_singleton] at hb
        omega
      · simp [digits_value]
    · rename_i h10
      have hlt : n / 10 < f := by omega
      obtain ⟨h1, h2, h3⟩ := ih (n / 10) hlt
      rw [decimal_aux_acc]
      refine ⟨by simp, ?_, ?_⟩
      · intro b hb
        rcases List.mem_append.mp hb with hb | hb
        · exact h2 b hb
        · simp only [List.mem_singleton] at hb
          omega
      · rw [digits_value_append_single, h3]
        omega

theorem decimal_ne_nil (n : Nat) : decimal n ≠ [] := (decimal_aux_spec (n + 1) n (by omega)).1

theorem decimal_digit (n : Nat) : ∀ b ∈ decimal n, 48 ≤ b ∧ b ≤ 57 :=
  (decimal_aux_spec (n + 1) n (by omega)).2.1

theorem digits_value_decimal (n : Nat) : digits_value (decimal n) = n :=
  (decimal_aux_spec (n + 1) n (by omega)).2.2

theorem decimal_length_pos (n : Nat) : 0 < (decimal n).length :=
  List.length_pos.mpr (decimal_ne_nil n)

theorem ws_strtou32_decimal (n : Nat) (h : n < 2 ^ 32) : ws_strtou32 (decimal n) = some n := by
  unfold ws_strtou32
  rw [if_pos]
  · rw [digits_value_decimal]
  · refine ⟨decimal_ne_nil n, ?_, by rw [digits_value_decimal]; exact h⟩
    rw [List.all_eq_true]
    intro b hb
    have := decimal_digit n b hb
    simp [is_digit, this.1, this.2]

theorem ws_strtou32_some {s : List Nat} {n : Nat} (h : ws_strtou32 s = some n) :
    s ≠ [] ∧ n < 2 ^ 32 := by
  unfold ws_strtou32 at h
  split at h
  · rename_i hc
    simp only [Option.some.injEq] at h
    exact ⟨hc.1, h ▸ hc.2.2⟩
  · exact absurd h (by simp)

/-! ## Length prefix, byte-string and integer -/

theorem bencoded_string_length_eq (tvb : Tvb) (o : Nat) :
    bencoded_string_length tvb o =
      match scan_until 58 (tvb.drop o) o with
      | none => none
      | some p =>
        match ws_strtou32 ((tvb.drop o).take (p - o)) with
        | some len => some (len, p + 1)
        | none => some (0, o) := by
  unfold bencoded_string_length
  simp only [tvb_captured_length_remaining]
  have hl : tvb.length - o = (tvb.drop o).length := by simp
  rw [hl, bencoded_string_length_scan_eq tvb (tvb.drop o) o rfl]
  cases h : scan_until 58 (tvb.drop o) o with
  | none => simp
  | some p =>
    have hp := scan_until_lt_length h
    have hop := (scan_until_drop_some h).1
    have hne : tvb.length - p ≠ 0 := by omega
    simp only [Option.map_some', ne_eq, hne, not_false_eq_true, if_true, tvb_get_string_enc,
      tvb_bytes]
    rw [if_pos (by omega)]

/-- The byte-string decoder, case by case: no `:` from `offset` on. -/
theorem dissect_bencoded_string_no_colon {tvb : Tvb} {o : Nat} (tohex : Bool) (label : String)
    (h : scan_until 58 (tvb.drop o) o = none) :
    dissect_bencoded_string tvb o tohex label = ⟨Ret.thrown, [], none⟩ := by
  unfold dissect_bencoded_string
  rw [bencoded_string_length_eq, h]

/-- The byte-string decoder, case by case: the prefix does not parse. -/
theorem dissect_bencoded_string_unparsed {tvb : Tvb} {o p : Nat} (tohex : Bool) (label : String)
    (h : scan_until 58 (tvb.drop o) o = some p)
    (hn : ws_strtou32 ((tvb.drop o).take (p - o)) = none) :
    dissect_bencoded_string tvb o tohex label = ⟨Ret.ret 0, [], none⟩ := by
  unfold dissect_bencoded_string
  rw [bencoded_string_length_eq, h]
  simp [hn]

/-- The byte-string decoder, case by case: the declared length is zero. -/
theorem dissect_bencoded_string_zero {tvb : Tvb} {o p : Nat} (tohex : Bool) (label : String)
    (h : scan_until 58 (tvb.drop o) o = some p)
    (hn : ws_strtou32 ((tvb.drop o).take (p - o)) = some 0) :
    dissect_bencoded_string tvb o tohex label = ⟨Ret.ret 0, [], none⟩ := by
  unfold dissect_bencoded_string
  rw [bencoded_string_length_eq, h]
  simp [hn]

/-- The byte-string decoder, case by case: the declared bytes are not all present. -/
theorem dissect_bencoded_string_short {tvb : Tvb} {o p n : Nat} (tohex : Bool) (label : String)
    (h : scan_until 58 (tvb.drop o) o = some p)
    (hn : ws_strtou32 ((tvb.drop o).take (p - o)) = some n) (h0 : n ≠ 0)
    (hlen : tvb.length < p + 1 + n) :
    dissect_bencoded_string tvb o tohex label = ⟨Ret.thrown, [], none⟩ := by
  unfold dissect_bencoded_string
  rw [bencoded_string_length_eq, h]
  have hle : ¬ (p + 1 + n ≤ tvb.length) := by omega
  cases tohex <;>
    simp [hn, h0, tvb_bytes_to_str, tvb_get_string_enc, tvb_bytes, hle]

/-- The byte-string decoder, case by case: the declared bytes are present. -/
theorem dissect_bencoded_string_ok {tvb : Tvb} {o p n : Nat} (tohex : Bool) (label : String)
    (h : scan_until 58 (tvb.drop o) o = some p)
    (hn : ws_strtou32 ((tvb.drop o).take (p - o)) = some n) (h0 : n ≠ 0)
    (hlen : p + 1 + n ≤ tvb.length) :
    dissect_bencoded_string tvb o tohex label =
      ⟨Ret.ret (p + 1 + n),
       [Event.add_string_format Hf.hf_bencoded_string (p + 1) n
          (if tohex then hex_dump ((tvb.drop (p + 1)).take n) else (tvb.drop (p + 1)).take n)
          [Piece.lit label, Piece.lit ": ",
           Piece.txt (if tohex then hex_dump ((tvb.drop (p + 1)).take n)
                      else (tvb.drop (p + 1)).take n)]],
       some (if tohex then hex_dump ((tvb.drop (p + 1)).take n)
             else (tvb.drop (p + 1)).take n)⟩ := by
  unfold dissect_bencoded_string
  rw [bencoded_string_length_eq, h]
  cases tohex <;>
    simp [hn, h0, tvb_bytes_to_str, tvb_get_string_enc, tvb_bytes, hlen]

theorem dissect_bencoded_string_ret {tvb : Tvb} {o r : Nat} {tohex : Bool} {label : String}
    (h : (dissect_bencoded_string tvb o tohex label).ret = Ret.ret r) :
    r = 0 ∨ (o + 3 ≤ r ∧ r ≤ tvb.length) := by
  cases hs : scan_until 58 (tvb.drop o) o with
  | none => rw [dissect_bencoded_string_no_colon tohex label hs] at h; exact absurd h (by simp)
  | some p =>
    have hop := (scan_until_drop_some hs).1
    cases hp : ws_strtou32 ((tvb.drop o).take (p - o)) with
    | none =>
      rw [dissect_bencoded_string_unparsed tohex label hs hp] at h
      left; simpa using h.symm
    | some n =>
      by_cases h0 : n = 0
      · subst h0
        rw [dissect_bencoded_string_zero tohex label hs hp] at h
        left; simpa using h.symm
      · by_cases hlen : p + 1 + n ≤ tvb.length
        · rw [dissect_bencoded_string_ok tohex label hs hp h0 hlen] at h
          have hne := (ws_strtou32_some hp).1
          have : o < p := by
            by_contra hc
            have : p - o = 0 := by omega
            rw [this] at hne
            simp at hne
          right
          simp only [Ret.ret.injEq] at h
          omega
        · rw [dissect_bencoded_string_short tohex label hs hp h0 (by omega)] at h
          exact absurd h (by simp)

theorem dissect_bencoded_string_ne_nofuel (tvb : Tvb) (o : Nat) (tohex : Bool) (label : String) :
    (dissect_bencoded_string tvb o tohex label).ret ≠ Ret.nofuel := by
  unfold dissect_bencoded_string
  split
  · simp
  · split
    · simp
    · split <;> simp

theorem dissect_bencoded_string_result {tvb : Tvb} {o r : Nat} {tohex : Bool} {label : String}
    (h : (dissect_bencoded_string tvb o tohex label).ret = Ret.ret r) (hr : r ≠ 0) :
    ∃ bs, (dissect_bencoded_string tvb o tohex label).result = some bs := by
  unfold dissect_bencoded_string at h ⊢
  split at h
  · simp at h
  · split at h
    · simp at h; exact absurd h.symm hr
    · split at h
      · simp at h
      · rename_i res hres
        simp only [*]
        exact ⟨res, by simp [*]⟩

theorem dissect_bencoded_int_found {tvb : Tvb} {o p : Nat} (label : String)
    (h : scan_until 101 (tvb.drop (o + 1)) (o + 1) = some p) :
    dissect_bencoded_int tvb o label =
      ⟨Ret.ret (p + 1),
       [Event.add_item Hf.hf_bencoded_list_terminator Enc.ENC_ASCII_NA p (some 1),
        Event.add_string_format Hf.hf_bencoded_int (o + 1) (p - (o + 1))
          ((tvb.drop (o + 1)).take (p - (o + 1)))
          [Piece.lit label, Piece.lit ": ", Piece.txt ((tvb.drop (o + 1)).take (p - (o + 1)))]],
       some ((tvb.drop (o + 1)).take (p - (o + 1)))⟩ := by
  have hp := scan_until_lt_length h
  have hop := (scan_until_drop_some h).1
  unfold dissect_bencoded_int
  simp only [h, tvb_get_string_enc, tvb_bytes]
  rw [if_pos (by omega)]

theorem dissect_bencoded_int_not_found {tvb : Tvb} {o : Nat} (label : String)
    (h : scan_until 101 (tvb.drop (o + 1)) (o + 1) = none) :
    dissect_bencoded_int tvb o label = ⟨Ret.thrown, [], none⟩ := by
  unfold dissect_bencoded_int
  simp only [h]

theorem dissect_bencoded_int_ret {tvb : Tvb} {o r : Nat} {label : String}
    (h : (dissect_bencoded_int tvb o label).ret = Ret.ret r) :
    o + 2 ≤ r ∧ r ≤ tvb.length := by
  cases hs : scan_until 101 (tvb.drop (o + 1)) (o + 1) with
  | none => rw [dissect_bencoded_int_not_found label hs] at h; exact absurd h (by simp)
  | some p =>
    have hp := scan_until_lt_length hs
    have hop := (scan_until_drop_some hs).1
    rw [dissect_bencoded_int_found label hs] at h
    simp only [Ret.ret.injEq] at h
    omega

theorem dissect_bencoded_int_ne_nofuel (tvb : Tvb) (o : Nat) (label : String) :
    (dissect_bencoded_int tvb o label).ret ≠ Ret.nofuel := by
  cases hs : scan_until 101 (tvb.drop (o + 1)) (o + 1) with
  | none => rw [dissect_bencoded_int_not_found label hs]; simp
  | some p => rw [dissect_bencoded_int_found label hs]; simp

/-! ## Error list, values list, nodes string and `ip` value: returned offsets -/

theorem bencoded_string_length_some {tvb : Tvb} {o len o' : Nat}
    (h : bencoded_string_length tvb o = some (len, o')) :
    o ≤ o' ∧ o' ≤ tvb.length ∧ len < 2 ^ 32 ∧ (len ≠ 0 → o + 2 ≤ o') := by
  rw [bencoded_string_length_eq] at h
  cases hs : scan_until 58 (tvb.drop o) o with
  | none => simp [hs] at h
  | some p =>
    have hp := scan_until_lt_length hs
    have hop := (scan_until_drop_some hs).1
    simp only [hs] at h
    cases hw : ws_strtou32 ((tvb.drop o).take (p - o)) with
    | none =>
      simp only [hw, Option.some.injEq, Prod.mk.injEq] at h
      obtain ⟨h1, h2⟩ := h
      subst h1 h2
      exact ⟨le_refl _, by omega, by norm_num, fun hc => absurd rfl hc⟩
    | some n =>
      simp only [hw, Option.some.injEq, Prod.mk.injEq] at h
      obtain ⟨h1, h2⟩ := h
      subst h1 h2
      obtain ⟨hne, hlt⟩ := ws_strtou32_some hw
      have : o < p := by
        by_contra hc
        have : p - o = 0 := by omega
        rw [this] at hne
        simp at hne
      exact ⟨by omega, by omega, hlt, fun _ => by omega⟩

theorem proto_tree_add_item_some {tvb : Tvb} {hf : Hf} {encoding : Enc} {start length : Nat}
    {ev : Event} (h : proto_tree_add_item tvb hf encoding start length = some ev) :
    start + length ≤ tvb.length ∧ ev = Event.add_item hf encoding start (some length) := by
  unfold proto_tree_add_item at h
  split at h
  · rename_i hle
    simp only [Option.some.injEq] at h
    exact ⟨hle, h.symm⟩
  · exact absurd h (by simp)

theorem dissect_bt_dht_error_ret {tvb : Tvb} {o r : Nat} {label : String}
    (h : (dissect_bt_dht_error tvb o label).ret = Ret.ret r) :
    r = 0 ∨ (o + 6 ≤ r ∧ r ≤ tvb.length) := by
  unfold dissect_bt_dht_error at h
  simp only at h
  split at h
  · simp at h
  · simp at h
  · rename_i r1 h1
    have b1 := dissect_bencoded_int_ret h1
    split at h
    · simp at h
    · simp at h
    · rename_i r2 h2
      have b2 := dissect_bencoded_string_ret h2
      simp only [Ret.ret.injEq] at h
      omega

theorem dissect_bt_dht_error_ne_nofuel (tvb : Tvb) (o : Nat) (label : String) :
    (dissect_bt_dht_error tvb o label).ret ≠ Ret.nofuel := by
  unfold dissect_bt_dht_error
  simp only
  split
  · rename_i h; exact absurd h (dissect_bencoded_int_ne_nofuel _ _ _)
  · simp
  · split
    · rename_i h; exact absurd h (dissect_bencoded_string_ne_nofuel _ _ _ _)
    · simp
    · simp

theorem values_peer4_some {tvb : Tvb} {o i : Nat} {evs : List Event}
    (h : values_peer4 tvb o i = some evs) : o + 6 ≤ tvb.length := by
  unfold values_peer4 at h
  split at h
  · rename_i h1 _ _ _ _
    exact (proto_tree_add_item_some h1).1
  · exact absurd h (by simp)

theorem values_peer6_some {tvb : Tvb} {o i : Nat} {evs : List Event}
    (h : values_peer6 tvb o i = some evs) : o + 18 ≤ tvb.length := by
  unfold values_peer6 at h
  split at h
  · rename_i h1 _ _ _ _
    exact (proto_tree_add_item_some h1).1
  · exact absurd h (by simp)

theorem dissect_bt_dht_values_loop_ret (tvb : Tvb) (ti : Nat) (label : String) :
    ∀ (fuel peer_index o r : Nat),
      (dissect_bt_dht_values_loop fuel tvb ti label peer_index o).ret = Ret.ret r →
      r = 0 ∨ (o + 1 ≤ r ∧ r ≤ tvb.length) := by
  intro fuel
  induction fuel with
  | zero => intro pi o r h; simp [dissect_bt_dht_values_loop] at h
  | succ f ih =>
    intro pi o r h
    rw [dissect_bt_dht_values_loop] at h
    split at h
    · simp at h
    · rename_i b hb
      have hoL : o < tvb.length := by
        by_contra hc
        simp [tvb_get_guint8, List.getElem?_eq_none (show tvb.length ≤ o by omega)] at hb
      split at h
      · simp only [Ret.ret.injEq] at h; right; omega
      · split at h
        · simp at h
        · rename_i len o' hl
          have hb := bencoded_string_length_some hl
          split at h
          · simp only [Ret.ret.injEq] at h; left; exact h.symm
          · split at h
            · split at h
              · simp at h
              · have := ih _ _ _ h
                omega
            · split at h
              · split at h
                · simp at h
                · have := ih _ _ _ h
                  omega
              · split at h
                · simp at h
                · have := ih _ _ _ h
                  omega

theorem dissect_bt_dht_values_ret {fuel : Nat} {tvb : Tvb} {o r : Nat} {label : String}
    (h : (dissect_bt_dht_values fuel tvb o label).ret = Ret.ret r) :
    r = 0 ∨ (o + 2 ≤ r ∧ r ≤ tvb.length) := by
  unfold dissect_bt_dht_values at h
  have := dissect_bt_dht_values_loop_ret tvb o label fuel 0 (o + 1) r h
  omega

theorem dissect_bt_dht_values_loop_ne_nofuel (tvb : Tvb) (ti : Nat) (label : String) :
    ∀ (fuel peer_index o : Nat), tvb.length - o + 1 ≤ fuel →
      (dissect_bt_dht_values_loop fuel tvb ti label peer_index o).ret ≠ Ret.nofuel := by
  intro fuel
  induction fuel with
  | zero => intro pi o h; omega
  | succ f ih =>
    intro pi o hf
    rw [dissect_bt_dht_values_loop]
    split
    · simp
    · rename_i b hb
      have hoL : o < tvb.length := by
        by_contra hc
        simp [tvb_get_guint8, List.getElem?_eq_none (show tvb.length ≤ o by omega)] at hb
      split
      · simp
      · split
        · simp
        · rename_i len o' hl
          have hb := bencoded_string_length_some hl
          split
          · simp
          · rename_i hne
            have h2 := hb.2.2.2 hne
            split
            · split
              · simp
              · exact ih _ _ (by omega)
            · split
              · split
                · simp
                · exact ih _ _ (by omega)
              · split
                · simp
                · exact ih _ _ (by omega)

theorem dissect_bt_dht_values_ne_nofuel {fuel : Nat} {tvb : Tvb} {o : Nat} (label : String)
    (hf : tvb.length - o + 1 ≤ fuel) :
    (dissect_bt_dht_values fuel tvb o label).ret ≠ Ret.nofuel := by
  unfold dissect_bt_dht_values
  exact dissect_bt_dht_values_loop_ne_nofuel tvb o label fuel 0 (o + 1) (by omega)

theorem dissect_bt_dht_nodes_loop_ret (tvb : Tvb) (ti : Nat) (label : String) ( is_ipv6 : Bool)
    (w : Nat) :
    ∀ (fuel node_index string_len o r : Nat),
      (dissect_bt_dht_nodes_loop fuel tvb ti label is_ipv6 w node_index string_len o).ret
        = Ret.ret r →
      r = o + string_len := by
  intro fuel
  induction fuel with
  | zero => intro ni sl o r h; simp [dissect_bt_dht_nodes_loop] at h
  | succ f ih =>
    intro ni sl o r h
    rw [dissect_bt_dht_nodes_loop] at h
    split at h
    · split at h
      · simp at h
      · have := ih _ _ _ _ h
        omega
    · split at h
      · split at h
        · simp at h
        · simp only [Ret.ret.injEq] at h; omega
      · simp only [Ret.ret.injEq] at h; omega

theorem dissect_bt_dht_nodes_loop_ne_nofuel (tvb : Tvb) (ti : Nat) (label : String)
    ( is_ipv6 : Bool) (w : Nat) (hw : 0 < w) :
    ∀ (fuel node_index string_len o : Nat), string_len + 1 ≤ fuel →
      (dissect_bt_dht_nodes_loop fuel tvb ti label is_ipv6 w node_index string_len o).ret
        ≠ Ret.nofuel := by
  intro fuel
  induction fuel with
  | zero => intro ni sl o h; omega
  | succ f ih =>
    intro ni sl o hf
    rw [dissect_bt_dht_nodes_loop]
    split
    · split
      · simp
      · exact ih _ _ _ (by omega)
    · split
      · split <;> simp
      · simp

theorem dissect_bt_dht_nodes_ret {fuel : Nat} {tvb : Tvb} {o r : Nat} {label : String}
    { is_ipv6 : Bool} (h : (dissect_bt_dht_nodes fuel tvb o label is_ipv6).ret = Ret.ret r) :
    o ≤ r ∧ r ≤ tvb.length := by
  unfold dissect_bt_dht_nodes at h
  split at h
  · simp at h
  · rename_i len o' hl
    have hb := bencoded_string_length_some hl
    split at h
    · simp at h
    · rename_i ev hev
      have hle := (proto_tree_add_item_some hev).1
      have := dissect_bt_dht_nodes_loop_ret tvb _ _ _ _ _ _ _ _ _ h
      omega

theorem dissect_bt_dht_nodes_ne_nofuel {fuel : Nat} {tvb : Tvb} {o : Nat} (label : String)
    ( is_ipv6 : Bool) (hf : tvb.length - o + 1 ≤ fuel) :
    (dissect_bt_dht_nodes fuel tvb o label is_ipv6).ret ≠ Ret.nofuel := by
  unfold dissect_bt_dht_nodes
  split
  · simp
  · rename_i len o' hl
    have hb := bencoded_string_length_some hl
    split
    · simp
    · rename_i ev hev
      have hle := (proto_tree_add_item_some hev).1
      apply dissect_bt_dht_nodes_loop_ne_nofuel
      · split <;> omega
      · omega

theorem dissect_bencoded_dict_entry_ip_ret {tvb : Tvb} {o r : Nat}
    (h : (dissect_bencoded_dict_entry_ip tvb o).ret = Ret.ret r) :
    r = 0 ∨ (o + 3 ≤ r ∧ r ≤ tvb.length) := by
  unfold dissect_bencoded_dict_entry_ip at h
  split at h
  · simp at h
  · rename_i len o' hl
    have hb := bencoded_string_length_some hl
    split at h
    · rename_i h6
      split at h
      · rename_i ip val port h1 h2 h3
        have := (proto_tree_add_item_some h3).1
        simp only [Ret.ret.injEq] at h
        have := hb.2.2.2 (by omega)
        right; omega
      · simp at h
      · simp at h
    · exact dissect_bencoded_string_ret h

theorem dissect_bencoded_dict_entry_ip_ne_nofuel (tvb : Tvb) (o : Nat) :
    (dissect_bencoded_dict_entry_ip tvb o).ret ≠ Ret.nofuel := by
  unfold dissect_bencoded_dict_entry_ip
  split
  · simp
  · split
    · split <;> simp
    · exact dissect_bencoded_string_ne_nofuel _ _ _ _

/-! ## Lists, dictionaries and entries: returned offsets -/

theorem tvb_get_guint8_some {tvb : Tvb} {o b : Nat} (h : tvb_get_guint8 tvb o = some b) :
    o < tvb.length := by
  by_contra hc
  simp [tvb_get_guint8, List.getElem?_eq_none (show tvb.length ≤ o by omega)] at h

theorem tvb_get_guint8_of_lt {tvb : Tvb} {o : Nat} (h : o < tvb.length) :
    ∃ b, tvb_get_guint8 tvb o = some b :=
  ⟨tvb[o], by simp [tvb_get_guint8, List.getElem?_eq_getElem h]⟩

/-- Every offset returned by the mutually recursive decoders is either the
failure value 0 or lies beyond the start offset and inside the buffer. -/
theorem decoders_ret_bounds (tvb : Tvb) : ∀ fuel : Nat,
    (∀ o label r, (dissect_bencoded_list fuel tvb o label).ret = Ret.ret r →
      r = 0 ∨ (o + 2 ≤ r ∧ r ≤ tvb.length)) ∧
    (∀ o b r, (dissect_bencoded_list_element fuel tvb o b).ret = Ret.ret r →
      r = 0 ∨ (o + 2 ≤ r ∧ r ≤ tvb.length)) ∧
    (∀ o r, (dissect_bencoded_list_loop fuel tvb o).ret = Ret.ret r →
      r = 0 ∨ (o + 1 ≤ r ∧ r ≤ tvb.length)) ∧
    (∀ o key b r, (dissect_bencoded_dict_entry_value fuel tvb o key b).ret = Ret.ret r →
      r = 0 ∨ (o ≤ r ∧ r ≤ tvb.length)) ∧
    (∀ o r, (dissect_bencoded_dict_entry fuel tvb o).ret = Ret.ret r →
      r = 0 ∨ (o + 3 ≤ r ∧ r ≤ tvb.length)) ∧
    (∀ o label r, (dissect_bencoded_dict fuel tvb o label).ret = Ret.ret r →
      r = 0 ∨ (o + 2 ≤ r ∧ r ≤ tvb.length)) ∧
    (∀ orig o r, (dissect_bencoded_dict_loop fuel tvb orig o).ret = Ret.ret r →
      r = 0 ∨ (o + 1 ≤ r ∧ r ≤ tvb.length)) := by
  intro fuel
  induction fuel with
  | zero =>
    refine ⟨?_, ?_, ?_, ?_, ?_, ?_, ?_⟩ <;> intros <;> rename_i h <;>
      simp [dissect_bencoded_list, dissect_bencoded_list_element, dissect_bencoded_list_loop,
        dissect_bencoded_dict_entry_value, dissect_bencoded_dict_entry, dissect_bencoded_dict,
        dissect_bencoded_dict_loop] at h
  | succ f ih =>
    obtain ⟨ihl, ihe, ihll, ihv, ihde, ihd, ihdl⟩ := ih
    refine ⟨?_, ?_, ?_, ?_, ?_, ?_, ?_⟩
    · intro o label r h
      rw [dissect_bencoded_list] at h
      have := ihll _ _ h
      omega
    · intro o b r h
      rw [dissect_bencoded_list_element] at h
      split at h
      · have := dissect_bencoded_int_ret h; omega
      · split at h
        · exact ihl _ _ _ h
        · split at h
          · exact ihd _ _ _ h
          · have := dissect_bencoded_string_ret h; omega
    · intro o r h
      rw [dissect_bencoded_list_loop] at h
      split at h
      · simp at h
      · rename_i b hb
        have hoL := tvb_get_guint8_some hb
        split at h
        · simp only [Ret.ret.injEq] at h; omega
        · simp only at h
          split at h
          · simp at h
          · simp at h
          · rename_i r1 h1
            split at h
            · simp only [Ret.ret.injEq] at h; left; exact h.symm
            · have := ihll _ _ h
              omega
    · intro o key b r h
      rw [dissect_bencoded_dict_entry_value] at h
      split at h
      · have := ihd _ _ _ h; omega
      · split at h
        · split at h
          · have := dissect_bt_dht_error_ret h; omega
          · split at h
            · have := dissect_bt_dht_values_ret h; omega
            · have := ihl _ _ _ h; omega
        · split at h
          · have := dissect_bencoded_int_ret h; omega
          · split at h
            · have := dissect_bt_dht_nodes_ret h; omega
            · split at h
              · have := dissect_bt_dht_nodes_ret h; omega
              · split at h
                · have := dissect_bencoded_dict_entry_ip_ret h; omega
                · have := dissect_bencoded_string_ret h; omega
    · intro o r h
      rw [dissect_bencoded_dict_entry] at h
      simp only at h
      split at h
      · simp at h
      · simp at h
      · rename_i r1 h1
        have b1 := dissect_bencoded_string_ret h1
        split at h
        · simp only [Ret.ret.injEq] at h; left; exact h.symm
        · split at h
          · simp at h
          · split at h
            · simp at h
            · simp at h
            · rename_i r2 h2
              have b2 := ihv _ _ _ _ h2
              split at h
              · simp only [Ret.ret.injEq] at h; left; exact h.symm
              · simp only [Ret.ret.injEq] at h
                omega
    · intro o label r h
      rw [dissect_bencoded_dict] at h
      have := ihdl _ _ _ h
      omega
    · intro orig o r h
      rw [dissect_bencoded_dict_loop] at h
      split at h
      · simp at h
      · rename_i b hb
        have hoL := tvb_get_guint8_some hb
        split at h
        · simp only [Ret.ret.injEq] at h; omega
        · simp only at h
          split at h
          · simp at h
          · simp at h
          · rename_i r1 h1
            have b1 := ihde _ _ h1
            split at h
            · simp only [Ret.ret.injEq] at h; left; exact h.symm
            · have := ihdl _ _ _ h
              omega

/-! ## Termination: enough fuel always gives a result -/

/-- With fuel above a bound that is linear in the number of unread bytes, no
decoder of the mutual recursion runs out of fuel. -/
theorem decoders_ne_nofuel (tvb : Tvb) : ∀ fuel : Nat,
    (∀ o label, 3 * (tvb.length - (o + 1)) + 3 ≤ fuel →
      (dissect_bencoded_list fuel tvb o label).ret ≠ Ret.nofuel) ∧
    (∀ o b, o < tvb.length → 3 * (tvb.length - o) + 1 ≤ fuel →
      (dissect_bencoded_list_element fuel tvb o b).ret ≠ Ret.nofuel) ∧
    (∀ o, 3 * (tvb.length - o) + 2 ≤ fuel →
      (dissect_bencoded_list_loop fuel tvb o).ret ≠ Ret.nofuel) ∧
    (∀ o key b, o < tvb.length → 3 * (tvb.length - o) + 1 ≤ fuel →
      (dissect_bencoded_dict_entry_value fuel tvb o key b).ret ≠ Ret.nofuel) ∧
    (∀ o, 3 * (tvb.length - o) + 1 ≤ fuel →
      (dissect_bencoded_dict_entry fuel tvb o).ret ≠ Ret.nofuel) ∧
    (∀ o label, 3 * (tvb.length - (o + 1)) + 3 ≤ fuel →
      (dissect_bencoded_dict fuel tvb o label).ret ≠ Ret.nofuel) ∧
    (∀ orig o, 3 * (tvb.length - o) + 2 ≤ fuel →
      (dissect_bencoded_dict_loop fuel tvb orig o).ret ≠ Ret.nofuel) := by
  intro fuel
  induction fuel with
  | zero =>
    refine ⟨?_, ?_, ?_, ?_, ?_, ?_, ?_⟩ <;> intros <;> omega
  | succ f ih =>
    obtain ⟨ihl, ihe, ihll, ihv, ihde, ihd, ihdl⟩ := ih
    refine ⟨?_, ?_, ?_, ?_, ?_, ?_, ?_⟩
    · intro o label hf
      rw [dissect_bencoded_list]
      exact ihll _ (by omega)
    · intro o b ho hf
      rw [dissect_bencoded_list_element]
      split
      · exact dissect_bencoded_int_ne_nofuel _ _ _
      · split
        · exact ihl _ _ (by omega)
        · split
          · exact ihd _ _ (by omega)
          · exact dissect_bencoded_string_ne_nofuel _ _ _ _
    · intro o hf
      rw [dissect_bencoded_list_loop]
      split
      · simp
      · rename_i b hb
        have hoL := tvb_get_guint8_some hb
        split
        · simp
        · simp only
          split
          · rename_i h1
            exact absurd h1 (ihe _ _ hoL (by omega))
          · simp
          · rename_i r1 h1
            split
            · simp
            · exact ihll _ (by omega)
    · intro o key b ho hf
      rw [dissect_bencoded_dict_entry_value]
      split
      · exact ihd _ _ (by omega)
      · split
        · split
          · exact dissect_bt_dht_error_ne_nofuel _ _ _
          · split
            · exact dissect_bt_dht_values_ne_nofuel _ (by omega)
            · exact ihl _ _ (by omega)
        · split
          · exact dissect_bencoded_int_ne_nofuel _ _ _
          · split
            · exact dissect_bt_dht_nodes_ne_nofuel _ _ (by omega)
            · split
              · exact dissect_bt_dht_nodes_ne_nofuel _ _ (by omega)
              · split
                · exact dissect_bencoded_dict_entry_ip_ne_nofuel _ _
                · exact dissect_bencoded_string_ne_nofuel _ _ _ _
    · intro o hf
      rw [dissect_bencoded_dict_entry]
      simp only
      split
      · rename_i h1
        exact absurd h1 (dissect_bencoded_string_ne_nofuel _ _ _ _)
      · simp
      · rename_i r1 h1
        have b1 := dissect_bencoded_string_ret h1
        split
        · simp
        · rename_i hr1
          split
          · simp
          · rename_i b hb
            have hoL := tvb_get_guint8_some hb
            split
            · rename_i h2
              exact absurd h2 (ihv _ _ _ hoL (by omega))
            · simp
            · split <;> simp
    · intro o label hf
      rw [dissect_bencoded_dict]
      exact ihdl _ _ (by omega)
    · intro orig o hf
      rw [dissect_bencoded_dict_loop]
      split
      · simp
      · rename_i b hb
        have hoL := tvb_get_guint8_some hb
        split
        · simp
        · simp only
          split
          · rename_i h1
            exact absurd h1 (ihde _ (by omega))
          · simp
          · rename_i r1 h1
            have b1 := (decoders_ret_bounds tvb f).2.2.2.2.1 _ _ h1
            split
            · simp
            · exact ihdl _ _ (by omega)

/-! ## Decoding an encoded byte-string or integer -/

theorem holds_at_take {tvb : Tvb} {o : Nat} {s : List Nat} (h : holds_at tvb o s) :
    (tvb.drop o).take s.length = s := holds_at_iff.mp h

theorem holds_at_le {tvb : Tvb} {o : Nat} {s : List Nat} (h : holds_at tvb o s) (hs : s ≠ []) :
    o + s.length ≤ tvb.length := by
  have h1 := holds_at_length h
  have h2 : 0 < s.length := List.length_pos.mpr hs
  omega

/-- A length prefix in decimal digits followed by `:` and the declared bytes. -/
theorem dissect_bencoded_string_decimal {tvb : Tvb} {o n : Nat} (tohex : Bool) (label : String)
    (hn0 : n ≠ 0) (hn : n < 2 ^ 32) (hh : holds_at tvb o (decimal n ++ [58]))
    (hlen : o + (decimal n).length + 1 + n ≤ tvb.length) :
    dissect_bencoded_string tvb o tohex label =
      ⟨Ret.ret (o + (decimal n).length + 1 + n),
       [Event.add_string_format Hf.hf_bencoded_string (o + (decimal n).length + 1) n
          (if tohex then hex_dump ((tvb.drop (o + (decimal n).length + 1)).take n)
           else (tvb.drop (o + (decimal n).length + 1)).take n)
          [Piece.lit label, Piece.lit ": ",
           Piece.txt (if tohex then hex_dump ((tvb.drop (o + (decimal n).length + 1)).take n)
                      else (tvb.drop (o + (decimal n).length + 1)).take n)]],
       some (if tohex then hex_dump ((tvb.drop (o + (decimal n).length + 1)).take n)
             else (tvb.drop (o + (decimal n).length + 1)).take n)⟩ := by
  have hcolon : tvb[o + (decimal n).length]? = some 58 := by
    rw [holds_at_getElem? hh (decimal n).length (by simp)]
    simp
  have hdig : ∀ i : Nat, o ≤ i → i < o + (decimal n).length → tvb[i]? ≠ some 58 := by
    intro i hi hlt
    have e : i = o + (i - o) := by omega
    rw [e, holds_at_getElem? hh (i - o) (by simp; omega),
      List.getElem?_append_left (by omega)]
    intro hc
    have hmem : 58 ∈ decimal n := List.getElem?_mem hc
    have := decimal_digit n 58 hmem
    omega
  have hs : scan_until 58 (tvb.drop o) o = some (o + (decimal n).length) :=
    scan_until_drop_eq_some (by omega) hcolon hdig
  have hpre : (tvb.drop o).take (o + (decimal n).length - o) = decimal n := by
    have : o + (decimal n).length - o = (decimal n).length := by omega
    rw [this]
    exact holds_at_take (holds_at_append.mp hh).1
  have hw : ws_strtou32 ((tvb.drop o).take (o + (decimal n).length - o)) = some n := by
    rw [hpre]; exact ws_strtou32_decimal n hn
  exact dissect_bencoded_string_ok tohex label hs hw hn0 hlen

/-- The encoding of a non-empty byte-string decodes to the byte-string. -/
theorem dissect_bencoded_string_encode {tvb : Tvb} {o : Nat} {bytes : List Nat}
    (tohex : Bool) (label : String) (hb : bytes ≠ []) (hL : tvb.length < 2 ^ 32)
    (hh : holds_at tvb o (encode_string bytes)) :
    (dissect_bencoded_string tvb o tohex label).ret = Ret.ret (o + (encode_string bytes).length) ∧
    (dissect_bencoded_string tvb o tohex label).result =
      some (if tohex then hex_dump bytes else bytes) := by
  have hlen := holds_at_le hh (by simp [encode_string])
  have hlen' : o + (decimal bytes.length).length + 1 + bytes.length ≤ tvb.length := by
    simp [encode_string] at hlen; omega
  have hn0 : bytes.length ≠ 0 := by
    intro hc; exact hb (List.length_eq_zero.mp hc)
  have hh' : holds_at tvb o (decimal bytes.length ++ [58]) := by
    have : encode_string bytes = (decimal bytes.length ++ [58]) ++ bytes := by
      simp [encode_string]
    rw [this] at hh
    exact (holds_at_append.mp hh).1
  have hbytes : (tvb.drop (o + (decimal bytes.length).length + 1)).take bytes.length = bytes := by
    have : encode_string bytes = (decimal bytes.length ++ [58]) ++ bytes := by
      simp [encode_string]
    rw [this] at hh
    have h2 := (holds_at_append.mp hh).2
    simp only [List.length_append, List.length_singleton] at h2
    have := holds_at_take h2
    rwa [← Nat.add_assoc] at this
  rw [dissect_bencoded_string_decimal tohex label hn0 (by omega) hh' hlen', hbytes]
  simp [encode_string]
  omega

/-- An integer text without `e`, followed by `e`, after the first byte. -/
theorem dissect_bencoded_int_text {tvb : Tvb} {o : Nat} {text : List Nat} (label : String)
    (ht : ∀ b ∈ text, b ≠ 101) (hh : holds_at tvb (o + 1) (text ++ [101])) :
    dissect_bencoded_int tvb o label =
      ⟨Ret.ret (o + 1 + text.length + 1),
       [Event.add_item Hf.hf_bencoded_list_terminator Enc.ENC_ASCII_NA (o + 1 + text.length) (some 1),
        Event.add_string_format Hf.hf_bencoded_int (o + 1) text.length text
          [Piece.lit label, Piece.lit ": ", Piece.txt text]],
       some text⟩ := by
  have he : tvb[o + 1 + text.length]? = some 101 := by
    rw [holds_at_getElem? hh text.length (by simp)]
    simp
  have hdig : ∀ i : Nat, o + 1 ≤ i → i < o + 1 + text.length → tvb[i]? ≠ some 101 := by
    intro i hi hlt
    have e : i = o + 1 + (i - (o + 1)) := by omega
    rw [e, holds_at_getElem? hh (i - (o + 1)) (by simp; omega),
      List.getElem?_append_left (by omega)]
    intro hc
    exact ht 101 (List.getElem?_mem hc) rfl
  have hs : scan_until 101 (tvb.drop (o + 1)) (o + 1) = some (o + 1 + text.length) :=
    scan_until_drop_eq_some (by omega) he hdig
  have htxt : (tvb.drop (o + 1)).take (o + 1 + text.length - (o + 1)) = text := by
    have : o + 1 + text.length - (o + 1) = text.length := by omega
    rw [this]
    exact holds_at_take (holds_at_append.mp hh).1
  rw [dissect_bencoded_int_found label hs, htxt]
  have : o + 1 + text.length - (o + 1) = text.length := by omega
  rw [this]

/-! ## Decoding an encoded generic value -/

theorem is_digit_bounds {b : Nat} (h : is_digit b = true) : 48 ≤ b ∧ b ≤ 57 := by
  simpa [is_digit] using h

theorem encode_string_head (bytes : List Nat) :
    ∃ c rest, encode_string bytes = c :: rest ∧ 48 ≤ c ∧ c ≤ 57 := by
  unfold encode_string
  cases hd : decimal bytes.length with
  | nil => exact absurd hd (decimal_ne_nil _)
  | cons c rest =>
    refine ⟨c, rest ++ 58 :: bytes, by simp, ?_⟩
    exact decimal_digit bytes.length c (by rw [hd]; simp)

/-- A key that is not special is none of the five keys for `strcmp`. -/
theorem special_key_false {key : List Nat} (h : special_key key = false) :
    strcmp key (str "e") ≠ 0 ∧ strcmp key (str "values") ≠ 0 ∧ strcmp key (str "nodes") ≠ 0 ∧ strcmp key (str "nodes6") ≠ 0 ∧
      strcmp key (str "ip") ≠ 0 := by
  simp only [special_key, Bool.or_eq_false_iff, decide_eq_false_iff_not] at h
  obtain ⟨⟨⟨⟨a, b⟩, c⟩, d⟩, e⟩ := h
  exact ⟨a, b, c, d, e⟩

theorem list_of_loop {fuel : Nat} {tvb : Tvb} {o r : Nat} (label : String)
    (h : (dissect_bencoded_list_loop fuel tvb (o + 1)).ret = Ret.ret r) :
    (dissect_bencoded_list (fuel + 1) tvb o label).ret = Ret.ret r := by
  rw [dissect_bencoded_list]; exact h

theorem dict_of_loop {fuel : Nat} {tvb : Tvb} {o r : Nat} (label : String)
    (h : (dissect_bencoded_dict_loop fuel tvb o (o + 1)).ret = Ret.ret r) :
    (dissect_bencoded_dict (fuel + 1) tvb o label).ret = Ret.ret r := by
  rw [dissect_bencoded_dict]; exact h

mutual

theorem decode_value_ok (tvb : Tvb) (hL : tvb.length < 2 ^ 32) :
    ∀ (v : BValue) (o : Nat), v.generic = true → holds_at tvb o v.encode →
      (∀ fuel b, 3 * (tvb.length - o) + 1 ≤ fuel → tvb_get_guint8 tvb o = some b →
        b ≠ 101 ∧
        (dissect_bencoded_list_element fuel tvb o b).ret = Ret.ret (o + v.encode.length)) ∧
      (∀ fuel key b, 3 * (tvb.length - o) + 1 ≤ fuel → special_key key = false →
        tvb_get_guint8 tvb o = some b →
        (dissect_bencoded_dict_entry_value fuel tvb o key b).ret
          = Ret.ret (o + v.encode.length))
  | BValue.int text, o, hg, hh => by
    simp only [BValue.generic, List.all_eq_true] at hg
    simp only [BValue.encode] at hh ⊢
    have hhead := holds_at_head hh
    have hh1 : holds_at tvb (o + 1) (text ++ [101]) := by
      have : (105 :: (text ++ [101])) = [105] ++ (text ++ [101]) := rfl
      have h2 := hh
      rw [List.cons_append] at h2
      rw [this] at h2
      exact (holds_at_append.mp h2).2
    have ht : ∀ b ∈ text, b ≠ 101 := by
      intro b hb
      have := is_digit_bounds (hg b hb)
      omega
    have hint := fun label => @dissect_bencoded_int_text tvb o text label ht hh1
    refine ⟨?_, ?_⟩
    · intro fuel b hf hb
      simp only [tvb_get_guint8, hhead, Option.some.injEq] at hb
      subst hb
      cases fuel with
      | zero => omega
      | succ f =>
        rw [dissect_bencoded_list_element]
        simp only [if_true, hint]
        refine ⟨by decide, ?_⟩
        simp
        omega
    · intro fuel key b hf hk hb
      simp only [tvb_get_guint8, hhead, Option.some.injEq] at hb
      subst hb
      cases fuel with
      | zero => omega
      | succ f =>
        rw [dissect_bencoded_dict_entry_value]
        simp only [hint]
        simp
        omega
  | BValue.string bytes, o, hg, hh => by
    simp only [BValue.generic, decide_eq_true_eq] at hg
    simp only [BValue.encode] at hh ⊢
    obtain ⟨c, rest, hc, hc1, hc2⟩ := encode_string_head bytes
    have hhead : tvb[o]? = some c := by
      have h2 := hh
      rw [hc] at h2
      exact holds_at_head h2
    have hstr := fun tohex label =>
      (@dissect_bencoded_string_encode tvb o bytes tohex label hg hL hh).1
    refine ⟨?_, ?_⟩
    · intro fuel b hf hb
      simp only [tvb_get_guint8, hhead, Option.some.injEq] at hb
      subst hb
      cases fuel with
      | zero => omega
      | succ f =>
        rw [dissect_bencoded_list_element]
        rw [if_neg (by omega), if_neg (by omega), if_neg (by omega)]
        exact ⟨by omega, hstr _ _⟩
    · intro fuel key b hf hk hb
      simp only [tvb_get_guint8, hhead, Option.some.injEq] at hb
      subst hb
      obtain ⟨k1, k2, k3, k4, k5⟩ := special_key_false hk
      cases fuel with
      | zero => omega
      | succ f =>
        rw [dissect_bencoded_dict_entry_value]
        rw [if_neg (by omega), if_neg (by omega), if_neg (by omega), if_neg k3, if_neg k4,
          if_neg k5]
        exact hstr _ _
  | BValue.list items, o, hg, hh => by
    simp only [BValue.generic] at hg
    simp only [BValue.encode] at hh ⊢
    have hhead := holds_at_head hh
    have hoL : o < tvb.length := by
      have := holds_at_le hh (by simp)
      simp at this; omega
    have hh1 : holds_at tvb (o + 1) (items.encode ++ [101]) := by
      have : (108 :: (items.encode ++ [101])) = [108] ++ (items.encode ++ [101]) := rfl
      have h2 := hh
      rw [List.cons_append] at h2
      rw [this] at h2
      exact (holds_at_append.mp h2).2
    have hloop := decode_items_ok tvb hL items (o + 1) hg hh1
    have hlen : o + (108 :: items.encode ++ [101]).length = o + 1 + items.encode.length + 1 := by
      simp; omega
    rw [hlen]
    refine ⟨?_, ?_⟩
    · intro fuel b hf hb
      simp only [tvb_get_guint8, hhead, Option.some.injEq] at hb
      subst hb
      cases fuel with
      | zero => omega
      | succ f =>
        cases f with
        | zero => omega
        | succ f2 =>
          rw [dissect_bencoded_list_element]
          rw [if_neg (by omega), if_pos rfl]
          exact ⟨by omega, list_of_loop _ (hloop f2 (by omega))⟩
    · intro fuel key b hf hk hb
      simp only [tvb_get_guint8, hhead, Option.some.injEq] at hb
      subst hb
      obtain ⟨k1, k2, k3, k4, k5⟩ := special_key_false hk
      cases fuel with
      | zero => omega
      | succ f =>
        cases f with
        | zero => omega
        | succ f2 =>
          rw [dissect_bencoded_dict_entry_value]
          rw [if_neg (by omega), if_pos rfl, if_neg k1, if_neg k2]
          exact list_of_loop "Value" (hloop f2 (by omega))
  | BValue.dict entries, o, hg, hh => by
    simp only [BValue.generic] at hg
    simp only [BValue.encode] at hh ⊢
    have hhead := holds_at_head hh
    have hoL : o < tvb.length := by
      have := holds_at_le hh (by simp)
      simp at this; omega
    have hh1 : holds_at tvb (o + 1) (entries.encode ++ [101]) := by
      have : (100 :: (entries.encode ++ [101])) = [100] ++ (entries.encode ++ [101]) := rfl
      have h2 := hh
      rw [List.cons_append] at h2
      rw [this] at h2
      exact (holds_at_append.mp h2).2
    have hloop := decode_entries_ok tvb hL entries o (o + 1) hg hh1
    have hlen : o + (100 :: entries.encode ++ [101]).length
        = o + 1 + entries.encode.length + 1 := by
      simp; omega
    rw [hlen]
    refine ⟨?_, ?_⟩
    · intro fuel b hf hb
      simp only [tvb_get_guint8, hhead, Option.some.injEq] at hb
      subst hb
      cases fuel with
      | zero => omega
      | succ f =>
        cases f with
        | zero => omega
        | succ f2 =>
          rw [dissect_bencoded_list_element]
          rw [if_neg (by omega), if_neg (by omega), if_pos rfl]
          exact ⟨by omega, dict_of_loop _ (hloop f2 (by omega))⟩
    · intro fuel key b hf hk hb
      simp only [tvb_get_guint8, hhead, Option.some.injEq] at hb
      subst hb
      cases fuel with
      | zero => omega
      | succ f =>
        cases f with
        | zero => omega
        | succ f2 =>
          rw [dissect_bencoded_dict_entry_value]
          rw [if_pos rfl]
          exact dict_of_loop "Value" (hloop f2 (by omega))

theorem decode_items_ok (tvb : Tvb) (hL : tvb.length < 2 ^ 32) :
    ∀ (xs : BList) (o : Nat), xs.generic = true → holds_at tvb o (xs.encode ++ [101]) →
      ∀ fuel, 3 * (tvb.length - o) + 2 ≤ fuel →
        (dissect_bencoded_list_loop fuel tvb o).ret = Ret.ret (o + xs.encode.length + 1)
  | BList.nil, o, _, hh => by
    intro fuel hf
    simp only [BList.encode, List.nil_append] at hh ⊢
    have hhead := holds_at_head hh
    cases fuel with
    | zero => omega
    | succ f =>
      rw [dissect_bencoded_list_loop]
      simp [tvb_get_guint8, hhead]
  | BList.cons v rest, o, hg, hh => by
    intro fuel hf
    simp only [BList.generic, Bool.and_eq_true] at hg
    simp only [BList.encode, List.append_assoc] at hh ⊢
    obtain ⟨hv, hrest⟩ := holds_at_append.mp hh
    have hne : v.encode ≠ [] := by
      cases v <;> simp [BValue.encode, encode_string]
    have hvL := holds_at_le hv hne
    have hpos : 0 < v.encode.length := List.length_pos.mpr hne
    have hoL : o < tvb.length := by omega
    obtain ⟨b, hb⟩ := tvb_get_guint8_of_lt hoL
    cases fuel with
    | zero => omega
    | succ f =>
      obtain ⟨hbe, helem⟩ := (decode_value_ok tvb hL v o hg.1 hv).1 f b (by omega) hb
      have hnext := decode_items_ok tvb hL rest (o + v.encode.length) hg.2 hrest f (by omega)
      rw [dissect_bencoded_list_loop]
      simp only [hb, if_neg hbe, helem]
      rw [if_neg (by omega)]
      simp only [hnext, List.length_append]
      congr 1
      omega

theorem decode_entries_ok (tvb : Tvb) (hL : tvb.length < 2 ^ 32) :
    ∀ (kvs : BDict) (orig o : Nat), kvs.generic = true → holds_at tvb o (kvs.encode ++ [101]) →
      ∀ fuel, 3 * (tvb.length - o) + 2 ≤ fuel →
        (dissect_bencoded_dict_loop fuel tvb orig o).ret = Ret.ret (o + kvs.encode.length + 1)
  | BDict.nil, orig, o, _, hh => by
    intro fuel hf
    simp only [BDict.encode, List.nil_append] at hh ⊢
    have hhead := holds_at_head hh
    cases fuel with
    | zero => omega
    | succ f =>
      rw [dissect_bencoded_dict_loop]
      simp [tvb_get_guint8, hhead]
  | BDict.cons key v rest, orig, o, hg, hh => by
    intro fuel hf
    simp only [BDict.generic, Bool.and_eq_true, decide_eq_true_eq, Bool.not_eq_true'] at hg
    obtain ⟨⟨⟨hkne, hksp⟩, hgv⟩, hgrest⟩ := hg
    simp only [BDict.encode, List.append_assoc] at hh ⊢
    obtain ⟨hk, hvr⟩ := holds_at_append.mp hh
    obtain ⟨hv, hrest⟩ := holds_at_append.mp hvr
    obtain ⟨c, crest, hc, hc1, hc2⟩ := encode_string_head key
    have hhead : tvb[o]? = some c := by
      have h2 := hk
      rw [hc] at h2
      exact holds_at_head h2
    have hkL := holds_at_le hk (by rw [hc]; simp)
    have hkpos : 3 ≤ (encode_string key).length := by
      have := decimal_length_pos key.length
      have : 0 < key.length := List.length_pos.mpr hkne
      simp [encode_string]; omega
    have hne : v.encode ≠ [] := by
      cases v <;> simp [BValue.encode, encode_string]
    have hvL := holds_at_le hv hne
    have hpos : 0 < v.encode.length := List.length_pos.mpr hne
    obtain ⟨hkret, hkres⟩ :=
      @dissect_bencoded_string_encode tvb o key false "Key" hkne hL hk
    have hoL : o + (encode_string key).length < tvb.length := by omega
    obtain ⟨b, hb⟩ := tvb_get_guint8_of_lt hoL
    cases fuel with
    | zero => omega
    | succ f =>
      cases f with
      | zero => omega
      | succ f2 =>
        have hval := (decode_value_ok tvb hL v (o + (encode_string key).length) hgv hv).2 f2 key b
          (by omega) hksp hb
        have hnext := decode_entries_ok tvb hL rest orig
          (o + (encode_string key).length + v.encode.length) hgrest hrest (f2 + 1) (by omega)
        have hentry : (dissect_bencoded_dict_entry (f2 + 1) tvb o).ret
            = Ret.ret (o + (encode_string key).length + v.encode.length) := by
          rw [dissect_bencoded_dict_entry]
          simp only [hkret]
          rw [if_neg (by omega)]
          simp only [hb, hkres, printf_s, Option.getD_some, Bool.false_eq_true, if_false, hval]
          rw [if_neg (by omega)]
        rw [dissect_bencoded_dict_loop]
        simp only [tvb_get_guint8, hhead, hentry]
        rw [if_neg (by omega), if_neg (by omega)]
        simp only [hnext, List.length_append]
        congr 1
        omega

end

/-! ## Failure inside a container -/

theorem list_reaches_ret {tvb : Tvb} {fuel o fuel' p : Nat} (h : list_reaches tvb fuel o fuel' p) :
    (dissect_bencoded_list_loop fuel tvb o).ret = (dissect_bencoded_list_loop fuel' tvb p).ret := by
  induction h with
  | here => rfl
  | next fuel' p b r _ hb hbe hret hlt ih =>
    rw [ih, dissect_bencoded_list_loop]
    simp only [hb, if_neg hbe, hret]
    rw [if_neg (by omega)]

/-- One iteration of the list loop at an element that does not advance the offset. -/
theorem list_loop_no_progress {tvb : Tvb} {fuel p b r : Nat}
    (hb : tvb_get_guint8 tvb p = some b) (hbe : b ≠ 101)
    (hret : (dissect_bencoded_list_element fuel tvb p b).ret = Ret.ret r) (hle : r ≤ p) :
    dissect_bencoded_list_loop (fuel + 1) tvb p =
      ⟨Ret.ret 0,
       (dissect_bencoded_list_element fuel tvb p b).events
         ++ [Event.expert Ei.ei_int_string r "String must contain an integer"],
       none⟩ := by
  rw [dissect_bencoded_list_loop]
  simp only [hb, if_neg hbe, hret]
  rw [if_pos hle]

/-- One step of the call structure hands a failure (0) of the nested call to
the caller, which emits nothing but expert items after it. -/
theorem calls_failure {tvb : Tvb} {c d : Call} (h : calls tvb c d)
    (hd : (d.run tvb).ret = Ret.ret 0) :
    (c.run tvb).ret = Ret.ret 0 ∧
    ∃ pre post, (c.run tvb).events = pre ++ (d.run tvb).events ++ post ∧
      ∀ e ∈ post, ∃ ei start text, e = Event.expert ei start text := by
  cases h with
  | list_body fuel offset label =>
    simp only [Call.run] at hd ⊢
    rw [dissect_bencoded_list]
    exact ⟨hd, [Event.add_none_format Hf.hf_bencoded_list offset (some 0)
      [Piece.lit label, Piece.lit ": list..."]], [], by simp, by simp⟩
  | list_element fuel offset b hb hbe =>
    simp only [Call.run] at hd ⊢
    rw [list_loop_no_progress hb hbe hd (by omega)]
    exact ⟨rfl, [], [Event.expert Ei.ei_int_string 0 "String must contain an integer"],
      by simp, by simp⟩
  | list_next fuel offset b r hb hbe hret hlt =>
    simp only [Call.run] at hd ⊢
    rw [dissect_bencoded_list_loop]
    simp only [hb, if_neg hbe, hret]
    rw [if_neg (by omega)]
    exact ⟨hd, (dissect_bencoded_list_element fuel tvb offset b).events, [], by simp, by simp⟩
  | element_int fuel offset =>
    simp only [Call.run] at hd ⊢
    rw [dissect_bencoded_list_element]
    simp only [if_true]
    exact ⟨hd, [], [], by simp, by simp⟩
  | element_list fuel offset =>
    simp only [Call.run] at hd ⊢
    rw [dissect_bencoded_list_element]
    rw [if_neg (by decide), if_pos rfl]
    exact ⟨hd, [], [], by simp, by simp⟩
  | element_dict fuel offset =>
    simp only [Call.run] at hd ⊢
    rw [dissect_bencoded_list_element]
    rw [if_neg (by decide), if_neg (by decide), if_pos rfl]
    exact ⟨hd, [], [], by simp, by simp⟩
  | element_string fuel offset b h1 h2 h3 =>
    simp only [Call.run] at hd ⊢
    rw [dissect_bencoded_list_element]
    rw [if_neg h1, if_neg h2, if_neg h3]
    exact ⟨hd, [], [], by simp, by simp⟩
  | entry_key fuel offset =>
    simp only [Call.run] at hd ⊢
    rw [dissect_bencoded_dict_entry]
    simp only [hd, if_true]
    exact ⟨trivial, [Event.add_item Hf.hf_bencoded_dict_entry Enc.ENC_NA offset (some 0)],
      [Event.expert Ei.ei_int_string 0 "Invalid string for Key"], by simp, by simp⟩
  | entry_value fuel offset r b hk hr hb =>
    simp only [Call.run] at hd ⊢
    rw [dissect_bencoded_dict_entry]
    simp only [hk, if_neg hr, hb, hd, if_true]
    exact ⟨trivial, Event.add_item Hf.hf_bencoded_dict_entry Enc.ENC_NA offset (some 0) ::
        (dissect_bencoded_string tvb offset false "Key").events,
      [Event.expert Ei.ei_int_string 0 "Invalid string for value"], by simp, by simp⟩
  | value_dict fuel offset key =>
    simp only [Call.run] at hd ⊢
    rw [dissect_bencoded_dict_entry_value]
    simp only [if_true]
    exact ⟨hd, [], [], by simp, by simp⟩
  | value_error fuel offset key hk =>
    simp only [Call.run] at hd ⊢
    rw [dissect_bencoded_dict_entry_value]
    rw [if_neg (by decide), if_pos rfl, if_pos hk]
    exact ⟨hd, [], [], by simp, by simp⟩
  | value_values fuel offset key hk =>
    simp only [Call.run] at hd ⊢
    rw [dissect_bencoded_dict_entry_value]
    have hne : strcmp key (str "e") ≠ 0 := strcmp_ne_of_eq hk (by decide)
    rw [if_neg (by decide), if_pos rfl, if_neg hne, if_pos hk]
    exact ⟨hd, [], [], by simp, by simp⟩
  | value_list fuel offset key h1 h2 =>
    simp only [Call.run] at hd ⊢
    rw [dissect_bencoded_dict_entry_value]
    rw [if_neg (by decide), if_pos rfl, if_neg h1, if_neg h2]
    exact ⟨hd, [], [], by simp, by simp⟩
  | value_int fuel offset key =>
    simp only [Call.run] at hd ⊢
    rw [dissect_bencoded_dict_entry_value]
    rw [if_neg (by decide), if_neg (by decide), if_pos rfl]
    exact ⟨hd, [], [], by simp, by simp⟩
  | value_nodes fuel offset b key h1 h2 h3 hk =>
    simp only [Call.run] at hd ⊢
    rw [dissect_bencoded_dict_entry_value]
    rw [if_neg h1, if_neg h2, if_neg h3, if_pos hk]
    exact ⟨hd, [], [], by simp, by simp⟩
  | value_nodes6 fuel offset b key h1 h2 h3 hk =>
    simp only [Call.run] at hd ⊢
    rw [dissect_bencoded_dict_entry_value]
    have hne : strcmp key (str "nodes") ≠ 0 := strcmp_ne_of_eq hk (by decide)
    rw [if_neg h1, if_neg h2, if_neg h3, if_neg hne, if_pos hk]
    exact ⟨hd, [], [], by simp, by simp⟩
  | value_ip fuel offset b key h1 h2 h3 hk =>
    simp only [Call.run] at hd ⊢
    rw [dissect_bencoded_dict_entry_value]
    have hne : strcmp key (str "nodes") ≠ 0 := strcmp_ne_of_eq hk (by decide)
    have hne6 : strcmp key (str "nodes6") ≠ 0 := strcmp_ne_of_eq hk (by decide)
    rw [if_neg h1, if_neg h2, if_neg h3, if_neg hne, if_neg hne6, if_pos hk]
    exact ⟨hd, [], [], by simp, by simp⟩
  | value_string fuel offset b key h1 h2 h3 k1 k2 k3 =>
    simp only [Call.run] at hd ⊢
    rw [dissect_bencoded_dict_entry_value]
    rw [if_neg h1, if_neg h2, if_neg h3, if_neg k1, if_neg k2, if_neg k3]
    exact ⟨hd, [], [], by simp, by simp⟩
  | dict_body fuel offset label =>
    simp only [Call.run] at hd ⊢
    rw [dissect_bencoded_dict]
    exact ⟨hd, [if offset = 0 then Event.add_item Hf.proto_bt_dht Enc.ENC_NA 0 none
      else Event.add_none_format Hf.hf_bencoded_dict offset none
        [Piece.lit label, Piece.lit ": Dictionary..."]], [], by simp, by simp⟩
  | dict_entry fuel orig offset b hb hbe =>
    simp only [Call.run] at hd ⊢
    rw [dissect_bencoded_dict_loop]
    simp only [hb, if_neg hbe, hd, if_true]
    exact ⟨trivial, [], [Event.expert Ei.ei_int_string 0 "String must contain an integer"],
      by simp, by simp⟩
  | dict_next fuel orig offset b r hb hbe hret hr =>
    simp only [Call.run] at hd ⊢
    rw [dissect_bencoded_dict_loop]
    simp only [hb, if_neg hbe, hret, if_neg hr]
    exact ⟨hd, (dissect_bencoded_dict_entry fuel tvb offset).events, [], by simp, by simp⟩

theorem dissect_bt_dht_values_loop_stable (tvb : Tvb) (ti : Nat) (label : String) :
    ∀ (fuel peer_index o : Nat),
      (dissect_bt_dht_values_loop fuel tvb ti label peer_index o).ret ≠ Ret.nofuel →
      dissect_bt_dht_values_loop (fuel + 1) tvb ti label peer_index o
        = dissect_bt_dht_values_loop fuel tvb ti label peer_index o := by
  intro fuel
  induction fuel with
  | zero => intro pi o h; simp [dissect_bt_dht_values_loop] at h
  | succ f ih =>
    intro pi o h
    rw [dissect_bt_dht_values_loop] at h
    conv => lhs; rw [dissect_bt_dht_values_loop]
    conv => rhs; rw [dissect_bt_dht_values_loop]
    cases hb : tvb_get_guint8 tvb o with
    | none => rfl
    | some b =>
      simp only [hb] at h ⊢
      by_cases hbe : b = 101
      · simp only [if_pos hbe]
      · simp only [if_neg hbe] at h ⊢
        cases hl : bencoded_string_length tvb o with
        | none => rfl
        | some pr =>
          obtain ⟨len, o'⟩ := pr
          simp only [hl] at h ⊢
          by_cases h0 : len = 0
          · simp only [if_pos h0]
          · simp only [if_neg h0] at h ⊢
            by_cases h6 : len = 6
            · simp only [if_pos h6] at h ⊢
              cases hev : values_peer4 tvb o' (pi + 1) with
              | none => rfl
              | some evs =>
                simp only [hev] at h ⊢
                rw [ih _ _ h]
            · simp only [if_neg h6] at h ⊢
              by_cases h18 : len = 18
              · simp only [if_pos h18] at h ⊢
                cases hev : values_peer6 tvb o' (pi + 1) with
                | none => rfl
                | some evs =>
                  simp only [hev] at h ⊢
                  rw [ih _ _ h]
              · simp only [if_neg h18] at h ⊢
                cases hev : proto_tree_add_item tvb Hf.hf_truncated_data Enc.ENC_NA o' len with
                | none => rfl
                | some ev =>
                  simp only [hev] at h ⊢
                  rw [ih _ _ h]

theorem dissect_bt_dht_values_stable {fuel : Nat} {tvb : Tvb} {o : Nat} {label : String}
    (h : (dissect_bt_dht_values fuel tvb o label).ret ≠ Ret.nofuel) :
    dissect_bt_dht_values (fuel + 1) tvb o label = dissect_bt_dht_values fuel tvb o label := by
  unfold dissect_bt_dht_values at h ⊢
  rw [dissect_bt_dht_values_loop_stable tvb o label fuel 0 (o + 1) h]

theorem dissect_bt_dht_nodes_loop_stable (tvb : Tvb) (ti : Nat) (label : String) ( ipv6 : Bool)
    (w : Nat) :
    ∀ (fuel node_index string_len o : Nat),
      (dissect_bt_dht_nodes_loop fuel tvb ti label ipv6 w node_index string_len o).ret
        ≠ Ret.nofuel →
      dissect_bt_dht_nodes_loop (fuel + 1) tvb ti label ipv6 w node_index string_len o
        = dissect_bt_dht_nodes_loop fuel tvb ti label ipv6 w node_index string_len o := by
  intro fuel
  induction fuel with
  | zero => intro ni sl o h; simp [dissect_bt_dht_nodes_loop] at h
  | succ f ih =>
    intro ni sl o h
    rw [dissect_bt_dht_nodes_loop] at h
    conv => lhs; rw [dissect_bt_dht_nodes_loop]
    conv => rhs; rw [dissect_bt_dht_nodes_loop]
    split
    · rename_i hle
      simp only [if_pos hle] at h
      split
      · rfl
      · rename_i evs hev
        simp only [hev] at h
        rw [ih _ _ _ h]
    · rfl

theorem dissect_bt_dht_nodes_stable {fuel : Nat} {tvb : Tvb} {o : Nat} {label : String}
    { ipv6 : Bool} (h : (dissect_bt_dht_nodes fuel tvb o label ipv6).ret ≠ Ret.nofuel) :
    dissect_bt_dht_nodes (fuel + 1) tvb o label ipv6
      = dissect_bt_dht_nodes fuel tvb o label ipv6 := by
  unfold dissect_bt_dht_nodes at h ⊢
  split
  · rfl
  · rename_i len o' hl
    simp only [hl] at h
    split
    · rfl
    · rename_i ev hev
      simp only [hev] at h
      simp only [dissect_bt_dht_nodes_loop_stable tvb _ _ _ _ fuel _ _ _ h]

/-- A decoder call that does not run out of fuel returns the same outcome
(status, events and result) with one more unit of fuel. -/
theorem decoders_stable (tvb : Tvb) : ∀ fuel : Nat,
    (∀ o label, (dissect_bencoded_list fuel tvb o label).ret ≠ Ret.nofuel →
      dissect_bencoded_list (fuel + 1) tvb o label = dissect_bencoded_list fuel tvb o label) ∧
    (∀ o b, (dissect_bencoded_list_element fuel tvb o b).ret ≠ Ret.nofuel →
      dissect_bencoded_list_element (fuel + 1) tvb o b
        = dissect_bencoded_list_element fuel tvb o b) ∧
    (∀ o, (dissect_bencoded_list_loop fuel tvb o).ret ≠ Ret.nofuel →
      dissect_bencoded_list_loop (fuel + 1) tvb o = dissect_bencoded_list_loop fuel tvb o) ∧
    (∀ o key b, (dissect_bencoded_dict_entry_value fuel tvb o key b).ret ≠ Ret.nofuel →
      dissect_bencoded_dict_entry_value (fuel + 1) tvb o key b
        = dissect_bencoded_dict_entry_value fuel tvb o key b) ∧
    (∀ o, (dissect_bencoded_dict_entry fuel tvb o).ret ≠ Ret.nofuel →
      dissect_bencoded_dict_entry (fuel + 1) tvb o = dissect_bencoded_dict_entry fuel tvb o) ∧
    (∀ o label, (dissect_bencoded_dict fuel tvb o label).ret ≠ Ret.nofuel →
      dissect_bencoded_dict (fuel + 1) tvb o label = dissect_bencoded_dict fuel tvb o label) ∧
    (∀ orig o, (dissect_bencoded_dict_loop fuel tvb orig o).ret ≠ Ret.nofuel →
      dissect_bencoded_dict_loop (fuel + 1) tvb orig o
        = dissect_bencoded_dict_loop fuel tvb orig o) := by
  intro fuel
  induction fuel with
  | zero =>
    refine ⟨?_, ?_, ?_, ?_, ?_, ?_, ?_⟩ <;> intros <;> rename_i h <;>
      simp [dissect_bencoded_list, dissect_bencoded_list_element, dissect_bencoded_list_loop,
        dissect_bencoded_dict_entry_value, dissect_bencoded_dict_entry, dissect_bencoded_dict,
        dissect_bencoded_dict_loop] at h
  | succ f ih =>
    obtain ⟨ihl, ihe, ihll, ihv, ihde, ihd, ihdl⟩ := ih
    refine ⟨?_, ?_, ?_, ?_, ?_, ?_, ?_⟩
    · intro o label h
      rw [dissect_bencoded_list] at h
      conv => lhs; rw [dissect_bencoded_list]
      conv => rhs; rw [dissect_bencoded_list]
      simp only [ihll _ h]
    · intro o b h
      rw [dissect_bencoded_list_element] at h
      conv => lhs; rw [dissect_bencoded_list_element]
      conv => rhs; rw [dissect_bencoded_list_element]
      by_cases h1 : b = 105
      · simp only [if_pos h1]
      · simp only [if_neg h1] at h ⊢
        by_cases h2 : b = 108
        · simp only [if_pos h2] at h ⊢
          rw [ihl _ _ h]
        · simp only [if_neg h2] at h ⊢
          by_cases h3 : b = 100
          · simp only [if_pos h3] at h ⊢
            rw [ihd _ _ h]
          · simp only [if_neg h3]
    · intro o h
      rw [dissect_bencoded_list_loop] at h
      conv => lhs; rw [dissect_bencoded_list_loop]
      conv => rhs; rw [dissect_bencoded_list_loop]
      cases hb : tvb_get_guint8 tvb o with
      | none => rfl
      | some b =>
        simp only [hb] at h ⊢
        by_cases hbe : b = 101
        · simp only [if_pos hbe]
        · simp only [if_neg hbe] at h ⊢
          have hne : (dissect_bencoded_list_element f tvb o b).ret ≠ Ret.nofuel := by
            intro hc
            simp only [hc] at h
            exact h rfl
          rw [ihe _ _ hne]
          cases hr : (dissect_bencoded_list_element f tvb o b).ret with
          | nofuel => exact absurd hr hne
          | thrown => rfl
          | ret r =>
            simp only [hr] at h ⊢
            by_cases hle : r ≤ o
            · simp only [if_pos hle]
            · simp only [if_neg hle] at h ⊢
              rw [ihll _ h]
    · intro o key b h
      rw [dissect_bencoded_dict_entry_value] at h
      conv => lhs; rw [dissect_bencoded_dict_entry_value]
      conv => rhs; rw [dissect_bencoded_dict_entry_value]
      by_cases h1 : b = 100
      · simp only [if_pos h1] at h ⊢
        rw [ihd _ _ h]
      · simp only [if_neg h1] at h ⊢
        by_cases h2 : b = 108
        · simp only [if_pos h2] at h ⊢
          by_cases k1 : strcmp key (str "e") = 0
          · simp only [if_pos k1]
          · simp only [if_neg k1] at h ⊢
            by_cases k2 : strcmp key (str "values") = 0
            · simp only [if_pos k2] at h ⊢
              rw [dissect_bt_dht_values_stable h]
            · simp only [if_neg k2] at h ⊢
              rw [ihl _ _ h]
        · simp only [if_neg h2] at h ⊢
          by_cases h3 : b = 105
          · simp only [if_pos h3]
          · simp only [if_neg h3] at h ⊢
            by_cases k3 : strcmp key (str "nodes") = 0
            · simp only [if_pos k3] at h ⊢
              rw [dissect_bt_dht_nodes_stable h]
            · simp only [if_neg k3] at h ⊢
              by_cases k4 : strcmp key (str "nodes6") = 0
              · simp only [if_pos k4] at h ⊢
                rw [dissect_bt_dht_nodes_stable h]
              · simp only [if_neg k4]
    · intro o h
      rw [dissect_bencoded_dict_entry] at h
      conv => lhs; rw [dissect_bencoded_dict_entry]
      conv => rhs; rw [dissect_bencoded_dict_entry]
      simp only at h ⊢
      cases hk : (dissect_bencoded_string tvb o false "Key").ret with
      | nofuel => rfl
      | thrown => rfl
      | ret r =>
        simp only [hk] at h ⊢
        by_cases hr : r = 0
        · simp only [if_pos hr]
        · simp only [if_neg hr] at h ⊢
          cases hb : tvb_get_guint8 tvb r with
          | none => rfl
          | some b =>
            simp only [hb] at h ⊢
            have hne : (dissect_bencoded_dict_entry_value f tvb r
                (printf_s (dissect_bencoded_string tvb o false "Key").result) b).ret
                ≠ Ret.nofuel := by
              intro hc
              simp only [hc] at h
              exact h rfl
            rw [ihv _ _ _ hne]
    · intro o label h
      rw [dissect_bencoded_dict] at h
      conv => lhs; rw [dissect_bencoded_dict]
      conv => rhs; rw [dissect_bencoded_dict]
      simp only [ihdl _ _ h]
    · intro orig o h
      rw [dissect_bencoded_dict_loop] at h
      conv => lhs; rw [dissect_bencoded_dict_loop]
      conv => rhs; rw [dissect_bencoded_dict_loop]
      cases hb : tvb_get_guint8 tvb o with
      | none => rfl
      | some b =>
        simp only [hb] at h ⊢
        by_cases hbe : b = 101
        · simp only [if_pos hbe]
        · simp only [if_neg hbe] at h ⊢
          have hne : (dissect_bencoded_dict_entry f tvb o).ret ≠ Ret.nofuel := by
            intro hc
            simp only [hc] at h
            exact h rfl
          rw [ihde _ hne]
          cases hr : (dissect_bencoded_dict_entry f tvb o).ret with
          | nofuel => exact absurd hr hne
          | thrown => rfl
          | ret r =>
            simp only [hr] at h ⊢
            by_cases h0 : r = 0
            · simp only [if_pos h0]
            · simp only [if_neg h0] at h ⊢
              rw [ihdl _ _ h]

/-- Above the fuel of the entry point the outcome of the dictionary decoder
is the same for every amount of fuel. -/
theorem dissect_bencoded_dict_fuel_irrelevant (tvb : Tvb) (o : Nat) (label : String) :
    ∀ k : Nat, dissect_bencoded_dict (fuel_for tvb + k) tvb o label
      = dissect_bencoded_dict (fuel_for tvb) tvb o label := by
  intro k
  induction k with
  | zero => rfl
  | succ k ih =>
    have hne : (dissect_bencoded_dict (fuel_for tvb + k) tvb o label).ret ≠ Ret.nofuel :=
      (decoders_ne_nofuel tvb (fuel_for tvb + k)).2.2.2.2.2.1 o label
        (by unfold fuel_for; omega)
    have := (decoders_stable tvb (fuel_for tvb + k)).2.2.2.2.2.1 o label hne
    rw [← ih, ← this]
    rfl

/-- Above the fuel of the entry point the outcome of the list decoder is the
same for every amount of fuel. -/
theorem dissect_bencoded_list_fuel_irrelevant (tvb : Tvb) (o : Nat) (label : String) :
    ∀ k : Nat, dissect_bencoded_list (fuel_for tvb + k) tvb o label
      = dissect_bencoded_list (fuel_for tvb) tvb o label := by
  intro k
  induction k with
  | zero => rfl
  | succ k ih =>
    have hne : (dissect_bencoded_list (fuel_for tvb + k) tvb o label).ret ≠ Ret.nofuel :=
      (decoders_ne_nofuel tvb (fuel_for tvb + k)).1 o label (by unfold fuel_for; omega)
    have := (decoders_stable tvb (fuel_for tvb + k)).1 o label hne
    rw [← ih, ← this]
    rfl

/-! ## Decoding a generic value that is cut off by the end of the buffer -/

theorem cut_in_getElem? {tvb : Tvb} {o : Nat} {s : List Nat} (h : cut_in tvb o s)
    (i : Nat) (hi : o + i < tvb.length) : tvb[o + i]? = s[i]? := by
  obtain ⟨_, ⟨t, ht⟩, _⟩ := h
  rw [← getElem?_drop_tvb, ← ht, List.getElem?_append_left (by simp; omega)]

theorem cut_in_append {tvb : Tvb} {o : Nat} {a b : List Nat} (h : cut_in tvb o (a ++ b)) :
    cut_in tvb o a ∨ (holds_at tvb o a ∧ cut_in tvb (o + a.length) b) := by
  obtain ⟨ho, hp, hl⟩ := h
  have hlen : (tvb.drop o).length = tvb.length - o := by simp
  by_cases hc : tvb.length - o < a.length
  · left
    refine ⟨ho, ?_, hc⟩
    exact List.prefix_of_prefix_length_le hp (List.prefix_append a b) (by omega)
  · right
    have ha : a <+: tvb.drop o :=
      List.prefix_of_prefix_length_le (List.prefix_append a b) hp (by omega)
    refine ⟨ha, by omega, ?_, ?_⟩
    · obtain ⟨r, hr⟩ := ha
      have hd : tvb.drop (o + a.length) = r := by
        have : tvb.drop (o + a.length) = (tvb.drop o).drop a.length := by
          rw [List.drop_drop]
        rw [this, ← hr]
        simp
      rw [hd]
      rw [← hr] at hp
      exact (List.prefix_append_right_inj a).mp hp
    · simp only [List.length_append] at hl
      omega

/-- An integer whose closing `e` lies beyond the end of the buffer. -/
theorem dissect_bencoded_int_cut {tvb : Tvb} {o : Nat} {text : List Nat} (label : String)
    (ht : ∀ b ∈ text, b ≠ 101) (h : cut_in tvb (o + 1) (text ++ [101])) :
    (dissect_bencoded_int tvb o label).ret = Ret.thrown := by
  have hlen := h.2.2
  simp only [List.length_append, List.length_singleton] at hlen
  have hno : ∀ i : Nat, o + 1 ≤ i → tvb[i]? ≠ some 101 := by
    intro i hi
    by_cases hiL : i < tvb.length
    · have e : i = o + 1 + (i - (o + 1)) := by omega
      rw [e, cut_in_getElem? h (i - (o + 1)) (by omega),
        List.getElem?_append_left (by omega)]
      intro hc
      exact ht 101 (List.getElem?_mem hc) rfl
    · rw [List.getElem?_eq_none (by omega)]
      simp
  rw [dissect_bencoded_int_not_found label (scan_until_drop_eq_none hno)]

/-- A byte-string whose encoding is cut off by the end of the buffer. -/
theorem dissect_bencoded_string_cut {tvb : Tvb} {o : Nat} {bytes : List Nat} (tohex : Bool)
    (label : String) (hb : bytes ≠ []) (hN : bytes.length < 2 ^ 32)
    (h : cut_in tvb o (encode_string bytes)) :
    (dissect_bencoded_string tvb o tohex label).ret = Ret.thrown := by
  have he : encode_string bytes = (decimal bytes.length ++ [58]) ++ bytes := by
    simp [encode_string]
  rw [he] at h
  rcases cut_in_append h with hc | ⟨hh, hc⟩
  · have hlen := hc.2.2
    simp only [List.length_append, List.length_singleton] at hlen
    have hno : ∀ i : Nat, o ≤ i → tvb[i]? ≠ some 58 := by
      intro i hi
      by_cases hiL : i < tvb.length
      · have e : i = o + (i - o) := by omega
        rw [e, cut_in_getElem? hc (i - o) (by omega), List.getElem?_append_left (by omega)]
        intro hcc
        have := decimal_digit bytes.length 58 (List.getElem?_mem hcc)
        omega
      · rw [List.getElem?_eq_none (by omega)]
        simp
    rw [dissect_bencoded_string_no_colon tohex label (scan_until_drop_eq_none hno)]
  · have hlen := hc.2.2
    have hle := hc.1
    simp only [List.length_append, List.length_singleton] at hlen hle
    have hn0 : bytes.length ≠ 0 := by
      intro hcc; exact hb (List.length_eq_zero.mp hcc)
    have hcolon : tvb[o + (decimal bytes.length).length]? = some 58 := by
      rw [holds_at_getElem? hh (decimal bytes.length).length (by simp)]
      simp
    have hdig : ∀ i : Nat, o ≤ i → i < o + (decimal bytes.length).length →
        tvb[i]? ≠ some 58 := by
      intro i hi hlt
      have e : i = o + (i - o) := by omega
      rw [e, holds_at_getElem? hh (i - o) (by simp; omega),
        List.getElem?_append_left (by omega)]
      intro hcc
      have := decimal_digit bytes.length 58 (List.getElem?_mem hcc)
      omega
    have hs : scan_until 58 (tvb.drop o) o = some (o + (decimal bytes.length).length) :=
      scan_until_drop_eq_some (by omega) hcolon hdig
    have hpre : (tvb.drop o).take (o + (decimal bytes.length).length - o)
        = decimal bytes.length := by
      have : o + (decimal bytes.length).length - o = (decimal bytes.length).length := by omega
      rw [this]
      exact holds_at_take (holds_at_append.mp hh).1
    have hw : ws_strtou32 ((tvb.drop o).take (o + (decimal bytes.length).length - o))
        = some bytes.length := by
      rw [hpre]; exact ws_strtou32_decimal bytes.length (by omega)
    rw [dissect_bencoded_string_short tohex label hs hw hn0 (by omega)]

theorem list_of_loop_thrown {fuel : Nat} {tvb : Tvb} {o : Nat} (label : String)
    (h : (dissect_bencoded_list_loop fuel tvb (o + 1)).ret = Ret.thrown) :
    (dissect_bencoded_list (fuel + 1) tvb o label).ret = Ret.thrown := by
  rw [dissect_bencoded_list]; exact h

theorem dict_of_loop_thrown {fuel : Nat} {tvb : Tvb} {o : Nat} (label : String)
    (h : (dissect_bencoded_dict_loop fuel tvb o (o + 1)).ret = Ret.thrown) :
    (dissect_bencoded_dict (fuel + 1) tvb o label).ret = Ret.thrown := by
  rw [dissect_bencoded_dict]; exact h

theorem cut_in_tail {tvb : Tvb} {o c : Nat} {s : List Nat} (h : cut_in tvb o (c :: s))
    (ho : o < tvb.length) : tvb[o]? = some c ∧ cut_in tvb (o + 1) s := by
  have h2 : cut_in tvb o ([c] ++ s) := h
  rcases cut_in_append h2 with hc | ⟨hh, hc⟩
  · have := hc.2.2
    simp at this
    omega
  · exact ⟨holds_at_head hh, hc⟩

mutual

theorem decode_value_cut (tvb : Tvb) (hL : tvb.length < 2 ^ 32) :
    ∀ (v : BValue) (o : Nat), v.generic = true → v.encode.length < 2 ^ 32 →
      cut_in tvb o v.encode →
      (∀ fuel b, 3 * (tvb.length - o) + 1 ≤ fuel → tvb_get_guint8 tvb o = some b →
        b ≠ 101 ∧ (dissect_bencoded_list_element fuel tvb o b).ret = Ret.thrown) ∧
      (∀ fuel key b, 3 * (tvb.length - o) + 1 ≤ fuel → special_key key = false →
        tvb_get_guint8 tvb o = some b →
        (dissect_bencoded_dict_entry_value fuel tvb o key b).ret = Ret.thrown)
  | BValue.int text, o, hg, _, hh => by
    simp only [BValue.generic, List.all_eq_true] at hg
    simp only [BValue.encode, List.cons_append] at hh
    have ht : ∀ b ∈ text, b ≠ 101 := by
      intro b hb
      have := is_digit_bounds (hg b hb)
      omega
    refine ⟨?_, ?_⟩
    · intro fuel b hf hb
      obtain ⟨hhead, hh1⟩ := cut_in_tail hh (tvb_get_guint8_some hb)
      simp only [tvb_get_guint8, hhead, Option.some.injEq] at hb
      subst hb
      cases fuel with
      | zero => omega
      | succ f =>
        rw [dissect_bencoded_list_element]
        simp only [if_true]
        exact ⟨by decide, dissect_bencoded_int_cut _ ht hh1⟩
    · intro fuel key b hf hk hb
      obtain ⟨hhead, hh1⟩ := cut_in_tail hh (tvb_get_guint8_some hb)
      simp only [tvb_get_guint8, hhead, Option.some.injEq] at hb
      subst hb
      cases fuel with
      | zero => omega
      | succ f =>
        rw [dissect_bencoded_dict_entry_value]
        rw [if_neg (by decide), if_neg (by decide), if_pos rfl]
        exact dissect_bencoded_int_cut _ ht hh1
  | BValue.string bytes, o, hg, hN, hh => by
    simp only [BValue.generic, decide_eq_true_eq] at hg
    simp only [BValue.encode] at hh hN
    obtain ⟨c, rest, hc, hc1, hc2⟩ := encode_string_head bytes
    have hN2 : bytes.length < 2 ^ 32 := by
      simp only [encode_string, List.length_append, List.length_cons] at hN
      omega
    have hstr := fun tohex label =>
      @dissect_bencoded_string_cut tvb o bytes tohex label hg hN2 hh
    refine ⟨?_, ?_⟩
    · intro fuel b hf hb
      have hhead : tvb[o]? = some c := by
        have h2 := hh
        rw [hc] at h2
        exact (cut_in_tail h2 (tvb_get_guint8_some hb)).1
      simp only [tvb_get_guint8, hhead, Option.some.injEq] at hb
      subst hb
      cases fuel with
      | zero => omega
      | succ f =>
        rw [dissect_bencoded_list_element]
        rw [if_neg (by omega), if_neg (by omega), if_neg (by omega)]
        exact ⟨by omega, hstr _ _⟩
    · intro fuel key b hf hk hb
      have hhead : tvb[o]? = some c := by
        have h2 := hh
        rw [hc] at h2
        exact (cut_in_tail h2 (tvb_get_guint8_some hb)).1
      simp only [tvb_get_guint8, hhead, Option.some.injEq] at hb
      subst hb
      obtain ⟨k1, k2, k3, k4, k5⟩ := special_key_false hk
      cases fuel with
      | zero => omega
      | succ f =>
        rw [dissect_bencoded_dict_entry_value]
        rw [if_neg (by omega), if_neg (by omega), if_neg (by omega), if_neg k3, if_neg k4,
          if_neg k5]
        exact hstr _ _
  | BValue.list items, o, hg, hN, hh => by
    simp only [BValue.generic] at hg
    simp only [BValue.encode, List.cons_append] at hh hN
    have hN1 : items.encode.length < 2 ^ 32 := by
      simp only [List.length_cons, List.length_append] at hN
      omega
    refine ⟨?_, ?_⟩
    · intro fuel b hf hb
      have hoL := tvb_get_guint8_some hb
      obtain ⟨hhead, hh1⟩ := cut_in_tail hh hoL
      have hloop := decode_items_cut tvb hL items (o + 1) hg hN1 hh1
      simp only [tvb_get_guint8, hhead, Option.some.injEq] at hb
      subst hb
      cases fuel with
      | zero => omega
      | succ f =>
        cases f with
        | zero => omega
        | succ f2 =>
          rw [dissect_bencoded_list_element]
          rw [if_neg (by decide), if_pos rfl]
          exact ⟨by decide, list_of_loop_thrown _ (hloop f2 (by omega))⟩
    · intro fuel key b hf hk hb
      have hoL := tvb_get_guint8_some hb
      obtain ⟨hhead, hh1⟩ := cut_in_tail hh hoL
      have hloop := decode_items_cut tvb hL items (o + 1) hg hN1 hh1
      simp only [tvb_get_guint8, hhead, Option.some.injEq] at hb
      subst hb
      obtain ⟨k1, k2, k3, k4, k5⟩ := special_key_false hk
      cases fuel with
      | zero => omega
      | succ f =>
        cases f with
        | zero => omega
        | succ f2 =>
          rw [dissect_bencoded_dict_entry_value]
          rw [if_neg (by decide), if_pos rfl, if_neg k1, if_neg k2]
          exact list_of_loop_thrown "Value" (hloop f2 (by omega))
  | BValue.dict entries, o, hg, hN, hh => by
    simp only [BValue.generic] at hg
    simp only [BValue.encode, List.cons_append] at hh hN
    have hN1 : entries.encode.length < 2 ^ 32 := by
      simp only [List.length_cons, List.length_append] at hN
      omega
    refine ⟨?_, ?_⟩
    · intro fuel b hf hb
      have hoL := tvb_get_guint8_some hb
      obtain ⟨hhead, hh1⟩ := cut_in_tail hh hoL
      have hloop := decode_entries_cut tvb hL entries o (o + 1) hg hN1 hh1
      simp only [tvb_get_guint8, hhead, Option.some.injEq] at hb
      subst hb
      cases fuel with
      | zero => omega
      | succ f =>
        cases f with
        | zero => omega
        | succ f2 =>
          rw [dissect_bencoded_list_element]
          rw [if_neg (by decide), if_neg (by decide), if_pos rfl]
          exact ⟨by decide, dict_of_loop_thrown _ (hloop f2 (by omega))⟩
    · intro fuel key b hf hk hb
      have hoL := tvb_get_guint8_some hb
      obtain ⟨hhead, hh1⟩ := cut_in_tail hh hoL
      have hloop := decode_entries_cut tvb hL entries o (o + 1) hg hN1 hh1
      simp only [tvb_get_guint8, hhead, Option.some.injEq] at hb
      subst hb
      cases fuel with
      | zero => omega
      | succ f =>
        cases f with
        | zero => omega
        | succ f2 =>
          rw [dissect_bencoded_dict_entry_value]
          rw [if_pos rfl]
          exact dict_of_loop_thrown "Value" (hloop f2 (by omega))

theorem decode_items_cut (tvb : Tvb) (hL : tvb.length < 2 ^ 32) :
    ∀ (xs : BList) (o : Nat), xs.generic = true → xs.encode.length < 2 ^ 32 →
      cut_in tvb o (xs.encode ++ [101]) →
      ∀ fuel, 3 * (tvb.length - o) + 2 ≤ fuel →
        (dissect_bencoded_list_loop fuel tvb o).ret = Ret.thrown
  | BList.nil, o, _, _, hh => by
    intro fuel hf
    simp only [BList.encode, List.nil_append] at hh
    have hlen := hh.2.2
    simp only [List.length_singleton] at hlen
    cases fuel with
    | zero => omega
    | succ f =>
      rw [dissect_bencoded_list_loop]
      simp [tvb_get_guint8, List.getElem?_eq_none (show tvb.length ≤ o by omega)]
  | BList.cons v rest, o, hg, hN, hh => by
    intro fuel hf
    simp only [BList.generic, Bool.and_eq_true] at hg
    simp only [BList.encode, List.append_assoc] at hh
    simp only [BList.encode, List.length_append] at hN
    cases fuel with
    | zero => omega
    | succ f =>
      cases hb : tvb_get_guint8 tvb o with
      | none =>
        rw [dissect_bencoded_list_loop]
        simp only [hb]
      | some b =>
        have hoL := tvb_get_guint8_some hb
        rcases cut_in_append hh with hc | ⟨hv, hc⟩
        · obtain ⟨hbe, helem⟩ := (decode_value_cut tvb hL v o hg.1 (by omega) hc).1 f b (by omega) hb
          rw [dissect_bencoded_list_loop]
          simp only [hb, if_neg hbe, helem]
        · have hne : v.encode ≠ [] := by
            cases v <;> simp [BValue.encode, encode_string]
          have hpos : 0 < v.encode.length := List.length_pos.mpr hne
          obtain ⟨hbe, helem⟩ := (decode_value_ok tvb hL v o hg.1 hv).1 f b (by omega) hb
          have hnext := decode_items_cut tvb hL rest (o + v.encode.length) hg.2 (by omega) hc f (by omega)
          rw [dissect_bencoded_list_loop]
          simp only [hb, if_neg hbe, helem]
          rw [if_neg (by omega)]
          simp only [hnext]

theorem decode_entries_cut (tvb : Tvb) (hL : tvb.length < 2 ^ 32) :
    ∀ (kvs : BDict) (orig o : Nat), kvs.generic = true → kvs.encode.length < 2 ^ 32 →
      cut_in tvb o (kvs.encode ++ [101]) →
      ∀ fuel, 3 * (tvb.length - o) + 2 ≤ fuel →
        (dissect_bencoded_dict_loop fuel tvb orig o).ret = Ret.thrown
  | BDict.nil, orig, o, _, _, hh => by
    intro fuel hf
    simp only [BDict.encode, List.nil_append] at hh
    have hlen := hh.2.2
    simp only [List.length_singleton] at hlen
    cases fuel with
    | zero => omega
    | succ f =>
      rw [dissect_bencoded_dict_loop]
      simp [tvb_get_guint8, List.getElem?_eq_none (show tvb.length ≤ o by omega)]
  | BDict.cons key v rest, orig, o, hg, hN, hh => by
    intro fuel hf
    simp only [BDict.generic, Bool.and_eq_true, decide_eq_true_eq, Bool.not_eq_true'] at hg
    obtain ⟨⟨⟨hkne, hksp⟩, hgv⟩, hgrest⟩ := hg
    simp only [BDict.encode, List.append_assoc] at hh
    simp only [BDict.encode, List.length_append] at hN
    have hkN : key.length < 2 ^ 32 := by
      simp only [encode_string, List.length_append, List.length_cons] at hN
      omega
    obtain ⟨c, crest, hc, hc1, hc2⟩ := encode_string_head key
    cases fuel with
    | zero => omega
    | succ f =>
      cases hb : tvb_get_guint8 tvb o with
      | none =>
        rw [dissect_bencoded_dict_loop]
        simp only [hb]
      | some b =>
        have hoL := tvb_get_guint8_some hb
        have hbe : b ≠ 101 := by
          have h2 := hh
          rw [hc, List.cons_append] at h2
          have := (cut_in_tail h2 hoL).1
          simp only [tvb_get_guint8, this, Option.some.injEq] at hb
          omega
        cases f with
        | zero => omega
        | succ f2 =>
          have hentry : (dissect_bencoded_dict_entry (f2 + 1) tvb o).ret = Ret.thrown ∨
              ∃ r, o + 3 ≤ r ∧ (dissect_bencoded_dict_entry (f2 + 1) tvb o).ret = Ret.ret r ∧
                cut_in tvb r (rest.encode ++ [101]) := by
            rcases cut_in_append hh with hck | ⟨hk, hcv⟩
            · left
              rw [dissect_bencoded_dict_entry]
              simp only [@dissect_bencoded_string_cut tvb o key false "Key" hkne hkN hck]
            · have hkL := holds_at_le hk (by rw [hc]; simp)
              have hkpos : 3 ≤ (encode_string key).length := by
                have := decimal_length_pos key.length
                have : 0 < key.length := List.length_pos.mpr hkne
                simp [encode_string]; omega
              obtain ⟨hkret, hkres⟩ :=
                @dissect_bencoded_string_encode tvb o key false "Key" hkne hL hk
              cases hvb : tvb_get_guint8 tvb (o + (encode_string key).length) with
              | none =>
                left
                rw [dissect_bencoded_dict_entry]
                simp only [hkret]
                rw [if_neg (by omega)]
                simp only [hvb]
              | some vb =>
                have hvL := tvb_get_guint8_some hvb
                rcases cut_in_append hcv with hcv1 | ⟨hv, hcr⟩
                · left
                  have hval := (decode_value_cut tvb hL v (o + (encode_string key).length)
                    hgv (by omega) hcv1).2 f2 key vb (by omega) hksp hvb
                  rw [dissect_bencoded_dict_entry]
                  simp only [hkret]
                  rw [if_neg (by omega)]
                  simp only [hvb, hkres, printf_s, Option.getD_some, Bool.false_eq_true,
                    if_false, hval]
                · right
                  have hval := (decode_value_ok tvb hL v (o + (encode_string key).length)
                    hgv hv).2 f2 key vb (by omega) hksp hvb
                  refine ⟨o + (encode_string key).length + v.encode.length, by omega, ?_, hcr⟩
                  rw [dissect_bencoded_dict_entry]
                  simp only [hkret]
                  rw [if_neg (by omega)]
                  simp only [hvb, hkres, printf_s, Option.getD_some, Bool.false_eq_true,
                    if_false, hval]
                  rw [if_neg (by omega)]
          rcases hentry with hthrown | ⟨r, hr3, hret, hcr⟩
          · rw [dissect_bencoded_dict_loop]
            simp only [hb, if_neg hbe, hthrown]
          · have hnext := decode_entries_cut tvb hL rest orig r hgrest (by omega) hcr (f2 + 1) (by omega)
            rw [dissect_bencoded_dict_loop]
            simp only [hb, if_neg hbe, hret]
            rw [if_neg (by omega)]
            simp only [hnext]

end

/-- Every proper prefix of the encoding of a generic dictionary (no key `e`,
`values`, `nodes`, `nodes6` or `ip` at any depth), decoded from offset 0, ends
with a bounds exception: a message of this kind that was cut off is never
reported as a success. -/
theorem generic_message_cut (entries : BDict) (m fuel : Nat) (label : String)
    (hg : entries.generic = true) (hlen : (BValue.dict entries).encode.length < 2 ^ 31)
    (hm : m < (BValue.dict entries).encode.length)
    (hf : fuel_for ((BValue.dict entries).encode.take m) ≤ fuel) :
    (dissect_bencoded_dict fuel ((BValue.dict entries).encode.take m) 0 label).ret
      = Ret.thrown := by
  have hcut : cut_in ((BValue.dict entries).encode.take m) 0 (BValue.dict entries).encode := by
    refine ⟨Nat.zero_le _, ?_, ?_⟩
    · simpa using List.take_prefix m _
    · simp only [List.length_take]
      omega
  have hL : ((BValue.dict entries).encode.take m).length < 2 ^ 32 := by
    simp only [List.length_take]
    omega
  have hN1 : entries.encode.length < 2 ^ 32 := by
    simp only [BValue.encode, List.length_cons, List.length_append] at hlen
    omega
  generalize (BValue.dict entries).encode.take m = tvb at hcut hL hf
  unfold fuel_for at hf
  simp only [BValue.encode, List.cons_append] at hcut
  cases fuel with
  | zero => omega
  | succ f =>
    apply dict_of_loop_thrown
    by_cases h0 : 0 < tvb.length
    · obtain ⟨_, hc1⟩ := cut_in_tail hcut h0
      exact decode_entries_cut tvb hL entries 0 (0 + 1) hg hN1 hc1 f (by omega)
    · cases f with
      | zero => omega
      | succ f2 =>
        rw [dissect_bencoded_dict_loop]
        simp [tvb_get_guint8, List.getElem?_eq_none (show tvb.length ≤ 0 + 1 by omega)]

/-! ## The dictionary loop ends at a terminator -/

/-- A non-zero offset returned by the dictionary loop is the offset after a byte
`e` at which the loop stopped and for which it added the terminator item. -/
theorem dissect_bencoded_dict_loop_terminator (tvb : Tvb) (orig : Nat) :
    ∀ (fuel o r : Nat), (dissect_bencoded_dict_loop fuel tvb orig o).ret = Ret.ret r → r ≠ 0 →
      1 ≤ r ∧ tvb[r - 1]? = some 101 ∧
      Event.add_item Hf.hf_bencoded_list_terminator Enc.ENC_ASCII_NA (r - 1) (some 1)
        ∈ (dissect_bencoded_dict_loop fuel tvb orig o).events := by
  intro fuel
  induction fuel with
  | zero => intro o r h; simp [dissect_bencoded_dict_loop] at h
  | succ fuel ih =>
    intro o r h hr
    rw [dissect_bencoded_dict_loop] at h ⊢
    cases hb : tvb_get_guint8 tvb o with
    | none => simp [hb] at h
    | some b =>
      simp only [hb] at h ⊢
      by_cases hbe : b = 101
      · simp only [hbe, if_true, Ret.ret.injEq] at h ⊢
        subst h
        refine ⟨by omega, ?_, ?_⟩
        · simpa [tvb_get_guint8, hbe] using hb
        · simp
      · simp only [hbe, if_false] at h ⊢
        cases hr1 : (dissect_bencoded_dict_entry fuel tvb o).ret with
        | nofuel => simp [hr1] at h
        | thrown => simp [hr1] at h
        | ret q =>
          simp only [hr1] at h ⊢
          by_cases hq : q = 0
          · simp only [hq, if_true, Ret.ret.injEq] at h
            exact absurd h.symm hr
          · simp only [hq, if_false] at h ⊢
            obtain ⟨h1, h2, h3⟩ := ih q r h hr
            exact ⟨h1, h2, List.mem_append_right _ h3⟩

/-- A non-zero offset returned by the dictionary decoder is the offset after a
byte `e` for which the terminator item was added. -/
theorem dissect_bencoded_dict_terminator (tvb : Tvb) (fuel o r : Nat) (label : String)
    (h : (dissect_bencoded_dict fuel tvb o label).ret = Ret.ret r) (hr : r ≠ 0) :
    1 ≤ r ∧ tvb[r - 1]? = some 101 ∧
    Event.add_item Hf.hf_bencoded_list_terminator Enc.ENC_ASCII_NA (r - 1) (some 1)
      ∈ (dissect_bencoded_dict fuel tvb o label).events := by
  cases fuel with
  | zero => simp [dissect_bencoded_dict] at h
  | succ fuel =>
    rw [dissect_bencoded_dict] at h ⊢
    simp only at h ⊢
    obtain ⟨h1, h2, h3⟩ := dissect_bencoded_dict_loop_terminator tvb o fuel (o + 1) r h hr
    exact ⟨h1, h2, List.mem_cons_of_mem _ h3⟩

/-! ## Decoding a `nodes` string -/

/-- A length prefix in decimal digits followed by `:`. -/
theorem bencoded_string_length_decimal {tvb : Tvb} {o n : Nat} (hn : n < 2 ^ 32)
    (hh : holds_at tvb o (decimal n ++ [58])) :
    bencoded_string_length tvb o = some (n, o + (decimal n).length + 1) := by
  have hcolon : tvb[o + (decimal n).length]? = some 58 := by
    rw [holds_at_getElem? hh (decimal n).length (by simp)]
    simp
  have hdig : ∀ i : Nat, o ≤ i → i < o + (decimal n).length → tvb[i]? ≠ some 58 := by
    intro i hi hlt
    have e : i = o + (i - o) := by omega
    rw [e, holds_at_getElem? hh (i - o) (by simp; omega),
      List.getElem?_append_left (by omega)]
    intro hc
    have hmem : 58 ∈ decimal n := List.getElem?_mem hc
    have := decimal_digit n 58 hmem
    omega
  have hs : scan_until 58 (tvb.drop o) o = some (o + (decimal n).length) :=
    scan_until_drop_eq_some (by omega) hcolon hdig
  have hpre : (tvb.drop o).take (o + (decimal n).length - o) = decimal n := by
    have : o + (decimal n).length - o = (decimal n).length := by omega
    rw [this]
    exact holds_at_take (holds_at_append.mp hh).1
  rw [bencoded_string_length_eq, hs]
  simp only [hpre, ws_strtou32_decimal n hn]

/-- Two bytes inside the buffer read big-endian. -/
theorem tvb_get_ntohs_be16 {tvb : Tvb} {o : Nat} (h : o + 2 ≤ tvb.length) :
    tvb_get_ntohs tvb o = some (be16 tvb o) := by
  have h0 := getElem?_drop_tvb tvb o 0
  have h1 := getElem?_drop_tvb tvb o 1
  have hl : (tvb.drop o).length = tvb.length - o := by simp
  unfold tvb_get_ntohs tvb_bytes be16 byte_at
  rw [if_pos h]
  match hd : tvb.drop o with
  | [] => rw [hd] at hl; simp at hl; omega
  | [a] => rw [hd] at hl; simp at hl; omega
  | a :: b :: rest =>
    rw [hd] at h0 h1
    simp at h0 h1
    simp [← h0, ← h1]

/-- One node record whose bytes lie inside the buffer. -/
theorem nodes_node_ok {tvb : Tvb} {o : Nat} (idx : Nat) (ipv6 : Bool)
    (h : o + (if ipv6 then 38 else 26) ≤ tvb.length) :
    nodes_node tvb o idx (if ipv6 then 38 else 26) ipv6 = some (node_record tvb o idx ipv6) := by
  cases ipv6
  · simp only [Bool.false_eq_true, if_false] at h
    have h1 : o + 26 ≤ tvb.length := h
    have h2 : o + 20 ≤ tvb.length := by omega
    have h3 : o + 20 + 4 ≤ tvb.length := by omega
    have h4 : o + 24 + 2 ≤ tvb.length := by omega
    simp [nodes_node, node_record, proto_tree_add_item, tvb_bytes_to_str, tvb_bytes,
      tvb_get_ntohs_be16 h4, h1, h2, h3, h4]
  · simp only [if_true] at h
    have h1 : o + 38 ≤ tvb.length := h
    have h2 : o + 20 ≤ tvb.length := by omega
    have h3 : o + 20 + 16 ≤ tvb.length := by omega
    have h4 : o + 36 + 2 ≤ tvb.length := by omega
    simp [nodes_node, node_record, proto_tree_add_item, tvb_bytes_to_str, tvb_bytes,
      tvb_get_ntohs_be16 h4, h1, h2, h3, h4]

/-- The loop over the node records of a string of `len` bytes inside the
buffer: one record per `w` bytes, then a truncated-data item for what is left. -/
theorem dissect_bt_dht_nodes_loop_encode (tvb : Tvb) (ti : Nat) (label : String) (ipv6 : Bool) :
    ∀ (fuel idx len o : Nat), o + len ≤ tvb.length →
      len / (if ipv6 then 38 else 26) + 1 ≤ fuel →
      dissect_bt_dht_nodes_loop fuel tvb ti label ipv6 (if ipv6 then 38 else 26) idx len o =
        ⟨Ret.ret (o + len),
         (List.range (len / (if ipv6 then 38 else 26))).flatMap
             (fun i => node_record tvb (o + i * (if ipv6 then 38 else 26)) (idx + i + 1) ipv6) ++
           (if 0 < len % (if ipv6 then 38 else 26) then
              [Event.add_item Hf.hf_truncated_data Enc.ENC_NA
                 (o + len / (if ipv6 then 38 else 26) * (if ipv6 then 38 else 26))
                 (some (len % (if ipv6 then 38 else 26)))]
            else []) ++
           [Event.set_text Hf.hf_bt_dht_nodes ti
              [Piece.lit label, Piece.lit ": ",
               Piece.num (idx + len / (if ipv6 then 38 else 26)), Piece.lit " nodes"],
            Event.col_append
              [Piece.lit " reply=", Piece.num (idx + len / (if ipv6 then 38 else 26)),
               Piece.lit " nodes"]],
         some (decimal (idx + len / (if ipv6 then 38 else 26)))⟩ := by
  generalize hw : (if ipv6 then 38 else 26) = w
  have hw0 : 0 < w := by
    rw [← hw]; cases ipv6 <;> simp
  intro fuel
  induction fuel with
  | zero => intro idx len o _ hf; exact absurd hf (Nat.not_succ_le_zero _)
  | succ fuel ih =>
    intro idx len o hlen hf
    rw [dissect_bt_dht_nodes_loop]
    by_cases hle : w ≤ len
    · have hdiv : len / w = (len - w) / w + 1 := by
        rw [Nat.div_eq len w, if_pos ⟨hw0, hle⟩]
      have hmod : len % w = (len - w) % w := Nat.mod_eq_sub_mod hle
      have hnode := @nodes_node_ok tvb o (idx + 1) ipv6 (by rw [hw]; omega)
      rw [hw] at hnode
      rw [if_pos hle, hnode]
      simp only
      rw [ih (idx + 1) (len - w) (o + w) (by omega) (by omega), hdiv, hmod,
        List.range_succ_eq_map, List.flatMap_cons, List.flatMap_map]
      have hfun : (fun i => node_record tvb (o + w + i * w) (idx + 1 + i + 1) ipv6)
          = (fun i => node_record tvb (o + (i + 1) * w) (idx + (i + 1) + 1) ipv6) := by
        funext i
        have e1 : o + w + i * w = o + (i + 1) * w := by rw [Nat.add_mul, Nat.one_mul]; omega
        have e2 : idx + 1 + i + 1 = idx + (i + 1) + 1 := by omega
        rw [e1, e2]
      have e3 : o + w + (len - w) / w * w = o + ((len - w) / w + 1) * w := by
        rw [Nat.add_mul, Nat.one_mul]; omega
      have e4 : idx + 1 + (len - w) / w = idx + ((len - w) / w + 1) := by omega
      have e5 : o + w + (len - w) = o + len := by omega
      rw [hfun, e3, e4, e5]
      simp [List.append_assoc, Function.comp_def]
    · have hdiv : len / w = 0 := Nat.div_eq_of_lt (by omega)
      have hmod : len % w = len := Nat.mod_eq_of_lt (by omega)
      rw [if_neg hle, hdiv, hmod]
      by_cases h0 : 0 < len
      · simp [h0, proto_tree_add_item, hlen]
      · have : len = 0 := by omega
        subst this
        simp

/-- The `nodes` decoder on a string of `L` declared bytes that are all inside
the buffer. -/
theorem dissect_bt_dht_nodes_encode {tvb : Tvb} {o L : Nat} (fuel : Nat) (label : String)
    (ipv6 : Bool) (hL : tvb.length < 2 ^ 32) (hh : holds_at tvb o (decimal L ++ [58]))
    (hlen : o + (decimal L).length + 1 + L ≤ tvb.length)
    (hf : L / (if ipv6 then 38 else 26) + 1 ≤ fuel) :
    dissect_bt_dht_nodes fuel tvb o label ipv6 =
      ⟨Ret.ret (o + (decimal L).length + 1 + L),
       Event.add_item Hf.hf_bt_dht_nodes Enc.ENC_NA (o + (decimal L).length + 1) (some L) ::
         ((List.range (L / (if ipv6 then 38 else 26))).flatMap
             (fun i => node_record tvb
               (o + (decimal L).length + 1 + i * (if ipv6 then 38 else 26)) (i + 1) ipv6) ++
           (if 0 < L % (if ipv6 then 38 else 26) then
              [Event.add_item Hf.hf_truncated_data Enc.ENC_NA
                 (o + (decimal L).length + 1 +
                   L / (if ipv6 then 38 else 26) * (if ipv6 then 38 else 26))
                 (some (L % (if ipv6 then 38 else 26)))]
            else []) ++
           [Event.set_text Hf.hf_bt_dht_nodes (o + (decimal L).length + 1)
              [Piece.lit label, Piece.lit ": ",
               Piece.num (L / (if ipv6 then 38 else 26)), Piece.lit " nodes"],
            Event.col_append
              [Piece.lit " reply=", Piece.num (L / (if ipv6 then 38 else 26)),
               Piece.lit " nodes"]]),
       some (decimal (L / (if ipv6 then 38 else 26)))⟩ := by
  unfold dissect_bt_dht_nodes
  rw [bencoded_string_length_decimal (by omega) hh]
  simp only [proto_tree_add_item, if_pos hlen]
  rw [dissect_bt_dht_nodes_loop_encode tvb _ label ipv6 fuel 0 L _ hlen hf]
  simp

/-- Filtering a concatenation of blocks that each hold exactly one match. -/
theorem filter_flatMap_one {α β : Type} (p : β → Bool) (f : α → List β) (g : α → β)
    (h : ∀ a, (f a).filter p = [g a]) : ∀ l : List α, (l.flatMap f).filter p = l.map g := by
  intro l
  induction l with
  | nil => rfl
  | cons a l ih => simp [List.flatMap_cons, List.filter_append, h, ih]

/-- Filtering a concatenation of blocks that hold no match. -/
theorem filter_flatMap_none {α β : Type} (p : β → Bool) (f : α → List β)
    (h : ∀ a, (f a).filter p = []) : ∀ l : List α, (l.flatMap f).filter p = [] := by
  intro l
  induction l with
  | nil => rfl
  | cons a l ih => simp [List.flatMap_cons, List.filter_append, h, ih]

theorem node_record_node_items (tvb : Tvb) (start index : Nat) (ipv6 : Bool) :
    (node_record tvb start index ipv6).filter is_node_item
      = [Event.add_item Hf.hf_bt_dht_node Enc.ENC_NA start (some (if ipv6 then 38 else 26))] := by
  cases ipv6 <;> simp [node_record, is_node_item, List.filter]

theorem node_record_truncated_items (tvb : Tvb) (start index : Nat) (ipv6 : Bool) :
    (node_record tvb start index ipv6).filter is_truncated_item = [] := by
  cases ipv6 <;> simp [node_record, is_truncated_item, List.filter]

/-! ## Decoding a `values` list -/

/-- One 6-byte element whose bytes lie inside the buffer. -/
theorem values_peer4_ok {tvb : Tvb} {o : Nat} (idx : Nat) (h : o + 6 ≤ tvb.length) :
    values_peer4 tvb o idx = some (peer_record tvb o idx 6) := by
  have h1 : o + 4 ≤ tvb.length := by omega
  have h2 : o + 4 + 2 ≤ tvb.length := by omega
  simp [values_peer4, peer_record, proto_tree_add_item, tvb_bytes, tvb_get_ntohs_be16 h2, h, h1,
    h2]

/-- One 18-byte element whose bytes lie inside the buffer. -/
theorem values_peer6_ok {tvb : Tvb} {o : Nat} (idx : Nat) (h : o + 18 ≤ tvb.length) :
    values_peer6 tvb o idx = some (peer_record tvb o idx 18) := by
  have h1 : o + 16 ≤ tvb.length := by omega
  have h2 : o + 16 + 2 ≤ tvb.length := by omega
  simp [values_peer6, peer_record, proto_tree_add_item, tvb_bytes, tvb_get_ntohs_be16 h2, h, h1,
    h2]

theorem encode_strings_append (a b : List (List Nat)) :
    encode_strings (a ++ b) = encode_strings a ++ encode_strings b := by
  induction a with
  | nil => rfl
  | cons s a ih => simp [encode_strings, ih, List.append_assoc]

theorem encode_string_length (s : List Nat) :
    (encode_string s).length = (decimal s.length).length + 1 + s.length := by
  simp [encode_string]
  omega

/-- The loop of the `values` decoder over a run of well-formed elements: it
emits their records and goes on behind them. -/
theorem dissect_bt_dht_values_loop_strings (tvb : Tvb) (ti : Nat) (label : String)
    (hL : tvb.length < 2 ^ 32) (fuel : Nat) :
    ∀ (ss : List (List Nat)) (peers o : Nat), (∀ s ∈ ss, s ≠ []) →
      holds_at tvb o (encode_strings ss) →
      dissect_bt_dht_values_loop (ss.length + fuel) tvb ti label peers o =
        ⟨(dissect_bt_dht_values_loop fuel tvb ti label (peers + ss.countP is_peer)
            (o + (encode_strings ss).length)).ret,
         values_records tvb ss o peers ++
           (dissect_bt_dht_values_loop fuel tvb ti label (peers + ss.countP is_peer)
             (o + (encode_strings ss).length)).events,
         (dissect_bt_dht_values_loop fuel tvb ti label (peers + ss.countP is_peer)
            (o + (encode_strings ss).length)).result⟩ := by
  intro ss
  induction ss with
  | nil =>
    intro peers o _ _
    simp [encode_strings, values_records]
  | cons s rest ih =>
    intro peers o hne hh
    have hs : s ≠ [] := hne s (by simp)
    have hs0 : s.length ≠ 0 := fun hc => hs (List.length_eq_zero.mp hc)
    have hrest : ∀ t ∈ rest, t ≠ [] := fun t ht => hne t (by simp [ht])
    have henc : encode_strings (s :: rest) = encode_string s ++ encode_strings rest := rfl
    rw [henc] at hh
    obtain ⟨hh1, hh2⟩ := holds_at_append.mp hh
    have hle := holds_at_le hh1 (by simp [encode_string])
    rw [encode_string_length] at hle
    obtain ⟨c, tl, hc, hc1, hc2⟩ := encode_string_head s
    have hhead : tvb[o]? = some c := by
      have h2 := hh1
      rw [hc] at h2
      exact holds_at_head h2
    have hpre : holds_at tvb o (decimal s.length ++ [58]) := by
      have : encode_string s = (decimal s.length ++ [58]) ++ s := by simp [encode_string]
      rw [this] at hh1
      exact (holds_at_append.mp hh1).1
    have hbl := bencoded_string_length_decimal (by omega : s.length < 2 ^ 32) hpre
    have hnext : o + (decimal s.length).length + 1 + s.length = o + (encode_string s).length := by
      rw [encode_string_length]; omega
    have hfuel : (s :: rest).length + fuel = (rest.length + fuel) + 1 := by
      simp only [List.length_cons]; omega
    have hlen2 : o + (encode_strings (s :: rest)).length
        = o + (encode_string s).length + (encode_strings rest).length := by
      rw [henc, List.length_append]; omega
    rw [hfuel, dissect_bt_dht_values_loop, hlen2]
    simp only [tvb_get_guint8, hhead, hbl]
    rw [if_neg (by omega), if_neg hs0]
    by_cases h6 : s.length = 6
    · have hp : is_peer s = true := by simp [is_peer, h6]
      rw [if_pos h6, values_peer4_ok (peers + 1) (by omega)]
      simp only
      rw [hnext, ih (peers + 1) _ hrest hh2]
      simp only [values_records, hp, if_true, List.countP_cons_of_pos, h6, List.append_assoc]
      have e : peers + 1 + List.countP is_peer rest = peers + (List.countP is_peer rest + 1) := by
        omega
      rw [e]
    · rw [if_neg h6]
      by_cases h18 : s.length = 18
      · have hp : is_peer s = true := by simp [is_peer, h18]
        rw [if_pos h18, values_peer6_ok (peers + 1) (by omega)]
        simp only
        rw [hnext, ih (peers + 1) _ hrest hh2]
        simp only [values_records, hp, if_true, List.countP_cons_of_pos, h18, List.append_assoc]
        have e : peers + 1 + List.countP is_peer rest
            = peers + (List.countP is_peer rest + 1) := by omega
        rw [e]
      · have hp : is_peer s = false := by simp [is_peer, h6, h18]
        have hpn : ¬ (is_peer s = true) := by simp [hp]
        rw [if_neg h18]
        simp only [proto_tree_add_item]
        rw [if_pos (by omega)]
        simp only
        rw [hnext, ih peers _ hrest hh2]
        simp only [values_records, hp, List.countP_cons_of_neg _ _ hpn, List.cons_append]
        simp

/-- The loop of the `values` decoder at the terminator. -/
theorem dissect_bt_dht_values_loop_end {tvb : Tvb} {o : Nat} (fuel ti peers : Nat)
    (label : String) (h : tvb[o]? = some 101) :
    dissect_bt_dht_values_loop (fuel + 1) tvb ti label peers o =
      ⟨Ret.ret (o + 1),
       [Event.add_item Hf.hf_bencoded_list_terminator Enc.ENC_ASCII_NA o (some 1),
        Event.set_text Hf.hf_bt_dht_peers ti
          [Piece.lit label, Piece.lit ": ", Piece.num peers, Piece.lit " peers"],
        Event.col_append [Piece.lit " reply=", Piece.num peers, Piece.lit " peers"]],
       some (decimal peers ++ str " peers")⟩ := by
  rw [dissect_bt_dht_values_loop]
  simp [tvb_get_guint8, h]

/-- The `values` decoder on a list of well-formed elements. -/
theorem dissect_bt_dht_values_encode {tvb : Tvb} {o : Nat} (ss : List (List Nat)) (fuel : Nat)
    (label : String) (hL : tvb.length < 2 ^ 32) (hne : ∀ s ∈ ss, s ≠ [])
    (hh : holds_at tvb (o + 1) (encode_strings ss ++ [101])) (hf : ss.length + 1 ≤ fuel) :
    dissect_bt_dht_values fuel tvb o label =
      ⟨Ret.ret (o + 1 + (encode_strings ss).length + 1),
       Event.add_item Hf.hf_bt_dht_peers Enc.ENC_NA o (some 0) ::
         (values_records tvb ss (o + 1) 0 ++
           [Event.add_item Hf.hf_bencoded_list_terminator Enc.ENC_ASCII_NA (o + 1 + (encode_strings ss).length)
              (some 1),
            Event.set_text Hf.hf_bt_dht_peers o
              [Piece.lit label, Piece.lit ": ", Piece.num (ss.countP is_peer),
               Piece.lit " peers"],
            Event.col_append
              [Piece.lit " reply=", Piece.num (ss.countP is_peer), Piece.lit " peers"]]),
       some (decimal (ss.countP is_peer) ++ str " peers")⟩ := by
  obtain ⟨hh1, hh2⟩ := holds_at_append.mp hh
  have he : tvb[o + 1 + (encode_strings ss).length]? = some 101 := holds_at_head hh2
  obtain ⟨k, rfl⟩ := Nat.exists_eq_add_of_le hf
  unfold dissect_bt_dht_values
  have hfu : ss.length + 1 + k = ss.length + (k + 1) := by omega
  rw [hfu, dissect_bt_dht_values_loop_strings tvb o label hL (k + 1) ss 0 (o + 1) hne hh1,
    dissect_bt_dht_values_loop_end k o _ label he]
  simp

theorem values_records_append (tvb : Tvb) : ∀ (a b : List (List Nat)) (o peers : Nat),
    values_records tvb (a ++ b) o peers =
      values_records tvb a o peers ++
        values_records tvb b (o + (encode_strings a).length) (peers + a.countP is_peer) := by
  intro a
  induction a with
  | nil => intro b o peers; simp [values_records, encode_strings]
  | cons s a ih =>
    intro b o peers
    have henc : (encode_strings (s :: a)).length
        = (encode_string s).length + (encode_strings a).length := by
      simp [encode_strings]
    have e1 : o + (encode_string s).length + (encode_strings a).length
        = o + ((encode_string s).length + (encode_strings a).length) := by omega
    rw [List.cons_append]
    by_cases hp : is_peer s = true
    · have e2 : peers + 1 + List.countP is_peer a = peers + (List.countP is_peer a + 1) := by
        omega
      rw [values_records, values_records, if_pos hp, if_pos hp, ih, henc,
        List.countP_cons_of_pos _ _ hp, List.append_assoc, e1, e2]
    · rw [values_records, values_records, if_neg hp, if_neg hp, ih, henc,
        List.countP_cons_of_neg _ _ hp, List.cons_append, e1]

theorem encode_strings_length_ge (ss : List (List Nat)) :
    ss.length ≤ (encode_strings ss).length := by
  induction ss with
  | nil => simp [encode_strings]
  | cons s ss ih =>
    have := encode_string_length s
    simp only [encode_strings, List.length_cons, List.length_append]
    omega

/-- A block of a concatenation of blocks. -/
theorem flatMap_block {α β : Type} (f : α → List β) (l : List α) (a : α) (h : a ∈ l) :
    ∃ pre post, l.flatMap f = pre ++ f a ++ post := by
  obtain ⟨s, t, rfl⟩ := List.append_of_mem h
  exact ⟨s.flatMap f, t.flatMap f, by simp [List.flatMap_append, List.flatMap_cons]⟩

/-- A block of a list stays a block when the list is put in a context. -/
theorem block_in_context {β : Type} (x : β) (l pre b post t : List β)
    (h : l = pre ++ b ++ post) : ∃ p q, x :: (l ++ t) = p ++ b ++ q :=
  ⟨x :: pre, post ++ t, by rw [h]; simp⟩

/-- An element of a `values` list held in the buffer is held at its own offset. -/
theorem holds_at_element {tvb : Tvb} {o : Nat} {pre post : List (List Nat)} {s : List Nat}
    (hh : holds_at tvb o (108 :: encode_strings (pre ++ s :: post) ++ [101])) :
    holds_at tvb (o + 1 + (encode_strings pre).length + (decimal s.length).length + 1) s := by
  have e : 108 :: encode_strings (pre ++ s :: post) ++ [101]
      = [108] ++ (encode_strings pre ++
          ((decimal s.length ++ [58]) ++ (s ++ (encode_strings post ++ [101])))) := by
    simp [encode_strings_append, encode_strings, encode_string, List.append_assoc]
  rw [e] at hh
  have h1 := (holds_at_append.mp hh).2
  have h2 := (holds_at_append.mp h1).2
  have h3 := (holds_at_append.mp h2).2
  have h4 := (holds_at_append.mp h3).1
  simp only [List.length_singleton, List.length_append] at h4
  have e2 : o + 1 + (encode_strings pre).length + ((decimal s.length).length + 1)
      = o + 1 + (encode_strings pre).length + (decimal s.length).length + 1 := by omega
  rwa [e2] at h4

/-! ## The `ip` value, the error list and the enclosing entry -/

/-- Once the key of an entry is decoded, the entry returns what the decode of
its value returns. -/
theorem dissect_bencoded_dict_entry_ret_value {tvb : Tvb} {e q b : Nat} (fuel : Nat)
    (hk : (dissect_bencoded_string tvb e false "Key").ret = Ret.ret q) (hq : q ≠ 0)
    (hb : tvb_get_guint8 tvb q = some b) :
    (dissect_bencoded_dict_entry (fuel + 1) tvb e).ret =
      (dissect_bencoded_dict_entry_value fuel tvb q
        (printf_s (dissect_bencoded_string tvb e false "Key").result) b).ret := by
  rw [dissect_bencoded_dict_entry]
  simp only [hk, if_neg hq, hb]
  cases hv : (dissect_bencoded_dict_entry_value fuel tvb q
      (printf_s (dissect_bencoded_string tvb e false "Key").result) b).ret with
  | nofuel => rfl
  | thrown => rfl
  | ret r =>
    simp only
    by_cases hr : r = 0
    · rw [if_pos hr, hr]
    · rw [if_neg hr]

/-- The `ip` value with the declared length 6 and its six bytes in the buffer. -/
theorem dissect_bencoded_dict_entry_ip_six {tvb : Tvb} {o d : Nat} (b0 b1 b2 b3 b4 b5 : Nat)
    (hlen : bencoded_string_length tvb o = some (6, d))
    (hh : holds_at tvb d [b0, b1, b2, b3, b4, b5]) :
    dissect_bencoded_dict_entry_ip tvb o =
      ⟨Ret.ret (d + 6),
       [Event.add_item Hf.hf_ip Enc.ENC_BIG_ENDIAN d (some 4), Event.add_item Hf.hf_port Enc.ENC_BIG_ENDIAN (d + 4) (some 2)],
       some (decimal b0 ++ [46] ++ decimal b1 ++ [46] ++ decimal b2 ++ [46] ++ decimal b3)⟩ := by
  have hle := holds_at_le hh (by simp)
  simp only [List.length_cons, List.length_nil] at hle
  have h4 : holds_at tvb d [b0, b1, b2, b3] := by
    have : [b0, b1, b2, b3, b4, b5] = [b0, b1, b2, b3] ++ [b4, b5] := rfl
    rw [this] at hh
    exact (holds_at_append.mp hh).1
  have hb4 := holds_at_bytes h4 (by omega)
  simp only [List.length_cons, List.length_nil] at hb4
  have e1 : d + 4 ≤ tvb.length := by omega
  have e2 : d + 4 + 2 ≤ tvb.length := by omega
  unfold dissect_bencoded_dict_entry_ip
  simp [hlen, proto_tree_add_item, tvb_ip_to_str, hb4, e1, e2]

/-- The `ip` value whose length prefix does not give the length 6. -/
theorem dissect_bencoded_dict_entry_ip_other {tvb : Tvb} {o : Nat}
    (h : ∀ d : Nat, bencoded_string_length tvb o ≠ some (6, d)) :
    dissect_bencoded_dict_entry_ip tvb o = dissect_bencoded_string tvb o true "Value" := by
  unfold dissect_bencoded_dict_entry_ip
  cases hb : bencoded_string_length tvb o with
  | none =>
    unfold dissect_bencoded_string
    simp [hb]
  | some pr =>
    obtain ⟨len, d⟩ := pr
    have hne : len ≠ 6 := by
      intro hc
      subst hc
      exact h d hb
    simp [hne]

/-- The two bytes of a port held in the buffer, read big-endian. -/
theorem be16_holds {tvb : Tvb} {o hi lo : Nat} (h : holds_at tvb o [hi, lo]) :
    o + 2 ≤ tvb.length ∧ be16 tvb o = 256 * hi + lo := by
  have hle := holds_at_le h (by simp)
  have h0 := holds_at_getElem? h 0 (by simp)
  have h1 := holds_at_getElem? h 1 (by simp)
  simp only [List.length_cons, List.length_nil] at hle
  simp at h0 h1
  refine ⟨by omega, ?_⟩
  simp [be16, byte_at, h0, h1]

/-- A success of the integer decoder: the text is the span up to the first `e`. -/
theorem dissect_bencoded_int_success {tvb : Tvb} {o r : Nat} {label : String}
    (h : (dissect_bencoded_int tvb o label).ret = Ret.ret r) :
    ∃ text : List Nat, (dissect_bencoded_int tvb o label).result = some text ∧
      holds_at tvb (o + 1) (text ++ [101]) ∧ (∀ b ∈ text, b ≠ 101) ∧
      r = o + text.length + 2 := by
  cases hs : scan_until 101 (tvb.drop (o + 1)) (o + 1) with
  | none => rw [dissect_bencoded_int_not_found label hs] at h; exact absurd h (by simp)
  | some p =>
    obtain ⟨hop, hpe, hfirst⟩ := scan_until_drop_some hs
    have hpL := scan_until_lt_length hs
    rw [dissect_bencoded_int_found label hs] at h ⊢
    simp only [Ret.ret.injEq] at h
    have hl : ((tvb.drop (o + 1)).take (p - (o + 1))).length = p - (o + 1) := by
      simp only [List.length_take, List.length_drop]
      omega
    refine ⟨(tvb.drop (o + 1)).take (p - (o + 1)), rfl, ?_, ?_, by rw [hl]; omega⟩
    · have hnext : (tvb.drop (o + 1))[p - (o + 1)]? = some 101 := by
        rw [getElem?_drop_tvb]
        have e : o + 1 + (p - (o + 1)) = p := by omega
        rw [e]
        exact hpe
      have : (tvb.drop (o + 1)).take (p - (o + 1)) ++ [101]
          = (tvb.drop (o + 1)).take (p - (o + 1) + 1) := by
        rw [List.take_succ, hnext]
        rfl
      unfold holds_at
      rw [this]
      exact List.take_prefix _ _
    · intro b hb hc
      subst hc
      obtain ⟨i, hi⟩ := List.mem_iff_getElem?.mp hb
      rw [List.getElem?_take] at hi
      by_cases hik : i < p - (o + 1)
      · rw [if_pos hik, getElem?_drop_tvb] at hi
        exact hfirst (o + 1 + i) (by omega) (by omega) hi
      · rw [if_neg hik] at hi
        exact absurd hi (by simp)

/-! ## The entries of a dictionary are dissected in input order -/

/-- Keys are compared as C strings.  In `d3:e<00>xli201e3:abcee` the key `e`,
NUL, `x` is the key `e` for `strcmp`: its list goes to `dissect_bt_dht_error`,
which leaves the `e` of the list to the dictionary, and the dictionary returns
18 of the 19 bytes.  It is a special key, and no dictionary with this key is
generic. -/
theorem dissect_bencoded_dict_nul_key :
    (dissect_bencoded_dict 61 (str "d3:e" ++ [0] ++ str "xli201e3:abcee") 0 "Value").ret
      = Ret.ret 18 ∧
    (dissect_bencoded_dict_entry 60 (str "d3:e" ++ [0] ++ str "xli201e3:abcee") 1).ret
      = Ret.ret 17 ∧
    special_key (str "e" ++ [0] ++ str "x") = true ∧
    special_key (str "nodes" ++ [0] ++ str "x") = true ∧
    tohex_key (str "t" ++ [0] ++ str "x") = true := by
  refine ⟨by decide, by decide, by decide, by decide, by decide⟩

/-- The value `0:` under the key `nodes`, NUL, `x` goes to `dissect_bt_dht_nodes`,
as under the key `nodes`: the dictionary `d7:nodes<00>x0:e` is not rejected. -/
theorem dissect_bencoded_dict_nul_nodes_key :
    (dissect_bencoded_dict 40 (str "d7:nodes" ++ [0] ++ str "x0:e") 0 "Value").ret
      ≠ Ret.ret 0 := by
  decide

/-! ## The claims -/

/-- C2: with the fuel of the entry point (or more) none of the decoders runs out
of fuel, whatever the buffer and the start offset: each of them comes to an end,
with a returned offset, the failure value 0, or a bounds exception. -/
theorem decoders_terminate (tvb : Tvb) (offset fuel : Nat) (hf : fuel_for tvb ≤ fuel) :
    (∀ label, (dissect_bencoded_dict fuel tvb offset label).ret ≠ Ret.nofuel) ∧
    (dissect_bencoded_dict_entry fuel tvb offset).ret ≠ Ret.nofuel ∧
    (∀ label, (dissect_bencoded_list fuel tvb offset label).ret ≠ Ret.nofuel) ∧
    (∀ label, (dissect_bencoded_int tvb offset label).ret ≠ Ret.nofuel) ∧
    (∀ tohex label, (dissect_bencoded_string tvb offset tohex label).ret ≠ Ret.nofuel) ∧
    (∀ label, (dissect_bt_dht_error tvb offset label).ret ≠ Ret.nofuel) ∧
    (∀ label, (dissect_bt_dht_values fuel tvb offset label).ret ≠ Ret.nofuel) ∧
    (∀ label ipv6, (dissect_bt_dht_nodes fuel tvb offset label ipv6).ret ≠ Ret.nofuel) := by
  unfold fuel_for at hf
  obtain ⟨hl, _, _, _, hde, hd, _⟩ := decoders_ne_nofuel tvb fuel
  refine ⟨fun label => hd offset label (by omega), hde offset (by omega),
    fun label => hl offset label (by omega),
    fun label => dissect_bencoded_int_ne_nofuel tvb offset label,
    fun tohex label => dissect_bencoded_string_ne_nofuel tvb offset tohex label,
    fun label => dissect_bt_dht_error_ne_nofuel tvb offset label,
    fun label => dissect_bt_dht_values_ne_nofuel label (by omega),
    fun label ipv6 => dissect_bt_dht_nodes_ne_nofuel label ipv6 (by omega)⟩

/-- Witness of C2: an unterminated run of nested lists, `llllllll`. -/
theorem decoders_terminate_witness :
    fuel_for (str "llllllll") ≤ 28 ∧
    (dissect_bencoded_list 28 (str "llllllll") 0 "List").ret ≠ Ret.nofuel ∧
    (dissect_bencoded_list 28 (str "llllllll") 0 "List").ret = Ret.thrown :=
  ⟨by decide, (decoders_terminate (str "llllllll") 0 28 (by decide)).2.2.1 "List", by decide⟩

/-- C3 (the code departs from the claim): the error message
`d1:eli201e12:Server Errore1:t2:aa1:y1:ee` has 40 bytes; cut after its first 26
bytes (`d1:eli201e12:Server Errore`) it is accepted by the sniffing test and
`dissect_bencoded_dict`, started at offset 0, returns the success offset 26:
`dissect_bt_dht_error` stops in front of the `e` that closes the error list, and
the dictionary loop takes that `e` for the end of the dictionary. -/
theorem truncated_error_message_accepted :
    (str "d1:eli201e12:Server Errore1:t2:aa1:y1:ee").length = 40 ∧
    (str "d1:eli201e12:Server Errore1:t2:aa1:y1:ee").take 26 = str "d1:eli201e12:Server Errore" ∧
    test_bt_dht (str "d1:eli201e12:Server Errore") 0 = true ∧
    (dissect_bencoded_dict (fuel_for (str "d1:eli201e12:Server Errore"))
        (str "d1:eli201e12:Server Errore") 0 "BitTorrent DHT Protocol").ret = Ret.ret 26 ∧
    (dissect_bt_dht (str "d1:eli201e12:Server Errore")).ret = Ret.ret 26 ∧
    (dissect_bt_dht_error (str "d1:eli201e12:Server Errore") 4 "Value").ret = Ret.ret 25 ∧
    (dissect_bencoded_dict (fuel_for (str "d1:eli201e12:Server Errore1:t2:aa1:y1:ee"))
        (str "d1:eli201e12:Server Errore1:t2:aa1:y1:ee") 0 "BitTorrent DHT Protocol").ret
      = Ret.ret 26 := by
  refine ⟨by decide, by decide, by decide, by decide, by decide, by decide, by decide⟩

/-- C4: whenever a decoder returns an offset, that offset is at most the length
of the buffer (byte-string, integer, list, dictionary, dictionary entry, error
list, values list, nodes string, `ip` value). -/
theorem decoders_stay_in_buffer (tvb : Tvb) (fuel offset r : Nat) :
    (∀ tohex label, (dissect_bencoded_string tvb offset tohex label).ret = Ret.ret r →
      r ≤ tvb.length) ∧
    (∀ label, (dissect_bencoded_int tvb offset label).ret = Ret.ret r → r ≤ tvb.length) ∧
    (∀ label, (dissect_bencoded_list fuel tvb offset label).ret = Ret.ret r → r ≤ tvb.length) ∧
    (∀ label, (dissect_bencoded_dict fuel tvb offset label).ret = Ret.ret r → r ≤ tvb.length) ∧
    ((dissect_bencoded_dict_entry fuel tvb offset).ret = Ret.ret r → r ≤ tvb.length) ∧
    (∀ label, (dissect_bt_dht_error tvb offset label).ret = Ret.ret r → r ≤ tvb.length) ∧
    (∀ label, (dissect_bt_dht_values fuel tvb offset label).ret = Ret.ret r → r ≤ tvb.length) ∧
    (∀ label ipv6, (dissect_bt_dht_nodes fuel tvb offset label ipv6).ret = Ret.ret r →
      r ≤ tvb.length) ∧
    ((dissect_bencoded_dict_entry_ip tvb offset).ret = Ret.ret r → r ≤ tvb.length) := by
  obtain ⟨hl, _, _, _, hde, hd, _⟩ := decoders_ret_bounds tvb fuel
  refine ⟨?_, ?_, ?_, ?_, ?_, ?_, ?_, ?_, ?_⟩
  · intro tohex label h
    have := dissect_bencoded_string_ret h; omega
  · intro label h
    have := dissect_bencoded_int_ret h; omega
  · intro label h
    have := hl _ _ _ h; omega
  · intro label h
    have := hd _ _ _ h; omega
  · intro h
    have := hde _ _ h; omega
  · intro label h
    have := dissect_bt_dht_error_ret h; omega
  · intro label h
    have := dissect_bt_dht_values_ret h; omega
  · intro label ipv6 h
    have := dissect_bt_dht_nodes_ret h; omega
  · intro h
    have := dissect_bencoded_dict_entry_ip_ret h; omega

/-- Witness of C4: the list `l1:ae` inside the 7-byte buffer `xl1:aey`. -/
theorem decoders_stay_in_buffer_witness :
    (dissect_bencoded_list 20 (str "xl1:aey") 1 "List").ret = Ret.ret 6 ∧
    6 ≤ (str "xl1:aey").length :=
  ⟨by decide,
   (decoders_stay_in_buffer (str "xl1:aey") 20 1 6).2.2.1 "List" (by decide)⟩

/-- C5: a failure at any nesting depth makes every enclosing decode fail.  If
the call `top` (a list, a dictionary, a dictionary entry, ...) encloses, at any
depth of the call structure, a decode `c` (a list element, a dictionary key, a
dictionary value, ...) that returns 0, then `top` returns 0 as well, and after
the events of `c` it emits nothing but expert items: no later sibling is
decoded. -/
theorem failure_propagates (tvb : Tvb) (top c : Call)
    (h : Relation.ReflTransGen (calls tvb) top c) (hc : (c.run tvb).ret = Ret.ret 0) :
    (top.run tvb).ret = Ret.ret 0 ∧
    ∃ pre post, (top.run tvb).events = pre ++ (c.run tvb).events ++ post ∧
      ∀ e ∈ post, ∃ ei start text, e = Event.expert ei start text := by
  induction h with
  | refl => exact ⟨hc, [], [], by simp, by simp⟩
  | tail _ hstep ih =>
    obtain ⟨h0, pre, post, hev, hpost⟩ := calls_failure hstep hc
    obtain ⟨h1, pre1, post1, hev1, hpost1⟩ := ih h0
    refine ⟨h1, pre1 ++ pre, post ++ post1, ?_, ?_⟩
    · rw [hev1, hev]; simp
    · intro e he
      rcases List.mem_append.mp he with he | he
      · exact hpost e he
      · exact hpost1 e he

/-- Witness of C5: in `d1:ali1e0:ee` the second element of the list under key `a`
is the empty string `0:`, whose decode returns 0; the list, the entry and the
dictionary return 0. -/
theorem failure_propagates_witness :
    (dissect_bencoded_string (str "d1:ali1e0:ee") 8 false "String").ret = Ret.ret 0 ∧
    (dissect_bencoded_dict 20 (str "d1:ali1e0:ee") 0 "BitTorrent DHT Protocol").ret = Ret.ret 0 :=
  ⟨by decide,
   (failure_propagates (str "d1:ali1e0:ee")
      (Call.dict 20 0 "BitTorrent DHT Protocol") (Call.string 8 false "String")
      ((((((((Relation.ReflTransGen.single
        (calls.dict_body 19 0 "BitTorrent DHT Protocol")).tail
        (calls.dict_entry 18 0 1 49 (by decide) (by decide))).tail
        (calls.entry_value 17 1 4 108 (by decide) (by decide) (by decide))).tail
        (calls.value_list 16 4 _ (by decide) (by decide))).tail
        (calls.list_body 15 4 "Value")).tail
        (calls.list_next 14 5 105 8 (by decide) (by decide) (by decide) (by decide))).tail
        (calls.list_element 13 8 48 (by decide) (by decide))).tail
        (calls.element_string 12 8 48 (by decide) (by decide) (by decide)))
      (by decide)).1⟩

/-- C6: the non-progress guard of the list loop.  When the loop of the list at
`offset` comes to an element (at `p`, first byte `b`) whose decode returns an
offset `r ≤ p`, the loop stops there (it returns 0 after emitting the expert
item, without another iteration) and `dissect_bencoded_list` returns 0. -/
theorem list_non_progress_guard (tvb : Tvb) (fuel offset : Nat) (label : String)
    (fuel' p b r : Nat)
    (hreach : list_reaches tvb fuel (offset + 1) (fuel' + 1) p)
    (hb : tvb_get_guint8 tvb p = some b) (hbe : b ≠ 101)
    (hret : (dissect_bencoded_list_element fuel' tvb p b).ret = Ret.ret r) (hle : r ≤ p) :
    (dissect_bencoded_list (fuel + 1) tvb offset label).ret = Ret.ret 0 ∧
    dissect_bencoded_list_loop (fuel' + 1) tvb p =
      ⟨Ret.ret 0,
       (dissect_bencoded_list_element fuel' tvb p b).events
         ++ [Event.expert Ei.ei_int_string r "String must contain an integer"],
       none⟩ := by
  refine ⟨?_, list_loop_no_progress hb hbe hret hle⟩
  rw [dissect_bencoded_list]
  show (dissect_bencoded_list_loop fuel tvb (offset + 1)).ret = Ret.ret 0
  rw [list_reaches_ret hreach, list_loop_no_progress hb hbe hret hle]

/-- Witness of C6: in `li1e0:e` the loop of the list comes, after the integer, to
the element `0:` at offset 4, whose decode returns 0. -/
theorem list_non_progress_guard_witness :
    (dissect_bencoded_list_element 8 (str "li1e0:e") 4 48).ret = Ret.ret 0 ∧
    (dissect_bencoded_list 11 (str "li1e0:e") 0 "List").ret = Ret.ret 0 :=
  ⟨by decide,
   (list_non_progress_guard (str "li1e0:e") 10 0 "List" 8 4 48 0
      (list_reaches.next 10 1 9 1 105 4 (list_reaches.here 10 1) (by decide) (by decide)
        (by decide) (by decide))
      (by decide) (by decide) (by decide) (by decide)).1⟩

/-- C7: when the buffer holds at `offset` the decimal digits of `n` (with
`n ≥ 1`), then `:`, then at least `n` bytes, `dissect_bencoded_string` returns
`offset + d + 1 + n`, where `d` is the number of digits, and its result is the
`n` bytes after the `:`, as they are when `tohex` is false and as their hex
dump when `tohex` is true. -/
theorem dissect_bencoded_string_decodes (tvb : Tvb) (offset n : Nat) (tohex : Bool)
    (label : String) (hn : 1 ≤ n) (hL : tvb.length < 2 ^ 31)
    (hdigits : holds_at tvb offset (decimal n ++ [58]))
    (hbytes : offset + (decimal n).length + 1 + n ≤ tvb.length) :
    (dissect_bencoded_string tvb offset tohex label).ret
      = Ret.ret (offset + (decimal n).length + 1 + n) ∧
    (dissect_bencoded_string tvb offset tohex label).result
      = some (if tohex then hex_dump ((tvb.drop (offset + (decimal n).length + 1)).take n)
              else (tvb.drop (offset + (decimal n).length + 1)).take n) ∧
    ((tvb.drop (offset + (decimal n).length + 1)).take n).length = n := by
  rw [dissect_bencoded_string_decimal tohex label (by omega) (by omega) hdigits hbytes]
  refine ⟨rfl, rfl, ?_⟩
  simp
  omega

/-- Witness of C7: `5:abcde` at offset 2 of `xx5:abcdeyy`, as text and as hex dump. -/
theorem dissect_bencoded_string_decodes_witness :
    ((1 ≤ 5 ∧ (str "xx5:abcdeyy").length < 2 ^ 31 ∧
      holds_at (str "xx5:abcdeyy") 2 (decimal 5 ++ [58]) ∧
      2 + (decimal 5).length + 1 + 5 ≤ (str "xx5:abcdeyy").length) ∧
     (dissect_bencoded_string (str "xx5:abcdeyy") 2 false "String").ret = Ret.ret 9 ∧
     (dissect_bencoded_string (str "xx5:abcdeyy") 2 false "String").result = some (str "abcde") ∧
     (dissect_bencoded_string (str "xx5:abcdeyy") 2 true "String").result
       = some (str "6162636465")) ∧
    ((dissect_bencoded_string (str "xx5:abcdeyy") 2 true "String").ret
      = Ret.ret (2 + (decimal 5).length + 1 + 5)) :=
  ⟨⟨⟨by decide, by decide, by decide, by decide⟩, by decide, by decide, by decide⟩,
   (dissect_bencoded_string_decodes (str "xx5:abcdeyy") 2 5 true "String" (by decide) (by decide)
     (by decide) (by decide)).1⟩

/-- C9: `dissect_bencoded_string` is left by a bounds exception, without
returning an offset, (1) when the first `:` from `offset` on is at `p`, the
bytes before it parse as the length `n`, and fewer than `n` bytes follow the
`:`; and (2) when no `:` occurs from `offset` to the end of the buffer. -/
theorem dissect_bencoded_string_truncated (tvb : Tvb) (offset : Nat) (tohex : Bool)
    (label : String) :
    (∀ p n : Nat, offset ≤ p → tvb[p]? = some 58 →
      (∀ i : Nat, offset ≤ i → i < p → tvb[i]? ≠ some 58) →
      ws_strtou32 ((tvb.drop offset).take (p - offset)) = some n →
      tvb.length - (p + 1) < n →
      (dissect_bencoded_string tvb offset tohex label).ret = Ret.thrown) ∧
    ((∀ i : Nat, offset ≤ i → tvb[i]? ≠ some 58) →
      (dissect_bencoded_string tvb offset tohex label).ret = Ret.thrown) := by
  refine ⟨?_, ?_⟩
  · intro p n hp hc hfirst hparse hshort
    have hs := scan_until_drop_eq_some hp hc hfirst
    have hpL : p < tvb.length := scan_until_lt_length hs
    rw [dissect_bencoded_string_short tohex label hs hparse (by omega) (by omega)]
  · intro hno
    rw [dissect_bencoded_string_no_colon tohex label (scan_until_drop_eq_none hno)]

/-- Witness of C9: `6:abcde` declares six bytes and holds five; `6abcde` has no `:`. -/
theorem dissect_bencoded_string_truncated_witness :
    (dissect_bencoded_string (str "6:abcde") 0 false "String").ret = Ret.thrown ∧
    (dissect_bencoded_string (str "6abcde") 0 false "String").ret = Ret.thrown :=
  ⟨(dissect_bencoded_string_truncated (str "6:abcde") 0 false "String").1 1 6 (by decide)
     (by decide)
     (by
       intro i h1 h2
       have hi : i = 0 := by omega
       subst hi
       decide)
     (by decide) (by decide),
   (dissect_bencoded_string_truncated (str "6abcde") 0 false "String").2
     (by
       intro i _
       have h6 : (str "6abcde") = [54, 97, 98, 99, 100, 101] := by decide
       rw [h6]
       match i with
       | 0 | 1 | 2 | 3 | 4 | 5 => decide
       | k + 6 => simp)⟩

/-- C10: when the buffer holds `i` at `offset` and the first `e` after it is at
`p`, `dissect_bencoded_int` returns `p + 1` and its result is the text strictly
between the `i` and that `e`; the returned offset is `offset` plus the length of
the text plus 2. -/
theorem dissect_bencoded_int_decodes (tvb : Tvb) (offset p : Nat) (label : String)
    (_hi : tvb[offset]? = some 105) (hp : offset < p) (he : tvb[p]? = some 101)
    (hfirst : ∀ i : Nat, offset < i → i < p → tvb[i]? ≠ some 101) :
    (dissect_bencoded_int tvb offset label).ret = Ret.ret (p + 1) ∧
    (dissect_bencoded_int tvb offset label).result
      = some ((tvb.drop (offset + 1)).take (p - (offset + 1))) ∧
    p + 1 = offset + ((tvb.drop (offset + 1)).take (p - (offset + 1))).length + 2 := by
  have hs : scan_until 101 (tvb.drop (offset + 1)) (offset + 1) = some p :=
    scan_until_drop_eq_some (by omega) he (fun i h1 h2 => hfirst i (by omega) h2)
  have hpL : p < tvb.length := scan_until_lt_length hs
  rw [dissect_bencoded_int_found label hs]
  refine ⟨rfl, rfl, ?_⟩
  simp
  omega

/-- Witness of C10: `i-65e` at offset 2 of `xxi-65e7:e`. -/
theorem dissect_bencoded_int_decodes_witness :
    (dissect_bencoded_int (str "xxi-65e7:e") 2 "Integer").ret = Ret.ret (6 + 1) ∧
    (dissect_bencoded_int (str "xxi-65e7:e") 2 "Integer").result = some (str "-65") :=
  ⟨(dissect_bencoded_int_decodes (str "xxi-65e7:e") 2 6 "Integer" (by decide) (by decide)
      (by decide)
      (by
        intro i h1 h2
        have h6 : (str "xxi-65e7:e") = [120, 120, 105, 45, 54, 53, 101, 55, 58, 101] := by decide
        rw [h6]
        match i with
        | 3 | 4 | 5 => decide
        | 0 | 1 | 2 => omega
        | k + 6 => omega)).1,
   by decide⟩

/-- C11: when no byte `e` occurs after position `offset` up to the end of the
buffer, `dissect_bencoded_int` called at `offset` is left by the out-of-bounds
exception of the tvbuff read: it returns no next offset (neither a success nor
the failure value 0), adds no item and sets no result. -/
theorem dissect_bencoded_int_unterminated (tvb : Tvb) (offset : Nat) (label : String)
    (h : ∀ i : Nat, offset < i → tvb[i]? ≠ some 101) :
    dissect_bencoded_int tvb offset label = ⟨Ret.thrown, [], none⟩ ∧
    ∀ r : Nat, (dissect_bencoded_int tvb offset label).ret ≠ Ret.ret r := by
  have hs : scan_until 101 (tvb.drop (offset + 1)) (offset + 1) = none :=
    scan_until_drop_eq_none (fun i hi => h i (by omega))
  rw [dissect_bencoded_int_not_found label hs]
  exact ⟨rfl, fun r hc => by simp at hc⟩

/-- Witness of C11: `i123` has no `e` after its `i`. -/
theorem dissect_bencoded_int_unterminated_witness :
    dissect_bencoded_int (str "i123") 0 "Integer" = ⟨Ret.thrown, [], none⟩ :=
  (dissect_bencoded_int_unterminated (str "i123") 0 "Integer"
    (by
      intro i _
      have h4 : (str "i123") = [105, 49, 50, 51] := by decide
      rw [h4]
      match i with
      | 0 | 1 | 2 | 3 => decide
      | k + 4 => simp)).1

/-- C12: `test_bt_dht` returns TRUE exactly when at least 5 bytes remain in the
buffer from `offset` and the 5 bytes at `offset` are one of `d1:ad`, `d1:rd`,
`d2:ip`, `d1:el`.  So every buffer with fewer than 5 remaining bytes is
rejected, the ping query `d1:ad2:id20:<id>e1:q4:ping1:t2:aa1:y1:qe` is accepted
for every id, and every buffer that starts with `hello` is rejected. -/
theorem test_bt_dht_iff (tvb : Tvb) (offset : Nat) :
    (test_bt_dht tvb offset = true ↔
      5 ≤ tvb.length - offset ∧
      ((tvb.drop offset).take 5 = str "d1:ad" ∨ (tvb.drop offset).take 5 = str "d1:rd" ∨
       (tvb.drop offset).take 5 = str "d2:ip" ∨ (tvb.drop offset).take 5 = str "d1:el")) ∧
    (tvb.length - offset < 5 → test_bt_dht tvb offset = false) ∧
    (∀ id : List Nat,
      test_bt_dht (str "d1:ad2:id20:" ++ id ++ str "e1:q4:ping1:t2:aa1:y1:qe") 0 = true) ∧
    (∀ rest : List Nat, test_bt_dht (str "hello" ++ rest) 0 = false) := by
  have key : ∀ (t : Tvb) (o : Nat), test_bt_dht t o = true ↔
      5 ≤ t.length - o ∧
      ((t.drop o).take 5 = str "d1:ad" ∨ (t.drop o).take 5 = str "d1:rd" ∨
       (t.drop o).take 5 = str "d2:ip" ∨ (t.drop o).take 5 = str "d1:el") := by
    intro t o
    have e1 : (str "d1:ad").take 5 = str "d1:ad" := by decide
    have e2 : (str "d1:rd").take 5 = str "d1:rd" := by decide
    have e3 : (str "d2:ip").take 5 = str "d2:ip" := by decide
    have e4 : (str "d1:el").take 5 = str "d1:el" := by decide
    unfold test_bt_dht tvb_memeql tvb_bytes tvb_captured_length_remaining DHT_MIN_LEN
    rw [e1, e2, e3, e4]
    by_cases hlen : t.length - o < 5
    · simp [hlen]
    · have hle : o + 5 ≤ t.length := by omega
      simp only [hlen, if_false, hle, if_true, Option.some.injEq]
      by_cases h1 : (t.drop o).take 5 = str "d1:ad"
      · simp [h1]; omega
      · by_cases h2 : (t.drop o).take 5 = str "d1:rd"
        · simp [h1, h2]; omega
        · by_cases h3 : (t.drop o).take 5 = str "d2:ip"
          · simp [h1, h2, h3]; omega
          · by_cases h4 : (t.drop o).take 5 = str "d1:el"
            · simp [h1, h2, h3, h4]; omega
            · simp [h1, h2, h3, h4]
  refine ⟨key tvb offset, ?_, ?_, ?_⟩
  · intro hlt
    cases ht : test_bt_dht tvb offset with
    | false => rfl
    | true =>
      have := ((key tvb offset).mp ht).1
      omega
  · intro id
    rw [key]
    have e : str "d1:ad2:id20:" ++ id ++ str "e1:q4:ping1:t2:aa1:y1:qe"
        = str "d1:ad" ++ (str "2:id20:" ++ id ++ str "e1:q4:ping1:t2:aa1:y1:qe") := by
      have : str "d1:ad2:id20:" = str "d1:ad" ++ str "2:id20:" := by decide
      rw [this]
      simp [List.append_assoc]
    rw [e]
    have l5 : (str "d1:ad").length = 5 := by decide
    refine ⟨by simp [l5], Or.inl ?_⟩
    rw [List.drop_zero, List.take_append_of_le_length (by simp [l5]), List.take_of_length_le (by simp [l5])]
  · intro rest
    cases ht : test_bt_dht (str "hello" ++ rest) 0 with
    | false => rfl
    | true =>
      have h := ((key _ 0).mp ht).2
      have l5 : (str "hello").length = 5 := by decide
      rw [List.drop_zero, List.take_append_of_le_length (by simp [l5]),
        List.take_of_length_le (by simp [l5])] at h
      revert h
      decide

/-- Witness of C12: the four prefixes are accepted, a 4-byte buffer and `hello`
are rejected. -/
theorem test_bt_dht_iff_witness :
    test_bt_dht (str "d1:ad2:id20:abcdefghij0123456789e1:q4:ping1:t2:aa1:y1:qe") 0 = true ∧
    test_bt_dht (str "d1:a") 0 = false ∧
    test_bt_dht (str "xd1:rde") 1 = true :=
  ⟨(test_bt_dht_iff [] 0).2.2.1 (str "abcdefghij0123456789"),
   (test_bt_dht_iff (str "d1:a") 0).2.1 (by decide),
   (test_bt_dht_iff (str "xd1:rde") 1).1.mpr ⟨by decide, Or.inr (Or.inl (by decide))⟩⟩

/-- C13: for every buffer that `test_bt_dht` rejects, `dissect_bt_dht` returns 0,
adds nothing to the tree and writes no column.  For every buffer that
`test_bt_dht` accepts, it returns what `dissect_bencoded_dict` returns when
started at offset 0 with the label `BitTorrent DHT Protocol` (for every amount
of fuel from `fuel_for` on, and never the out-of-fuel outcome of the model);
a returned offset that is not the failure value 0 lies inside the buffer and is
the offset after a byte `e` for which the dictionary added its terminator
item. -/
theorem dissect_bt_dht_returns (tvb : Tvb) :
    (test_bt_dht tvb 0 = false → dissect_bt_dht tvb = ⟨Ret.ret 0, [], none⟩) ∧
    (test_bt_dht tvb 0 = true →
      (∀ fuel : Nat, fuel_for tvb ≤ fuel →
        (dissect_bt_dht tvb).ret
          = (dissect_bencoded_dict fuel tvb 0 "BitTorrent DHT Protocol").ret) ∧
      (dissect_bt_dht tvb).ret ≠ Ret.nofuel ∧
      ∀ r : Nat, (dissect_bt_dht tvb).ret = Ret.ret r → r ≠ 0 →
        1 ≤ r ∧ r ≤ tvb.length ∧ tvb[r - 1]? = some 101 ∧
        Event.add_item Hf.hf_bencoded_list_terminator Enc.ENC_ASCII_NA (r - 1) (some 1)
          ∈ (dissect_bt_dht tvb).events) := by
  refine ⟨?_, ?_⟩
  · intro h
    unfold dissect_bt_dht
    simp [h]
  · intro h
    have hd : dissect_bt_dht tvb =
        ⟨(dissect_bencoded_dict (fuel_for tvb) tvb 0 "BitTorrent DHT Protocol").ret,
         [Event.col_set_str "Protocol" "BT-DHT", Event.col_clear "Info",
          Event.col_set_str "Info" "BitTorrent DHT Protocol"] ++
           (dissect_bencoded_dict (fuel_for tvb) tvb 0 "BitTorrent DHT Protocol").events,
         (dissect_bencoded_dict (fuel_for tvb) tvb 0 "BitTorrent DHT Protocol").result⟩ := by
      unfold dissect_bt_dht
      simp [h]
    rw [hd]
    refine ⟨?_, ?_, ?_⟩
    · intro fuel hf
      obtain ⟨k, rfl⟩ := Nat.exists_eq_add_of_le hf
      rw [dissect_bencoded_dict_fuel_irrelevant]
    · exact (decoders_ne_nofuel tvb (fuel_for tvb)).2.2.2.2.2.1 0 "BitTorrent DHT Protocol"
        (by unfold fuel_for; omega)
    · intro r hret hr
      simp only at hret
      obtain ⟨h1, h2, h3⟩ := dissect_bencoded_dict_terminator tvb (fuel_for tvb) 0 r
        "BitTorrent DHT Protocol" hret hr
      refine ⟨h1, ?_, h2, List.mem_append_right _ h3⟩
      by_contra hc
      rw [List.getElem?_eq_none (by omega)] at h2
      exact absurd h2 (by simp)

/-- Witness of C13: `hello` is rejected; `d1:adee` is accepted and returns 7. -/
theorem dissect_bt_dht_returns_witness :
    dissect_bt_dht (str "hello") = ⟨Ret.ret 0, [], none⟩ ∧
    (dissect_bt_dht (str "d1:adee")).ret
      = (dissect_bencoded_dict 25 (str "d1:adee") 0 "BitTorrent DHT Protocol").ret ∧
    (dissect_bt_dht (str "d1:adee")).ret = Ret.ret 7 :=
  ⟨(dissect_bt_dht_returns (str "hello")).1 (by decide),
   ((dissect_bt_dht_returns (str "d1:adee")).2 (by decide)).1 25 (by decide),
   by decide⟩

/-- C14: for a `nodes` (w = 26) or `nodes6` (w = 38) byte-string whose length
prefix `<L>:` is held at `offset` and whose `L` declared bytes are all in the
buffer, `dissect_bt_dht_nodes` returns the offset of the first data byte plus
`L`, adds exactly `L / w` node items, adds one truncated-data item of exactly
`L mod w` bytes (right after the last record) when `L mod w > 0` and none
otherwise, and reports the node count `L / w` in its result and in the text of
the nodes item; so a length `w * k` gives exactly `k` records and no truncated
data.  (The statement holds for every `L`, also 0.) -/
theorem dissect_bt_dht_nodes_counts (tvb : Tvb) (offset L w fuel : Nat) (label : String)
    (ipv6 : Bool) (hw : w = if ipv6 then 38 else 26) (hsize : tvb.length < 2 ^ 31)
    (hh : holds_at tvb offset (decimal L ++ [58]))
    (hbytes : offset + (decimal L).length + 1 + L ≤ tvb.length)
    (hfuel : fuel_for tvb ≤ fuel) :
    (dissect_bt_dht_nodes fuel tvb offset label ipv6).ret
      = Ret.ret (offset + (decimal L).length + 1 + L) ∧
    ((dissect_bt_dht_nodes fuel tvb offset label ipv6).events.filter is_node_item).length
      = L / w ∧
    (dissect_bt_dht_nodes fuel tvb offset label ipv6).events.filter is_truncated_item
      = (if 0 < L % w then
           [Event.add_item Hf.hf_truncated_data Enc.ENC_NA (offset + (decimal L).length + 1 + L / w * w)
              (some (L % w))]
         else []) ∧
    (dissect_bt_dht_nodes fuel tvb offset label ipv6).result = some (decimal (L / w)) ∧
    Event.set_text Hf.hf_bt_dht_nodes (offset + (decimal L).length + 1)
        [Piece.lit label, Piece.lit ": ", Piece.num (L / w), Piece.lit " nodes"]
      ∈ (dissect_bt_dht_nodes fuel tvb offset label ipv6).events ∧
    (∀ k : Nat, L = w * k →
      ((dissect_bt_dht_nodes fuel tvb offset label ipv6).events.filter is_node_item).length = k ∧
      (dissect_bt_dht_nodes fuel tvb offset label ipv6).events.filter is_truncated_item = []) := by
  subst hw
  have hw0 : 0 < (if ipv6 then 38 else 26) := by cases ipv6 <;> simp
  have hdiv : L / (if ipv6 then 38 else 26) ≤ L := Nat.div_le_self _ _
  have hE := @dissect_bt_dht_nodes_encode tvb offset L fuel label ipv6 (by omega) hh hbytes
    (by unfold fuel_for at hfuel; omega)
  have hn := filter_flatMap_one is_node_item
    (fun i => node_record tvb
      (offset + (decimal L).length + 1 + i * (if ipv6 then 38 else 26)) (i + 1) ipv6)
    (fun i => Event.add_item Hf.hf_bt_dht_node Enc.ENC_NA
      (offset + (decimal L).length + 1 + i * (if ipv6 then 38 else 26))
      (some (if ipv6 then 38 else 26)))
    (fun i => node_record_node_items tvb _ _ ipv6) (List.range (L / (if ipv6 then 38 else 26)))
  have ht := filter_flatMap_none is_truncated_item
    (fun i => node_record tvb
      (offset + (decimal L).length + 1 + i * (if ipv6 then 38 else 26)) (i + 1) ipv6)
    (fun i => node_record_truncated_items tvb _ _ ipv6)
    (List.range (L / (if ipv6 then 38 else 26)))
  have hcount : ((dissect_bt_dht_nodes fuel tvb offset label ipv6).events.filter
      is_node_item).length = L / (if ipv6 then 38 else 26) := by
    rw [hE]
    simp only [List.filter_cons, List.filter_append, hn]
    by_cases hm : 0 < L % (if ipv6 then 38 else 26) <;>
      simp [hm, is_node_item, List.filter]
  have htrunc : (dissect_bt_dht_nodes fuel tvb offset label ipv6).events.filter
      is_truncated_item
      = (if 0 < L % (if ipv6 then 38 else 26) then
           [Event.add_item Hf.hf_truncated_data Enc.ENC_NA
              (offset + (decimal L).length + 1 +
                L / (if ipv6 then 38 else 26) * (if ipv6 then 38 else 26))
              (some (L % (if ipv6 then 38 else 26)))]
         else []) := by
    rw [hE]
    simp only [List.filter_cons, List.filter_append, ht]
    by_cases hm : 0 < L % (if ipv6 then 38 else 26) <;>
      simp [hm, is_truncated_item, List.filter]
  refine ⟨by rw [hE], hcount, htrunc, by rw [hE], by rw [hE]; simp, ?_⟩
  intro k hk
  have hk1 : L / (if ipv6 then 38 else 26) = k := by
    rw [hk]; exact Nat.mul_div_cancel_left k hw0
  have hk2 : L % (if ipv6 then 38 else 26) = 0 := by
    rw [hk]; exact Nat.mul_mod_right _ _
  rw [hcount, htrunc, hk1, hk2]
  simp

/-- Witness of C14: a `nodes` string of 27 bytes gives one record and one byte
of truncated data. -/
theorem dissect_bt_dht_nodes_counts_witness :
    (dissect_bt_dht_nodes 94 (str "27:aaaaaaaaaaaaaaaaaaaabbbbccX") 0 "Value" false).ret
      = Ret.ret (0 + (decimal 27).length + 1 + 27) ∧
    ((dissect_bt_dht_nodes 94 (str "27:aaaaaaaaaaaaaaaaaaaabbbbccX") 0 "Value" false).events.filter
      is_node_item).length = 27 / 26 :=
  ⟨(dissect_bt_dht_nodes_counts (str "27:aaaaaaaaaaaaaaaaaaaabbbbccX") 0 27 26 94 "Value" false
      rfl (by decide) (by decide) (by decide) (by decide)).1,
   (dissect_bt_dht_nodes_counts (str "27:aaaaaaaaaaaaaaaaaaaabbbbccX") 0 27 26 94 "Value" false
      rfl (by decide) (by decide) (by decide) (by decide)).2.1⟩

/-- C15: in `dissect_bt_dht_nodes` the records are tightly packed.  With the
length prefix `<L>:` at `offset`, the `L` bytes in the buffer and `data` the
offset of the first data byte, the node items are, in order, the items of `w`
bytes at `data + i * w` for `i` below the node count `L / w`; record `i` lies
inside the string, the next record starts where it ends, and its events are
those of `node_record` at `data + i * w` with the number `i + 1`: an id item
over its first 20 bytes, an address item over the next 4 (IPv4) or 16 (IPv6)
bytes and a port item over its last 2 bytes, whose value is 256 times the
first of them plus the second. -/
theorem dissect_bt_dht_nodes_records (tvb : Tvb) (offset L w fuel : Nat) (label : String)
    (ipv6 : Bool) (hw : w = if ipv6 then 38 else 26) (hsize : tvb.length < 2 ^ 31)
    (hh : holds_at tvb offset (decimal L ++ [58]))
    (hbytes : offset + (decimal L).length + 1 + L ≤ tvb.length)
    (hfuel : fuel_for tvb ≤ fuel) :
    (dissect_bt_dht_nodes fuel tvb offset label ipv6).events.filter is_node_item
      = (List.range (L / w)).map
          (fun i => Event.add_item Hf.hf_bt_dht_node Enc.ENC_NA (offset + (decimal L).length + 1 + i * w)
            (some w)) ∧
    ∀ i : Nat, i < L / w →
      offset + (decimal L).length + 1 + i * w + w ≤ offset + (decimal L).length + 1 + L ∧
      offset + (decimal L).length + 1 + (i + 1) * w
        = offset + (decimal L).length + 1 + i * w + w ∧
      (∃ pre post, (dissect_bt_dht_nodes fuel tvb offset label ipv6).events
        = pre ++ node_record tvb (offset + (decimal L).length + 1 + i * w) (i + 1) ipv6 ++ post) ∧
      Event.add_item Hf.hf_bt_dht_id Enc.ENC_NA (offset + (decimal L).length + 1 + i * w) (some 20)
        ∈ (dissect_bt_dht_nodes fuel tvb offset label ipv6).events ∧
      Event.add_item (if ipv6 then Hf.hf_ip6 else Hf.hf_ip)
     (if ipv6 then Enc.ENC_NA else Enc.ENC_BIG_ENDIAN)
          (offset + (decimal L).length + 1 + i * w + 20) (some (w - 22))
        ∈ (dissect_bt_dht_nodes fuel tvb offset label ipv6).events ∧
      Event.add_item Hf.hf_port Enc.ENC_BIG_ENDIAN (offset + (decimal L).length + 1 + i * w + (w - 2)) (some 2)
        ∈ (dissect_bt_dht_nodes fuel tvb offset label ipv6).events ∧
      item_uint_value tvb
          (Event.add_item Hf.hf_port Enc.ENC_BIG_ENDIAN (offset + (decimal L).length + 1 + i * w + (w - 2)) (some 2))
        = some (256 * byte_at tvb (offset + (decimal L).length + 1 + i * w + (w - 2))
                + byte_at tvb (offset + (decimal L).length + 1 + i * w + (w - 2) + 1)) ∧
      Event.append_text Hf.hf_bt_dht_node (offset + (decimal L).length + 1 + i * w)
          [Piece.lit ":",
           Piece.num (256 * byte_at tvb (offset + (decimal L).length + 1 + i * w + (w - 2))
                      + byte_at tvb (offset + (decimal L).length + 1 + i * w + (w - 2) + 1)),
           Piece.lit ")"]
        ∈ (dissect_bt_dht_nodes fuel tvb offset label ipv6).events := by
  subst hw
  have hw0 : 0 < (if ipv6 then 38 else 26) := by cases ipv6 <;> simp
  have hdiv : L / (if ipv6 then 38 else 26) ≤ L := Nat.div_le_self _ _
  have hE := @dissect_bt_dht_nodes_encode tvb offset L fuel label ipv6 (by omega) hh hbytes
    (by unfold fuel_for at hfuel; omega)
  have hn := filter_flatMap_one is_node_item
    (fun i => node_record tvb
      (offset + (decimal L).length + 1 + i * (if ipv6 then 38 else 26)) (i + 1) ipv6)
    (fun i => Event.add_item Hf.hf_bt_dht_node Enc.ENC_NA
      (offset + (decimal L).length + 1 + i * (if ipv6 then 38 else 26))
      (some (if ipv6 then 38 else 26)))
    (fun i => node_record_node_items tvb _ _ ipv6) (List.range (L / (if ipv6 then 38 else 26)))
  refine ⟨?_, ?_⟩
  · rw [hE]
    simp only [List.filter_cons, List.filter_append, hn]
    by_cases hm : 0 < L % (if ipv6 then 38 else 26) <;>
      simp [hm, is_node_item, List.filter]
  · intro i hi
    have hmul : (i + 1) * (if ipv6 then 38 else 26) ≤ L :=
      Nat.le_trans (Nat.mul_le_mul_right _ hi) (Nat.div_mul_le_self L _)
    have hsucc : (i + 1) * (if ipv6 then 38 else 26)
        = i * (if ipv6 then 38 else 26) + (if ipv6 then 38 else 26) := Nat.succ_mul _ _
    obtain ⟨pre, post, hblock⟩ := flatMap_block
      (fun i => node_record tvb
        (offset + (decimal L).length + 1 + i * (if ipv6 then 38 else 26)) (i + 1) ipv6)
      (List.range (L / (if ipv6 then 38 else 26))) i (List.mem_range.mpr hi)
    have hev : ∃ pre post, (dissect_bt_dht_nodes fuel tvb offset label ipv6).events
        = pre ++ node_record tvb
            (offset + (decimal L).length + 1 + i * (if ipv6 then 38 else 26)) (i + 1) ipv6
          ++ post := by
      rw [hE]
      simp only []
      rw [List.append_assoc]
      exact block_in_context _ _ _ _ _ _ hblock
    have hmem : ∀ e, e ∈ node_record tvb
        (offset + (decimal L).length + 1 + i * (if ipv6 then 38 else 26)) (i + 1) ipv6 →
        e ∈ (dissect_bt_dht_nodes fuel tvb offset label ipv6).events := by
      intro e he
      obtain ⟨p1, p2, hp⟩ := hev
      rw [hp]
      exact List.mem_append_left _ (List.mem_append_right _ he)
    have hport : offset + (decimal L).length + 1 + i * (if ipv6 then 38 else 26)
        + ((if ipv6 then 38 else 26) - 2) + 2 ≤ tvb.length := by
      have : 2 ≤ (if ipv6 then 38 else 26) := by cases ipv6 <;> simp
      omega
    refine ⟨by omega, by omega, hev, hmem _ ?_, hmem _ ?_, hmem _ ?_, ?_, hmem _ ?_⟩
    · cases ipv6 <;> simp [node_record]
    · cases ipv6 <;> simp [node_record]
    · cases ipv6 <;> simp [node_record]
    · simp only [item_uint_value]
      rw [tvb_get_ntohs_be16 hport]
      rfl
    · cases ipv6 <;> simp [node_record, be16]

/-- Witness of C15: the second record of a `nodes6` string of 76 bytes. -/
theorem dissect_bt_dht_nodes_records_witness :
    Event.add_item Hf.hf_port Enc.ENC_BIG_ENDIAN (0 + (decimal 76).length + 1 + 1 * 38 + (38 - 2)) (some 2)
      ∈ (dissect_bt_dht_nodes 241
          (str "76:" ++ List.replicate 76 65) 0 "Value" true).events :=
  ((dissect_bt_dht_nodes_records (str "76:" ++ List.replicate 76 65) 0 76 38 241 "Value" true
      rfl (by decide) (by decide) (by decide) (by decide)).2 1 (by decide)).2.2.2.2.2.1

/-- C16: for a `values` list `l<s1>...<sk>e` held at `offset`, whose elements
`ss` are byte-strings of at least one byte each (all bytes in the buffer),
`dissect_bt_dht_values` returns the offset right after the terminating `e`,
reports as peer count the number of elements of length 6 or 18 (in its result
and in the text of the peers item), and its events are, between the peers item
and the terminator item, the records of the elements in order, each classified
by its own length: for an element `s` that follows the elements `pre`, a peer
item with an IPv4 address item when `s` has 6 bytes, a peer item with an IPv6
address item when it has 18 bytes, and a truncated-data item over its bytes for
any other length. -/
theorem dissect_bt_dht_values_classifies (tvb : Tvb) (offset fuel : Nat) (label : String)
    (ss : List (List Nat)) (hsize : tvb.length < 2 ^ 31) (hne : ∀ s ∈ ss, 1 ≤ s.length)
    (hh : holds_at tvb offset (108 :: encode_strings ss ++ [101]))
    (hfuel : fuel_for tvb ≤ fuel) :
    (dissect_bt_dht_values fuel tvb offset label).ret
      = Ret.ret (offset + (108 :: encode_strings ss ++ [101]).length) ∧
    (dissect_bt_dht_values fuel tvb offset label).result
      = some (decimal (ss.countP is_peer) ++ str " peers") ∧
    (dissect_bt_dht_values fuel tvb offset label).events
      = Event.add_item Hf.hf_bt_dht_peers Enc.ENC_NA offset (some 0) ::
          (values_records tvb ss (offset + 1) 0 ++
            [Event.add_item Hf.hf_bencoded_list_terminator Enc.ENC_ASCII_NA
               (offset + 1 + (encode_strings ss).length) (some 1),
             Event.set_text Hf.hf_bt_dht_peers offset
               [Piece.lit label, Piece.lit ": ", Piece.num (ss.countP is_peer),
                Piece.lit " peers"],
             Event.col_append
               [Piece.lit " reply=", Piece.num (ss.countP is_peer), Piece.lit " peers"]]) ∧
    (∀ (pre post : List (List Nat)) (s : List Nat), ss = pre ++ s :: post →
      (s.length = 6 →
        Event.add_item Hf.hf_bt_dht_peer Enc.ENC_NA
            (offset + 1 + (encode_strings pre).length + (decimal s.length).length + 1) (some 6)
          ∈ (dissect_bt_dht_values fuel tvb offset label).events ∧
        Event.add_item Hf.hf_ip Enc.ENC_BIG_ENDIAN
            (offset + 1 + (encode_strings pre).length + (decimal s.length).length + 1) (some 4)
          ∈ (dissect_bt_dht_values fuel tvb offset label).events) ∧
      (s.length = 18 →
        Event.add_item Hf.hf_bt_dht_peer Enc.ENC_NA
            (offset + 1 + (encode_strings pre).length + (decimal s.length).length + 1) (some 18)
          ∈ (dissect_bt_dht_values fuel tvb offset label).events ∧
        Event.add_item Hf.hf_ip6 Enc.ENC_NA
            (offset + 1 + (encode_strings pre).length + (decimal s.length).length + 1) (some 16)
          ∈ (dissect_bt_dht_values fuel tvb offset label).events) ∧
      (s.length ≠ 6 → s.length ≠ 18 →
        Event.add_item Hf.hf_truncated_data Enc.ENC_NA
            (offset + 1 + (encode_strings pre).length + (decimal s.length).length + 1)
            (some s.length)
          ∈ (dissect_bt_dht_values fuel tvb offset label).events)) := by
  have hne2 : ∀ s ∈ ss, s ≠ [] := by
    intro s hs hc
    have := hne s hs
    rw [hc] at this
    simp at this
  have hh2 : holds_at tvb (offset + 1) (encode_strings ss ++ [101]) := by
    have e : 108 :: encode_strings ss ++ [101] = [108] ++ (encode_strings ss ++ [101]) := rfl
    rw [e] at hh
    exact (holds_at_append.mp hh).2
  have hlen := holds_at_le hh2 (by simp)
  have hcnt := encode_strings_length_ge ss
  simp only [List.length_append, List.length_singleton] at hlen
  have hE := @dissect_bt_dht_values_encode tvb offset ss fuel label (by omega) hne2 hh2
    (by unfold fuel_for at hfuel; omega)
  refine ⟨?_, by rw [hE], by rw [hE], ?_⟩
  · rw [hE]
    simp only [List.length_cons, List.length_append, List.length_singleton, List.length_nil,
      List.cons_append]
    congr 1
    omega
  · intro pre post s hss
    have hrec : ∀ e, e ∈ values_records tvb [s] (offset + 1 + (encode_strings pre).length)
        (0 + pre.countP is_peer) → e ∈ (dissect_bt_dht_values fuel tvb offset label).events := by
      intro e he
      have hsplit : pre ++ s :: post = pre ++ ([s] ++ post) := by simp
      rw [hE, hss, hsplit, values_records_append, values_records_append]
      simp only [List.mem_cons, List.mem_append]
      exact Or.inr (Or.inl (Or.inr (Or.inl he)))
    refine ⟨?_, ?_, ?_⟩
    · intro h6
      have hp : is_peer s = true := by simp [is_peer, h6]
      refine ⟨hrec _ ?_, hrec _ ?_⟩ <;>
        simp [values_records, hp, peer_record, h6, Nat.add_assoc]
    · intro h18
      have hp : is_peer s = true := by simp [is_peer, h18]
      refine ⟨hrec _ ?_, hrec _ ?_⟩ <;>
        simp [values_records, hp, peer_record, h18, Nat.add_assoc]
    · intro h6 h18
      have hp : is_peer s = false := by simp [is_peer, h6, h18]
      refine hrec _ ?_
      simp [values_records, hp, Nat.add_assoc]

/-- Witness of C16: the list `l6:abcdef3:xyz18:ABCDEFGHIJKLMNOPQRe` has two
peers and one truncated element. -/
theorem dissect_bt_dht_values_classifies_witness :
    (dissect_bt_dht_values 118 (str "l6:abcdef3:xyz18:ABCDEFGHIJKLMNOPQRe") 0 "Value").result
      = some (decimal ([str "abcdef", str "xyz", str "ABCDEFGHIJKLMNOPQR"].countP is_peer)
          ++ str " peers") :=
  (dissect_bt_dht_values_classifies (str "l6:abcdef3:xyz18:ABCDEFGHIJKLMNOPQRe") 0 118 "Value"
    [str "abcdef", str "xyz", str "ABCDEFGHIJKLMNOPQR"] (by decide) (by decide) (by decide)
    (by decide)).2.1

/-- C18: address and port of a peer.  In a `values` list held at `offset`, for
an element of six bytes `b0 .. b5` that follows the elements `pre`, the peer
item has the IPv4 address `b0.b1.b2.b3` (its first four bytes) and the port
`256 * b4 + b5`; for an element of 18 bytes the address is its first 16 bytes
and the port is `256 * b16 + b17`.  The one-element list holding the bytes
7F 00 00 01 1A E1 yields exactly one peer, 127.0.0.1 port 6881. -/
theorem dissect_bt_dht_values_peer (tvb : Tvb) (offset fuel : Nat) (label : String)
    (pre post : List (List Nat)) (s : List Nat) (hsize : tvb.length < 2 ^ 31)
    (hne : ∀ t ∈ pre ++ s :: post, 1 ≤ t.length)
    (hh : holds_at tvb offset (108 :: encode_strings (pre ++ s :: post) ++ [101]))
    (hfuel : fuel_for tvb ≤ fuel) :
    (∀ b0 b1 b2 b3 b4 b5 : Nat, s = [b0, b1, b2, b3, b4, b5] →
      Event.add_item Hf.hf_bt_dht_peer Enc.ENC_NA (offset + 1 + (encode_strings pre).length + 2) (some 6)
        ∈ (dissect_bt_dht_values fuel tvb offset label).events ∧
      Event.add_item Hf.hf_ip Enc.ENC_BIG_ENDIAN (offset + 1 + (encode_strings pre).length + 2) (some 4)
        ∈ (dissect_bt_dht_values fuel tvb offset label).events ∧
      Event.append_text Hf.hf_bt_dht_peer (offset + 1 + (encode_strings pre).length + 2)
          [Piece.lit " (IP/Port: ", Piece.ipv4 [b0, b1, b2, b3]]
        ∈ (dissect_bt_dht_values fuel tvb offset label).events ∧
      Event.add_item Hf.hf_port Enc.ENC_BIG_ENDIAN (offset + 1 + (encode_strings pre).length + 2 + 4) (some 2)
        ∈ (dissect_bt_dht_values fuel tvb offset label).events ∧
      item_uint_value tvb
          (Event.add_item Hf.hf_port Enc.ENC_BIG_ENDIAN (offset + 1 + (encode_strings pre).length + 2 + 4) (some 2))
        = some (256 * b4 + b5) ∧
      Event.append_text Hf.hf_bt_dht_peer (offset + 1 + (encode_strings pre).length + 2)
          [Piece.lit ":", Piece.num (256 * b4 + b5), Piece.lit ")"]
        ∈ (dissect_bt_dht_values fuel tvb offset label).events) ∧
    (∀ (addr : List Nat) (b16 b17 : Nat), s = addr ++ [b16, b17] → addr.length = 16 →
      Event.add_item Hf.hf_bt_dht_peer Enc.ENC_NA (offset + 1 + (encode_strings pre).length + 3) (some 18)
        ∈ (dissect_bt_dht_values fuel tvb offset label).events ∧
      Event.add_item Hf.hf_ip6 Enc.ENC_NA (offset + 1 + (encode_strings pre).length + 3) (some 16)
        ∈ (dissect_bt_dht_values fuel tvb offset label).events ∧
      Event.append_text Hf.hf_bt_dht_peer (offset + 1 + (encode_strings pre).length + 3)
          [Piece.lit " (IPv6/Port: [", Piece.ipv6 addr, Piece.lit "]"]
        ∈ (dissect_bt_dht_values fuel tvb offset label).events ∧
      Event.add_item Hf.hf_port Enc.ENC_BIG_ENDIAN (offset + 1 + (encode_strings pre).length + 3 + 16) (some 2)
        ∈ (dissect_bt_dht_values fuel tvb offset label).events ∧
      item_uint_value tvb
          (Event.add_item Hf.hf_port Enc.ENC_BIG_ENDIAN (offset + 1 + (encode_strings pre).length + 3 + 16) (some 2))
        = some (256 * b16 + b17) ∧
      Event.append_text Hf.hf_bt_dht_peer (offset + 1 + (encode_strings pre).length + 3)
          [Piece.lit ":", Piece.num (256 * b16 + b17), Piece.lit ")"]
        ∈ (dissect_bt_dht_values fuel tvb offset label).events) ∧
    (∀ (n : Nat) (l : String), 2 ≤ n →
      dissect_bt_dht_values n [108, 54, 58, 127, 0, 0, 1, 26, 225, 101] 0 l =
        ⟨Ret.ret 10,
         [Event.add_item Hf.hf_bt_dht_peers Enc.ENC_NA 0 (some 0),
          Event.add_item Hf.hf_bt_dht_peer Enc.ENC_NA 3 (some 6),
          Event.append_text Hf.hf_bt_dht_peer 3 [Piece.lit " ", Piece.num 1],
          Event.add_item Hf.hf_ip Enc.ENC_BIG_ENDIAN 3 (some 4),
          Event.append_text Hf.hf_bt_dht_peer 3
            [Piece.lit " (IP/Port: ", Piece.ipv4 [127, 0, 0, 1]],
          Event.add_item Hf.hf_port Enc.ENC_BIG_ENDIAN 7 (some 2),
          Event.append_text Hf.hf_bt_dht_peer 3 [Piece.lit ":", Piece.num 6881, Piece.lit ")"],
          Event.add_item Hf.hf_bencoded_list_terminator Enc.ENC_ASCII_NA 9 (some 1),
          Event.set_text Hf.hf_bt_dht_peers 0
            [Piece.lit l, Piece.lit ": ", Piece.num 1, Piece.lit " peers"],
          Event.col_append [Piece.lit " reply=", Piece.num 1, Piece.lit " peers"]],
         some (str "1 peers")⟩) := by
  have hne2 : ∀ t ∈ pre ++ s :: post, t ≠ [] := by
    intro t ht hc
    have := hne t ht
    rw [hc] at this
    simp at this
  have hh2 : holds_at tvb (offset + 1) (encode_strings (pre ++ s :: post) ++ [101]) := by
    have e : 108 :: encode_strings (pre ++ s :: post) ++ [101]
        = [108] ++ (encode_strings (pre ++ s :: post) ++ [101]) := rfl
    rw [e] at hh
    exact (holds_at_append.mp hh).2
  have hlen := holds_at_le hh2 (by simp)
  have hcnt := encode_strings_length_ge (pre ++ s :: post)
  simp only [List.length_append, List.length_singleton] at hlen
  have hE := @dissect_bt_dht_values_encode tvb offset (pre ++ s :: post) fuel label (by omega)
    hne2 hh2 (by unfold fuel_for at hfuel; omega)
  have hrec : ∀ e, e ∈ values_records tvb [s] (offset + 1 + (encode_strings pre).length)
      (0 + pre.countP is_peer) → e ∈ (dissect_bt_dht_values fuel tvb offset label).events := by
    intro e he
    have hsplit : pre ++ s :: post = pre ++ ([s] ++ post) := by simp
    rw [hE, hsplit, values_records_append, values_records_append]
    simp only [List.mem_cons, List.mem_append]
    exact Or.inr (Or.inl (Or.inr (Or.inl he)))
  have hs := holds_at_element hh
  refine ⟨?_, ?_, ?_⟩
  · intro b0 b1 b2 b3 b4 b5 h6
    subst h6
    have hd : (decimal [b0, b1, b2, b3, b4, b5].length).length = 1 := by
      show (decimal 6).length = 1
      decide
    rw [hd] at hs
    obtain ⟨ha, hp⟩ := holds_at_append.mp
      (show holds_at tvb (offset + 1 + (encode_strings pre).length + 1 + 1)
        ([b0, b1, b2, b3] ++ [b4, b5]) from hs)
    have htake : (tvb.drop (offset + 1 + (encode_strings pre).length + 1 + 1)).take 4
        = [b0, b1, b2, b3] := holds_at_take ha
    have hp2 : holds_at tvb (offset + 1 + (encode_strings pre).length + 1 + 1 + 4) [b4, b5] := hp
    obtain ⟨hple, hport⟩ := be16_holds hp2
    have hp6 : is_peer [b0, b1, b2, b3, b4, b5] = true := by simp [is_peer]
    have hrec2 : ∀ e, e ∈ peer_record tvb (offset + 1 + (encode_strings pre).length + 1 + 1)
        (0 + pre.countP is_peer + 1) 6 →
        e ∈ (dissect_bt_dht_values fuel tvb offset label).events := by
      intro e he
      apply hrec
      simp only [values_records, hp6, if_true, List.append_nil, hd]
      exact he
    have hst : offset + 1 + (encode_strings pre).length + 2
        = offset + 1 + (encode_strings pre).length + 1 + 1 := by omega
    rw [hst]
    refine ⟨hrec2 _ ?_, hrec2 _ ?_, hrec2 _ ?_, hrec2 _ ?_, ?_, hrec2 _ ?_⟩
    · simp [peer_record]
    · simp [peer_record]
    · simp [peer_record, htake]
    · simp [peer_record]
    · simp only [item_uint_value]
      rw [tvb_get_ntohs_be16 (by omega), hport]
    · simp [peer_record, hport]
  · intro addr b16 b17 h18 haddr
    subst h18
    have hl : (addr ++ [b16, b17]).length = 18 := by simp [haddr]
    have hd : (decimal (addr ++ [b16, b17]).length).length = 2 := by rw [hl]; decide
    rw [hd] at hs
    obtain ⟨ha, hp⟩ := holds_at_append.mp hs
    have htake := holds_at_take ha
    obtain ⟨hple, hport⟩ := be16_holds hp
    rw [haddr] at htake hple hport
    have hp18 : is_peer (addr ++ [b16, b17]) = true := by simp [is_peer, hl]
    have hrec2 : ∀ e, e ∈ peer_record tvb (offset + 1 + (encode_strings pre).length + 2 + 1)
        (0 + pre.countP is_peer + 1) 18 →
        e ∈ (dissect_bt_dht_values fuel tvb offset label).events := by
      intro e he
      apply hrec
      simp only [values_records, hp18, if_true, List.append_nil, hd, hl]
      exact he
    have hst : offset + 1 + (encode_strings pre).length + 3
        = offset + 1 + (encode_strings pre).length + 2 + 1 := by omega
    rw [hst]
    refine ⟨hrec2 _ ?_, hrec2 _ ?_, hrec2 _ ?_, hrec2 _ ?_, ?_, hrec2 _ ?_⟩
    · simp [peer_record]
    · simp [peer_record]
    · simp [peer_record, htake]
    · simp [peer_record]
    · simp only [item_uint_value]
      rw [tvb_get_ntohs_be16 (by omega), hport]
    · simp [peer_record, hport]
  · intro n l hn
    rw [@dissect_bt_dht_values_encode [108, 54, 58, 127, 0, 0, 1, 26, 225, 101] 0
      [[127, 0, 0, 1, 26, 225]] n l (by decide) (by decide) (by decide) hn]
    have hv : values_records [108, 54, 58, 127, 0, 0, 1, 26, 225, 101]
        [[127, 0, 0, 1, 26, 225]] (0 + 1) 0 =
        [Event.add_item Hf.hf_bt_dht_peer Enc.ENC_NA 3 (some 6),
         Event.append_text Hf.hf_bt_dht_peer 3 [Piece.lit " ", Piece.num 1],
         Event.add_item Hf.hf_ip Enc.ENC_BIG_ENDIAN 3 (some 4),
         Event.append_text Hf.hf_bt_dht_peer 3
           [Piece.lit " (IP/Port: ", Piece.ipv4 [127, 0, 0, 1]],
         Event.add_item Hf.hf_port Enc.ENC_BIG_ENDIAN 7 (some 2),
         Event.append_text Hf.hf_bt_dht_peer 3
           [Piece.lit ":", Piece.num 6881, Piece.lit ")"]] := by decide
    have hc : List.countP is_peer [[127, 0, 0, 1, 26, 225]] = 1 := by decide
    have hl : (encode_strings [[127, 0, 0, 1, 26, 225]]).length = 8 := by decide
    have hdec : decimal 1 ++ str " peers" = str "1 peers" := by decide
    rw [hv, hc, hl, hdec]
    rfl

/-- Witness of C18: the list `l6:<7F 00 00 01 1A E1>e` holds the peer 127.0.0.1
with the port 6881 = 256 * 26 + 225. -/
theorem dissect_bt_dht_values_peer_witness :
    Event.append_text Hf.hf_bt_dht_peer (0 + 1 + (encode_strings []).length + 2)
        [Piece.lit " (IP/Port: ", Piece.ipv4 [127, 0, 0, 1]]
      ∈ (dissect_bt_dht_values 34 [108, 54, 58, 127, 0, 0, 1, 26, 225, 101] 0 "Value").events ∧
    Event.append_text Hf.hf_bt_dht_peer (0 + 1 + (encode_strings []).length + 2)
        [Piece.lit ":", Piece.num (256 * 26 + 225), Piece.lit ")"]
      ∈ (dissect_bt_dht_values 34 [108, 54, 58, 127, 0, 0, 1, 26, 225, 101] 0 "Value").events :=
  ⟨((dissect_bt_dht_values_peer [108, 54, 58, 127, 0, 0, 1, 26, 225, 101] 0 34 "Value" [] []
      [127, 0, 0, 1, 26, 225] (by decide) (by decide) (by decide) (by decide)).1
      127 0 0 1 26 225 rfl).2.2.1,
   ((dissect_bt_dht_values_peer [108, 54, 58, 127, 0, 0, 1, 26, 225, 101] 0 34 "Value" [] []
      [127, 0, 0, 1, 26, 225] (by decide) (by decide) (by decide) (by decide)).1
      127 0 0 1 26 225 rfl).2.2.2.2.2⟩

/-- C19: the value of a dictionary entry under the key `ip` (a key that
`strcmp` finds equal to `ip`), when the value is a byte-string (its first byte
`b` is none of `d`, `l`, `i`).  The value is dissected by the `ip` branch, and
the entry `2:ip<value>` returns what that branch returns.  When the declared
length (the length that `bencoded_string_length` reads at the value's offset)
is 6 and the six bytes `b0 .. b5` are in the buffer at the first data byte `d`,
the branch adds an IPv4 address item over the first four bytes and a port item
over the next two bytes with the encoding `ENC_BIG_ENDIAN`, so that the value
of the port item is `256 * b4 + b5`; its result is the address `b0.b1.b2.b3`
in dotted decimal, and it returns `d + 6`.  For every other outcome of the
length prefix (another length, the length 0, a prefix that does not parse, a
buffer that ends before the `:`) the branch is identical, in returned offset,
result and events, to `dissect_bencoded_string` with hex rendering at the
value's offset. -/
theorem dict_entry_ip_value (tvb : Tvb) (offset fuel b : Nat) (key : List Nat)
    (hb1 : b ≠ 100) (hb2 : b ≠ 108) (hb3 : b ≠ 105) (hkey : strcmp key (str "ip") = 0) :
    dissect_bencoded_dict_entry_value (fuel + 1) tvb offset key b
      = dissect_bencoded_dict_entry_ip tvb offset ∧
    (∀ e : Nat, tvb.length < 2 ^ 31 → holds_at tvb e (str "2:ip") → offset = e + 4 →
      tvb[offset]? = some b →
      (dissect_bencoded_dict_entry (fuel + 2) tvb e).ret
        = (dissect_bencoded_dict_entry_ip tvb offset).ret) ∧
    (∀ d b0 b1 b2 b3 b4 b5 : Nat, bencoded_string_length tvb offset = some (6, d) →
      holds_at tvb d [b0, b1, b2, b3, b4, b5] →
      dissect_bencoded_dict_entry_ip tvb offset =
        ⟨Ret.ret (d + 6),
         [Event.add_item Hf.hf_ip Enc.ENC_BIG_ENDIAN d (some 4),
          Event.add_item Hf.hf_port Enc.ENC_BIG_ENDIAN (d + 4) (some 2)],
         some (decimal b0 ++ [46] ++ decimal b1 ++ [46] ++ decimal b2 ++ [46] ++ decimal b3)⟩ ∧
      (dissect_bencoded_dict_entry_ip tvb offset).events.map (item_uint_value tvb)
        = [none, some (256 * b4 + b5)]) ∧
    (tvb.length < 2 ^ 31 → holds_at tvb offset (str "6:") →
      bencoded_string_length tvb offset = some (6, offset + 2)) ∧
    ((∀ d : Nat, bencoded_string_length tvb offset ≠ some (6, d)) →
      dissect_bencoded_dict_entry_ip tvb offset
        = dissect_bencoded_string tvb offset true "Value") ∧
    (∀ n : Nat, n ≠ 6 → n < 2 ^ 32 → holds_at tvb offset (decimal n ++ [58]) →
      dissect_bencoded_dict_entry_ip tvb offset
        = dissect_bencoded_string tvb offset true "Value") := by
  have hdispatch : ∀ k : List Nat, strcmp k (str "ip") = 0 →
      dissect_bencoded_dict_entry_value (fuel + 1) tvb offset k b
        = dissect_bencoded_dict_entry_ip tvb offset := by
    intro k hk
    rw [dissect_bencoded_dict_entry_value]
    rw [if_neg hb1, if_neg hb2, if_neg hb3, if_neg (strcmp_ne_of_eq hk (by decide)),
      if_neg (strcmp_ne_of_eq hk (by decide)), if_pos hk]
  refine ⟨hdispatch key hkey, ?_, ?_, ?_, ?_, ?_⟩
  · intro e hsize hkey hoff hb
    have henc : str "2:ip" = encode_string (str "ip") := by decide
    rw [henc] at hkey
    obtain ⟨hk1, hk2⟩ := @dissect_bencoded_string_encode tvb e (str "ip") false "Key"
      (by decide) (by omega) hkey
    have hlenk : (encode_string (str "ip")).length = 4 := by decide
    rw [hlenk, ← hoff] at hk1
    have hkeyres : printf_s (dissect_bencoded_string tvb e false "Key").result = str "ip" := by
      rw [hk2]; rfl
    rw [dissect_bencoded_dict_entry_ret_value (fuel + 1) hk1 (by omega)
      (by simpa [tvb_get_guint8] using hb), hkeyres, hdispatch _ (by decide)]
  · intro d b0 b1 b2 b3 b4 b5 hlen hh
    have hsix := dissect_bencoded_dict_entry_ip_six b0 b1 b2 b3 b4 b5 hlen hh
    refine ⟨hsix, ?_⟩
    rw [hsix]
    have hp : holds_at tvb (d + 4) [b4, b5] := by
      have e : [b0, b1, b2, b3, b4, b5] = [b0, b1, b2, b3] ++ [b4, b5] := rfl
      rw [e] at hh
      exact (holds_at_append.mp hh).2
    obtain ⟨hple, hport⟩ := be16_holds hp
    simp only [List.map_cons, List.map_nil, item_uint_value]
    rw [tvb_get_ntohs_be16 hple, hport]
  · intro hsize hh
    have h6 : str "6:" = decimal 6 ++ [58] := by decide
    rw [h6] at hh
    have := @bencoded_string_length_decimal tvb offset 6 (by norm_num) hh
    have hd : (decimal 6).length = 1 := by decide
    rw [hd] at this
    exact this
  · intro hne
    exact dissect_bencoded_dict_entry_ip_other hne
  · intro n hn hn32 hh
    apply dissect_bencoded_dict_entry_ip_other
    intro d hc
    rw [bencoded_string_length_decimal hn32 hh] at hc
    simp only [Option.some.injEq, Prod.mk.injEq] at hc
    exact hn hc.1

/-- Witness of C19: the entry `2:ip6:<C0 A8 01 02 1A E1>` gives the address
192.168.1.2 and the port 6881 (`256 * 26 + 225`, the two bytes `1A E1` in the
byte order of the item's `ENC_BIG_ENDIAN`), and returns the offset after the
six bytes. -/
theorem dict_entry_ip_value_witness :
    strcmp (str "ip") (str "ip") = 0 ∧
    dissect_bencoded_dict_entry_ip
        [50, 58, 105, 112, 54, 58, 192, 168, 1, 2, 26, 225, 101] 4 =
      ⟨Ret.ret (6 + 6),
       [Event.add_item Hf.hf_ip Enc.ENC_BIG_ENDIAN 6 (some 4),
        Event.add_item Hf.hf_port Enc.ENC_BIG_ENDIAN (6 + 4) (some 2)],
       some (decimal 192 ++ [46] ++ decimal 168 ++ [46] ++ decimal 1 ++ [46] ++ decimal 2)⟩ ∧
    (dissect_bencoded_dict_entry_ip
        [50, 58, 105, 112, 54, 58, 192, 168, 1, 2, 26, 225, 101] 4).events.map
        (item_uint_value [50, 58, 105, 112, 54, 58, 192, 168, 1, 2, 26, 225, 101])
      = [none, some (256 * 26 + 225)] ∧
    (dissect_bencoded_dict_entry 3
        [50, 58, 105, 112, 54, 58, 192, 168, 1, 2, 26, 225, 101] 0).ret
      = (dissect_bencoded_dict_entry_ip
          [50, 58, 105, 112, 54, 58, 192, 168, 1, 2, 26, 225, 101] 4).ret :=
  ⟨by decide,
   ((dict_entry_ip_value [50, 58, 105, 112, 54, 58, 192, 168, 1, 2, 26, 225, 101] 4 1 54
      (str "ip") (by decide) (by decide) (by decide) (by decide)).2.2.1 6 192 168 1 2 26 225
      (by decide) (by decide)).1,
   ((dict_entry_ip_value [50, 58, 105, 112, 54, 58, 192, 168, 1, 2, 26, 225, 101] 4 1 54
      (str "ip") (by decide) (by decide) (by decide) (by decide)).2.2.1 6 192 168 1 2 26 225
      (by decide) (by decide)).2,
   (dict_entry_ip_value [50, 58, 105, 112, 54, 58, 192, 168, 1, 2, 26, 225, 101] 4 1 54
      (str "ip") (by decide) (by decide) (by decide) (by decide)).2.1 0 (by decide) (by decide)
      (by decide) (by decide)⟩

/-- C21 (the code departs from the claim): in the message
`d1:eli201e12:Server Errore1:t2:aa1:y1:ee` (40 bytes) the error list
`li201e12:Server Errore` (22 bytes) starts at offset 4.  `dissect_bt_dht_error`
returns 25, the offset of the `e` that closes the list, not 4 + 22 = 26; the
entry `e` returns 25 as well, the dictionary loop takes the `e` at 25 for its
own terminator, and `dissect_bencoded_dict` returns 26 instead of the message
length 40: the entries `t` and `y` are not decoded. -/
theorem error_list_terminator_not_consumed :
    holds_at (str "d1:eli201e12:Server Errore1:t2:aa1:y1:ee") 4 (str "li201e12:Server Errore") ∧
    (str "li201e12:Server Errore").length = 22 ∧
    (dissect_bt_dht_error (str "d1:eli201e12:Server Errore1:t2:aa1:y1:ee") 4 "Value").ret
      = Ret.ret 25 ∧
    (dissect_bencoded_dict_entry 123 (str "d1:eli201e12:Server Errore1:t2:aa1:y1:ee") 1).ret
      = Ret.ret 25 ∧
    (str "d1:eli201e12:Server Errore1:t2:aa1:y1:ee").length = 40 ∧
    (dissect_bt_dht (str "d1:eli201e12:Server Errore1:t2:aa1:y1:ee")).ret = Ret.ret 26 ∧
    (∀ e ∈ (dissect_bt_dht (str "d1:eli201e12:Server Errore1:t2:aa1:y1:ee")).events,
      e ≠ Event.add_item Hf.hf_bencoded_dict_entry Enc.ENC_NA 26 (some 0)) := by
  refine ⟨by decide, by decide, by decide, by decide, by decide, by decide, by decide⟩

/-- C22 (the code departs from the claim): the shape of the value under the
key `e` is not checked.  In `d1:el3:abe1:xee` the value is the valid list
`l3:abe1:xe`, whose first element is a byte-string: `dissect_bt_dht_error`
skips its first byte without looking at it, takes `:ab` for the error number,
and the entry succeeds with the summary `error :ab, x`.  In
`d1:eli201e3:abc3:defee` the list holds three elements and the entry succeeds
with the summary `error 201, abc`. -/
theorem error_shape_not_checked :
    holds_at (str "d1:el3:abe1:xee") 4 (str "l3:abe1:xe") ∧
    (dissect_bencoded_dict_entry 48 (str "d1:el3:abe1:xee") 1).ret = Ret.ret 13 ∧
    (dissect_bt_dht_error (str "d1:el3:abe1:xee") 4 "Value").result
      = some (str "error :ab, x") ∧
    (dissect_bt_dht (str "d1:el3:abe1:xee")).ret = Ret.ret 14 ∧
    holds_at (str "d1:eli201e3:abc3:defee") 4 (str "li201e3:abc3:defe") ∧
    (dissect_bencoded_dict_entry 69 (str "d1:eli201e3:abc3:defee") 1).ret = Ret.ret 15 ∧
    (dissect_bt_dht_error (str "d1:eli201e3:abc3:defee") 4 "Value").result
      = some (str "error 201, abc") := by
  refine ⟨by decide, by decide, by decide, by decide, by decide, by decide, by decide⟩

/-- C24: every successful decode step makes progress.  Whenever one of the
decoders returns an offset `r` that is not the failure value 0 from the input
offset `o`, then `o + 3 ≤ r` for a byte-string and for a dictionary entry and
`o + 2 ≤ r` for an integer, a list and a dictionary (the integer decoder never
returns 0).  So an iteration of a container loop that goes on does so at a
strictly greater offset: the list loop after an element, the dictionary loop
after an entry. -/
theorem decode_step_progress (tvb : Tvb) (fuel o r : Nat) (hr : r ≠ 0) :
    (∀ tohex label, (dissect_bencoded_string tvb o tohex label).ret = Ret.ret r → o + 3 ≤ r) ∧
    (∀ label, (dissect_bencoded_int tvb o label).ret = Ret.ret r → o + 2 ≤ r) ∧
    (∀ label, (dissect_bencoded_list fuel tvb o label).ret = Ret.ret r → o + 2 ≤ r) ∧
    (∀ label, (dissect_bencoded_dict fuel tvb o label).ret = Ret.ret r → o + 2 ≤ r) ∧
    ((dissect_bencoded_dict_entry fuel tvb o).ret = Ret.ret r → o + 3 ≤ r) ∧
    (∀ b, tvb_get_guint8 tvb o = some b → b ≠ 101 →
      (dissect_bencoded_list_element fuel tvb o b).ret = Ret.ret r →
      o < r ∧
      (dissect_bencoded_list_loop (fuel + 1) tvb o).ret
        = (dissect_bencoded_list_loop fuel tvb r).ret) ∧
    (∀ orig b, tvb_get_guint8 tvb o = some b → b ≠ 101 →
      (dissect_bencoded_dict_entry fuel tvb o).ret = Ret.ret r →
      o < r ∧
      (dissect_bencoded_dict_loop (fuel + 1) tvb orig o).ret
        = (dissect_bencoded_dict_loop fuel tvb orig r).ret) := by
  obtain ⟨bl, be, _, _, bde, bd, _⟩ := decoders_ret_bounds tvb fuel
  refine ⟨?_, ?_, ?_, ?_, ?_, ?_, ?_⟩
  · intro tohex label h
    have := dissect_bencoded_string_ret h
    omega
  · intro label h
    have := dissect_bencoded_int_ret h
    omega
  · intro label h
    have := bl o label r h
    omega
  · intro label h
    have := bd o label r h
    omega
  · intro h
    have := bde o r h
    omega
  · intro b hb hbe h
    have h1 := be o b r h
    have hlt : o < r := by omega
    refine ⟨hlt, ?_⟩
    rw [dissect_bencoded_list_loop]
    simp only [hb, if_neg hbe, h]
    rw [if_neg (by omega)]
  · intro orig b hb hbe h
    have h1 := bde o r h
    refine ⟨by omega, ?_⟩
    rw [dissect_bencoded_dict_loop]
    simp only [hb, if_neg hbe, h]
    rw [if_neg hr]

/-- Witness of C24: the string `3:abc` at offset 2 of `xx3:abc` returns 7. -/
theorem decode_step_progress_witness :
    (dissect_bencoded_string (str "xx3:abc") 2 false "String").ret = Ret.ret 7 ∧ 2 + 3 ≤ 7 :=
  ⟨by decide,
   (decode_step_progress (str "xx3:abc") 0 2 7 (by decide)).1 false "String" (by decide)⟩

/-- C25 (the code departs from the claim): in `d1:rd5:nodesx:ee` the entry at
offset 5 has the key `nodes` and, at offset 12, a value whose prefix `x` before
the `:` is not a length.  `dissect_bt_dht_nodes` returns the unchanged offset 12
and the entry returns 12: a success with no byte of the value consumed.  The
same holds for `nodes6`, whereas under the generic key `nodez` the entry
returns 0. -/
theorem nodes_bad_prefix_accepted :
    holds_at (str "d1:rd5:nodesx:ee") 5 (str "5:nodes") ∧
    ws_strtou32 (str "x") = none ∧
    (dissect_bt_dht_nodes 47 (str "d1:rd5:nodesx:ee") 12 "Value" false).ret = Ret.ret 12 ∧
    (dissect_bencoded_dict_entry 49 (str "d1:rd5:nodesx:ee") 5).ret = Ret.ret 12 ∧
    (dissect_bencoded_dict_entry 52 (str "d1:rd6:nodes6x:ee") 5).ret = Ret.ret 13 ∧
    (dissect_bencoded_dict_entry 49 (str "d1:rd5:nodezx:ee") 5).ret = Ret.ret 0 := by
  refine ⟨by decide, by decide, by decide, by decide, by decide, by decide⟩

/-- C26 as stated fails: `dissect_bencoded_int` accepts `iabce` with the text
`abc`, which holds no digit, and `ie` with the empty text. -/
theorem integer_text_not_digits :
    (dissect_bencoded_int (str "iabce") 0 "Integer").ret = Ret.ret 5 ∧
    (dissect_bencoded_int (str "iabce") 0 "Integer").result = some (str "abc") ∧
    (∀ b ∈ str "abc", is_digit b = false) ∧
    (dissect_bencoded_int (str "ie") 0 "Integer").ret = Ret.ret 2 ∧
    (dissect_bencoded_int (str "ie") 0 "Integer").result = some [] := by
  refine ⟨by decide, by decide, by decide, by decide, by decide⟩

/-- C26, amended: whenever `dissect_bencoded_int` returns an offset `r`, the
text it returns is the span of bytes between the byte at `offset` (which is not
looked at) and the first `e` after it: the text holds no byte `e`, it is
followed by `e` in the buffer, and `r` is `offset` plus its length plus 2.
Nothing else is required of the text: every span without `e` that is followed
by `e` is accepted, digits or not, empty or not. -/
theorem dissect_bencoded_int_span (tvb : Tvb) (offset : Nat) (label : String) :
    (∀ r : Nat, (dissect_bencoded_int tvb offset label).ret = Ret.ret r →
      ∃ text : List Nat, (dissect_bencoded_int tvb offset label).result = some text ∧
        holds_at tvb (offset + 1) (text ++ [101]) ∧ (∀ b ∈ text, b ≠ 101) ∧
        r = offset + text.length + 2) ∧
    (∀ text : List Nat, (∀ b ∈ text, b ≠ 101) → holds_at tvb (offset + 1) (text ++ [101]) →
      (dissect_bencoded_int tvb offset label).ret = Ret.ret (offset + text.length + 2) ∧
      (dissect_bencoded_int tvb offset label).result = some text) := by
  refine ⟨fun r h => dissect_bencoded_int_success h, ?_⟩
  intro text ht hh
  rw [dissect_bencoded_int_text label ht hh]
  refine ⟨?_, rfl⟩
  simp only [Ret.ret.injEq]
  omega

/-- Witness of C26 (amended): `iabce`. -/
theorem dissect_bencoded_int_span_witness :
    (dissect_bencoded_int (str "iabce") 0 "Integer").ret = Ret.ret (0 + (str "abc").length + 2) ∧
    (dissect_bencoded_int (str "iabce") 0 "Integer").result = some (str "abc") :=
  (dissect_bencoded_int_span (str "iabce") 0 "Integer").2 (str "abc") (by decide) (by decide)

end BtDht

namespace Sabp

/-! ## SABP: the pages of the CB Data element -/

/-- The loop of `dissect_sabp_cb_data` from page `n` on, when the remaining
pages are in the buffer and `dissect_cbs_data` returns an unpacked tvbuff for
each of them. -/
theorem dissect_sabp_cb_data_loop_pages (cbs : List Nat → Nat → Option (Option (List Nat)))
    (tree : Bool) (tvb : List Nat) (nr_pages : Nat) (hlen : 1 + 83 * nr_pages ≤ tvb.length)
    (hcbs : ∀ n : Nat, n < nr_pages → ∃ unpacked,
      cbs ((tvb.drop (1 + 83 * n)).take ((tvb[1 + 83 * n + 82]?).getD 0))
        ((tvb[1 + 83 * n + 82]?).getD 0) = some (some unpacked)) :
    ∀ (k n : Nat), n + k = nr_pages →
      dissect_sabp_cb_data_loop cbs tree tvb nr_pages (k + 1) n (1 + 83 * n) =
        ⟨Status.returned, (List.range' n k).flatMap (page_events cbs tree tvb),
         1 + 83 * nr_pages⟩ := by
  intro k
  induction k with
  | zero =>
    intro n hn
    rw [dissect_sabp_cb_data_loop, if_neg (by omega)]
    simp only [Nat.add_zero] at hn
    simp [hn]
  | succ k ih =>
    intro n hn
    have hnlt : n < nr_pages := by omega
    obtain ⟨unpacked, hu⟩ := hcbs n hnlt
    have h83 : 1 + 83 * n + 83 ≤ tvb.length := by omega
    have h82 : 1 + 83 * n + 82 ≤ tvb.length := by omega
    have h1 : 1 + 83 * n + 82 + 1 ≤ tvb.length := by omega
    have ho : 1 + 83 * n ≤ tvb.length := by omega
    have hlt : 1 + 83 * n + 82 < tvb.length := by omega
    have hbyte : tvb[1 + 83 * n + 82]? = some tvb[1 + 83 * n + 82] :=
      List.getElem?_eq_getElem hlt
    have hnext : 1 + 83 * n + 82 + 1 = 1 + 83 * (n + 1) := by omega
    rw [hbyte] at hu
    simp only [Option.getD_some] at hu
    rw [dissect_sabp_cb_data_loop, if_pos hnlt]
    simp only [proto_tree_add_subtree_format, proto_tree_add_item, tvb_get_guint8,
      tvb_new_subset_length, if_pos h83, if_pos h82, if_pos h1, if_pos ho, hbyte, hu,
      tvb_captured_length]
    rw [hnext, ih (n + 1) (by omega), List.range'_succ, List.flatMap_cons]
    simp only [page_events, hbyte, Option.getD_some, hu]
    cases tree <;> simp

/-- Whenever the loop of `dissect_sabp_cb_data` returns (no exception), it has
dissected every remaining page. -/
theorem dissect_sabp_cb_data_loop_returned (cbs : List Nat → Nat → Option (Option (List Nat)))
    (tree : Bool) (tvb : List Nat) (nr_pages : Nat) :
    ∀ (k n : Nat), n + k = nr_pages →
      (dissect_sabp_cb_data_loop cbs tree tvb nr_pages (k + 1) n (1 + 83 * n)).status
        = Status.returned →
      dissect_sabp_cb_data_loop cbs tree tvb nr_pages (k + 1) n (1 + 83 * n) =
        ⟨Status.returned, (List.range' n k).flatMap (page_events cbs tree tvb),
         1 + 83 * nr_pages⟩ := by
  intro k
  induction k with
  | zero =>
    intro n hn _
    rw [dissect_sabp_cb_data_loop, if_neg (by omega)]
    simp only [Nat.add_zero] at hn
    simp [hn]
  | succ k ih =>
    intro n hn hst
    have hnlt : n < nr_pages := by omega
    have hnext : 1 + 83 * n + 82 + 1 = 1 + 83 * (n + 1) := by omega
    rw [dissect_sabp_cb_data_loop, if_pos hnlt] at hst ⊢
    by_cases h83 : 1 + 83 * n + 83 ≤ tvb.length
    · have h82 : 1 + 83 * n + 82 ≤ tvb.length := by omega
      have h1 : 1 + 83 * n + 82 + 1 ≤ tvb.length := by omega
      have ho : 1 + 83 * n ≤ tvb.length := by omega
      have hlt : 1 + 83 * n + 82 < tvb.length := by omega
      have hbyte : tvb[1 + 83 * n + 82]? = some tvb[1 + 83 * n + 82] :=
        List.getElem?_eq_getElem hlt
      simp only [proto_tree_add_subtree_format, proto_tree_add_item, tvb_get_guint8,
        tvb_new_subset_length, if_pos h83, if_pos h82, if_pos h1, if_pos ho, hbyte] at hst ⊢
      cases hc : cbs ((tvb.drop (1 + 83 * n)).take tvb[1 + 83 * n + 82])
          tvb[1 + 83 * n + 82] with
      | none => simp [hc] at hst
      | some unpacked_tvb =>
        cases unpacked_tvb with
        | none => simp [hc, tvb_captured_length] at hst
        | some unpacked =>
          simp only [hc, tvb_captured_length, hnext] at hst ⊢
          rw [ih (n + 1) (by omega) hst, List.range'_succ, List.flatMap_cons]
          simp only [page_events, hbyte, Option.getD_some, hc]
          cases tree <;> simp
    · simp [proto_tree_add_subtree_format, h83] at hst

/-- The loop of `dissect_sabp_cb_data` has enough fuel. -/
theorem dissect_sabp_cb_data_loop_fuel (cbs : List Nat → Nat → Option (Option (List Nat)))
    (tree : Bool) (tvb : List Nat) (nr_pages : Nat) :
    ∀ (k n o : Nat), n + k = nr_pages →
      (dissect_sabp_cb_data_loop cbs tree tvb nr_pages (k + 1) n o).status ≠ Status.nofuel := by
  intro k
  induction k with
  | zero =>
    intro n o hn
    rw [dissect_sabp_cb_data_loop, if_neg (by omega)]
    simp
  | succ k ih =>
    intro n o hn
    rw [dissect_sabp_cb_data_loop, if_pos (by omega)]
    repeat' split
    all_goals first
      | exact ih (n + 1) _ (by omega)
      | (simp; done)
      | (cases hq : proto_tree_add_item tvb Hf.hf_sabp_cb_inf_len (o + 82) 1
         · simp [hq]
         · simp only [hq]
           exact ih (n + 1) _ (by omega))

/-- Filtering a concatenation of blocks that each hold exactly one match. -/
theorem filter_pages (p : Event → Bool) (f : Nat → List Event) (g : Nat → Event)
    (h : ∀ n, (f n).filter p = [g n]) : ∀ l : List Nat, (l.flatMap f).filter p = l.map g := by
  intro l
  induction l with
  | nil => rfl
  | cons a l ih => simp [List.flatMap_cons, List.filter_append, h, ih]

theorem page_events_pages (cbs : List Nat → Nat → Option (Option (List Nat))) (tree : Bool)
    (tvb : List Nat) (n : Nat) :
    (page_events cbs tree tvb n).filter is_page
      = [Event.add_subtree_format (1 + 83 * n) 83 (n + 1)] := by
  unfold page_events
  split <;> cases tree <;> simp [is_page, List.filter]

theorem page_events_inf_pages (cbs : List Nat → Nat → Option (Option (List Nat))) (tree : Bool)
    (tvb : List Nat) (n : Nat) :
    (page_events cbs tree tvb n).filter is_inf_page
      = [Event.add_item Hf.hf_sabp_cb_msg_inf_page (1 + 83 * n) 82] := by
  unfold page_events
  split <;> cases tree <;> simp [is_inf_page, List.filter]

theorem page_events_inf_lens (cbs : List Nat → Nat → Option (Option (List Nat))) (tree : Bool)
    (tvb : List Nat) (n : Nat) :
    (page_events cbs tree tvb n).filter is_inf_len
      = [Event.add_item Hf.hf_sabp_cb_inf_len (1 + 83 * n + 82) 1] := by
  unfold page_events
  split <;> cases tree <;> simp [is_inf_len, List.filter]

/-- C28: the pages of `dissect_sabp_cb_data`.  Let `nr_pages` be the first
octet.  If it is greater than 15, only the Number-of-Pages item is added and
no page is dissected.  Otherwise, when the buffer holds the `nr_pages` pages
and `dissect_cbs_data` (a parameter of the model) returns an unpacked tvbuff
for each page, the function returns after dissecting exactly `nr_pages` pages:
the events are the Number-of-Pages item followed by the events of the pages 0,
1, ... in order; page `n` is the subtree over the 83 bytes at `1 + 83 * n`, its
information page is the item over the first 82 of them, its information length
the item over the one octet at `1 + 83 * n + 82`; and the offset after the last
page is `1 + 83 * nr_pages`.  Conversely, whenever the function returns (it is
not left by an exception) with `nr_pages ≤ 15`, it has dissected exactly these
`nr_pages` pages; the model never runs out of fuel. -/
theorem dissect_sabp_cb_data_pages (cbs : List Nat → Nat → Option (Option (List Nat)))
    (tree : Bool) (tvb : List Nat) (nr_pages : Nat) (h0 : tvb[0]? = some nr_pages) :
    (15 < nr_pages →
      dissect_sabp_cb_data cbs tree tvb
        = ⟨Status.returned, [Event.add_item Hf.hf_sabp_no_of_pages 0 1], 1⟩ ∧
      (dissect_sabp_cb_data cbs tree tvb).events.filter is_page = []) ∧
    (nr_pages ≤ 15 → 1 + 83 * nr_pages ≤ tvb.length →
      (∀ n : Nat, n < nr_pages → ∃ unpacked,
        cbs ((tvb.drop (1 + 83 * n)).take ((tvb[1 + 83 * n + 82]?).getD 0))
          ((tvb[1 + 83 * n + 82]?).getD 0) = some (some unpacked)) →
      (dissect_sabp_cb_data cbs tree tvb).status = Status.returned ∧
      (dissect_sabp_cb_data cbs tree tvb).offset = 1 + 83 * nr_pages ∧
      (dissect_sabp_cb_data cbs tree tvb).events
        = Event.add_item Hf.hf_sabp_no_of_pages 0 1 ::
            (List.range nr_pages).flatMap (page_events cbs tree tvb) ∧
      (dissect_sabp_cb_data cbs tree tvb).events.filter is_page
        = (List.range nr_pages).map (fun n => Event.add_subtree_format (1 + 83 * n) 83 (n + 1)) ∧
      (dissect_sabp_cb_data cbs tree tvb).events.filter is_inf_page
        = (List.range nr_pages).map
            (fun n => Event.add_item Hf.hf_sabp_cb_msg_inf_page (1 + 83 * n) 82) ∧
      (dissect_sabp_cb_data cbs tree tvb).events.filter is_inf_len
        = (List.range nr_pages).map
            (fun n => Event.add_item Hf.hf_sabp_cb_inf_len (1 + 83 * n + 82) 1)) ∧
    (nr_pages ≤ 15 → (dissect_sabp_cb_data cbs tree tvb).status = Status.returned →
      (dissect_sabp_cb_data cbs tree tvb).offset = 1 + 83 * nr_pages ∧
      (dissect_sabp_cb_data cbs tree tvb).events
        = Event.add_item Hf.hf_sabp_no_of_pages 0 1 ::
            (List.range nr_pages).flatMap (page_events cbs tree tvb) ∧
      (dissect_sabp_cb_data cbs tree tvb).events.filter is_page
        = (List.range nr_pages).map
            (fun n => Event.add_subtree_format (1 + 83 * n) 83 (n + 1))) ∧
    (dissect_sabp_cb_data cbs tree tvb).status ≠ Status.nofuel := by
  have hL : 0 + 1 ≤ tvb.length := by
    by_contra hc
    rw [List.getElem?_eq_none (by omega)] at h0
    exact absurd h0 (by simp)
  refine ⟨?_, ?_, ?_, ?_⟩
  · intro hgt
    have hd : dissect_sabp_cb_data cbs tree tvb
        = ⟨Status.returned, [Event.add_item Hf.hf_sabp_no_of_pages 0 1], 1⟩ := by
      unfold dissect_sabp_cb_data
      simp only [tvb_get_guint8, h0, proto_tree_add_item, if_pos hL]
      rw [if_pos hgt]
    refine ⟨hd, ?_⟩
    rw [hd]
    simp [is_page, List.filter]
  · intro hle hlen hcbs
    have hloop := dissect_sabp_cb_data_loop_pages cbs tree tvb nr_pages hlen hcbs nr_pages 0
      (by omega)
    have hd : dissect_sabp_cb_data cbs tree tvb
        = ⟨Status.returned,
           Event.add_item Hf.hf_sabp_no_of_pages 0 1 ::
             (List.range nr_pages).flatMap (page_events cbs tree tvb),
           1 + 83 * nr_pages⟩ := by
      unfold dissect_sabp_cb_data
      simp only [tvb_get_guint8, h0, proto_tree_add_item, if_pos hL]
      rw [if_neg (by omega)]
      have e : 1 + 83 * 0 = 0 + 1 := by omega
      rw [e] at hloop
      simp only [hloop, List.range_eq_range']
    rw [hd]
    refine ⟨rfl, rfl, rfl, ?_, ?_, ?_⟩
    · simp only [List.filter_cons]
      rw [filter_pages is_page _ _ (page_events_pages cbs tree tvb)]
      simp [is_page]
    · simp only [List.filter_cons]
      rw [filter_pages is_inf_page _ _ (page_events_inf_pages cbs tree tvb)]
      simp [is_inf_page]
    · simp only [List.filter_cons]
      rw [filter_pages is_inf_len _ _ (page_events_inf_lens cbs tree tvb)]
      simp [is_inf_len]
  · intro hle hst
    have hshape : dissect_sabp_cb_data cbs tree tvb =
        ⟨(dissect_sabp_cb_data_loop cbs tree tvb nr_pages (nr_pages + 1) 0 (1 + 83 * 0)).status,
         Event.add_item Hf.hf_sabp_no_of_pages 0 1 ::
           (dissect_sabp_cb_data_loop cbs tree tvb nr_pages (nr_pages + 1) 0 (1 + 83 * 0)).events,
         (dissect_sabp_cb_data_loop cbs tree tvb nr_pages (nr_pages + 1) 0 (1 + 83 * 0)).offset⟩ := by
      unfold dissect_sabp_cb_data
      simp only [tvb_get_guint8, h0, proto_tree_add_item, if_pos hL]
      rw [if_neg (by omega)]
    rw [hshape] at hst ⊢
    simp only at hst
    have hloop := dissect_sabp_cb_data_loop_returned cbs tree tvb nr_pages nr_pages 0
      (by omega) hst
    rw [hloop]
    refine ⟨rfl, by simp only [List.range_eq_range'], ?_⟩
    simp only [List.filter_cons, ← List.range_eq_range']
    rw [filter_pages is_page _ _ (page_events_pages cbs tree tvb)]
    simp [is_page]
  · unfold dissect_sabp_cb_data
    simp only [tvb_get_guint8, h0, proto_tree_add_item, if_pos hL]
    by_cases hgt : nr_pages > 15
    · rw [if_pos hgt]
      simp
    · rw [if_neg hgt]
      exact dissect_sabp_cb_data_loop_fuel cbs tree tvb nr_pages nr_pages 0 _ (by omega)

/-- Witness of C28: a CB Data element of two pages (167 bytes), each with the
information length 2, and one with the first octet 16. -/
theorem dissect_sabp_cb_data_pages_witness :
    (dissect_sabp_cb_data (fun page _ => some (some page)) true
      (2 :: (List.replicate 82 65 ++ [2] ++ (List.replicate 82 66 ++ [2])))).offset
      = 1 + 83 * 2 ∧
    dissect_sabp_cb_data (fun page _ => some (some page)) true [16, 1, 2, 3]
      = ⟨Status.returned, [Event.add_item Hf.hf_sabp_no_of_pages 0 1], 1⟩ :=
  ⟨((dissect_sabp_cb_data_pages (fun page _ => some (some page)) true
      (2 :: (List.replicate 82 65 ++ [2] ++ (List.replicate 82 66 ++ [2]))) 2
      (List.getElem?_cons_zero)).2.1
      (by decide)
      (by
        simp only [List.length_cons, List.length_append, List.length_replicate,
          List.length_nil]
        omega)
      (fun n _ => ⟨_, rfl⟩)).2.1,
   ((dissect_sabp_cb_data_pages (fun page _ => some (some page)) true [16, 1, 2, 3] 16
      (List.getElem?_cons_zero)).1 (by decide)).1⟩

end Sabp
